import Mathlib

/-!
Verification of the FM-Index / FMD-Index core of rust-bio
(`src/data_structures/fmindex.rs`) against its specification.

The source file is embedded shallowly: byte strings are `List Nat`, machine
integers are `Nat` with explicit `% 2 ^ 64` where usize wrap-around matters,
and every fallible operation (index panics, usize underflow) returns
`Option`, `none` standing for a panic.  The external collaborators that the
source only declares (`suffix_array`, `bwt`, `Occ::get`, `less`, the
alphabets and the DNA complement) are modelled from their contracts in the
specification; each such definition is marked `Modelled from the spec`.
-/

namespace RB

/-- Boolean lexicographic less-or-equal on byte lists. -/
def lexLe : List Nat → List Nat → Bool
  | [], _ => true
  | _ :: _, [] => false
  | a :: as, b :: bs => a < b || (a == b && lexLe as bs)

/-- Suffix order on positions of `text`. -/
def suffLe (text : List Nat) (i j : Nat) : Prop :=
  lexLe (text.drop i) (text.drop j) = true

instance (text : List Nat) : DecidableRel (suffLe text) := fun i j => by
  unfold suffLe; infer_instance

/-- Modelled from the spec: `suffix_array(text)` (external contract, §6) — the
permutation of `0..n` sorting the suffixes of `text` lexicographically. -/
def suffix_array (text : List Nat) : List Nat :=
  List.insertionSort (suffLe text) (List.range text.length)

/-- Modelled from the spec: `bwt(text, SA)` (external contract, §6 and
glossary) — position `i` holds the symbol preceding `SA[i]` with wrap-around:
`B[i] = text[(SA[i] + n - 1) mod n]`. -/
def bwtOf (text : List Nat) (sa : List Nat) : List Nat :=
  sa.map (fun p => text.getD ((p + text.length - 1) % text.length) 0)

/-- Modelled from the spec: the `Less` array built by `less(bwt, alphabet)` —
`C[a]` is the number of symbols of the BWT strictly less than `a` (§3). -/
def lessC (B : List Nat) (a : Nat) : Nat :=
  (B.filter (fun b => decide (b < a))).length

/-- Count of symbol `a` among the first `l` entries of `B`.  This is the
guarded quantity `Occ(l - 1, a) if l > 0 else 0` used by the source. -/
def rankB (B : List Nat) (l : Nat) (a : Nat) : Nat :=
  ((B.take l).filter (fun b => decide (b = a))).length

/-- Modelled from the spec: `Occ::get(bwt, r, a)` (external contract, §6) —
count of `a` in `B[0..r]` inclusive; `r ≥ n` is a panic (`none`). -/
def occ? (B : List Nat) (r : Nat) (a : Nat) : Option Nat :=
  if r < B.length then some (rankB B (r + 1) a) else none

/-- A suffix-array interval (the `Interval` struct of the source, without the
back-reference to the owning index). -/
structure Interval where
  lower : Nat
  upper : Nat
deriving Repr, DecidableEq

/-- One iteration of the `backward_search` loop of the source, processing one
pattern symbol `a` (taken from the right).  The value `none` models a panic:
an out-of-range `Occ` access, or the usize underflow in
`r = less + self.occ(r, a) - 1` when `less + occ(r, a) = 0`. -/
def bsStep (B : List Nat) (lr : Nat × Nat) (a : Nat) : Option (Nat × Nat) := do
  let less := lessC B a
  let lo ← if lr.1 > 0 then occ? B (lr.1 - 1) a else some 0
  let ro ← occ? B lr.2 a
  if less + ro = 0 then none
  else some (less + lo, less + ro - 1)

/-- Function `FMIndex::backward_search` of the source: starting from
`(l, r) = (0, n - 1)`, fold `bsStep` over the reversed pattern and return
`Interval { lower := l, upper := r + 1 }`.  The value `none` models a panic
(including the underflow of `bwt().len() - 1` on an empty BWT). -/
def backward_search (B : List Nat) (pattern : List Nat) : Option Interval := do
  if B.length = 0 then none
  else
    let lr ← pattern.reverse.foldlM (bsStep B) (0, B.length - 1)
    some ⟨lr.1, lr.2 + 1⟩

/-- Function `SAAndFMIndex::positions_from_interval` of the source: the
suffix-array slice `sa[lower..upper]`; `none` models the slice-bounds panic. -/
def positions_from_interval (sa : List Nat) (iv : Interval) : Option (List Nat) :=
  if iv.lower ≤ iv.upper ∧ iv.upper ≤ sa.length then
    some ((sa.take iv.upper).drop iv.lower)
  else none

/-- Composition used by `Interval::occ` on the explicit-suffix-array index:
run `backward_search` and hand the interval to the position locator. -/
def backward_search_occ (text pattern : List Nat) : Option (List Nat) :=
  (backward_search (bwtOf text (suffix_array text)) pattern).bind
    (positions_from_interval (suffix_array text))

/-- Boolean test that `p` is a prefix of `s`. -/
def isPrefb : List Nat → List Nat → Bool
  | [], _ => true
  | _ :: _, [] => false
  | a :: as, b :: bs => a == b && isPrefb as bs

/-- Boolean test that pattern `p` occurs in `text` at position `j`, i.e. that
`text[j..j + |p|] = p` (equivalently, `p` is a prefix of the suffix at `j`). -/
def occursAt (text p : List Nat) (j : Nat) : Bool :=
  isPrefb p (text.drop j)

/-- Modelled from the spec: `alphabets::dna::n_alphabet()` — the DNA alphabet
with `N`, upper and lower case (§6). -/
def n_alphabet : List Nat := [65, 67, 71, 84, 78, 97, 99, 103, 116, 110]

/-- Boolean test of `Alphabet::is_word` — every byte belongs to the
alphabet (modelled from the spec, §6). -/
def is_word (alph : List Nat) (B : List Nat) : Bool :=
  B.all (fun b => alph.contains b)

/-- Result of a successful `FMIndex::as_fmdindex` conversion: the wrapper
retains the underlying index (here, its BWT). -/
structure FMDIndexW where
  bwt : List Nat
deriving Repr, DecidableEq

/-- Function `FMIndex::as_fmdindex` of the source: assert that the BWT is a
word over the DNA-with-N alphabet extended with the sentinel `$`; on failure
(`assert!`) no FMD index is created (`none`). -/
def as_fmdindex (B : List Nat) : Option FMDIndexW :=
  if is_word (36 :: n_alphabet) B then some ⟨B⟩ else none

/-- Modelled from the spec: `RevComp::comp` (external contract, §6) — DNA
complement, `A ↔ T`, `C ↔ G`, `N ↔ N`, case preserved, the sentinel and all
other bytes fixed. -/
def comp (a : Nat) : Nat :=
  if a = 65 then 84 else if a = 84 then 65
  else if a = 67 then 71 else if a = 71 then 67
  else if a = 97 then 116 else if a = 116 then 97
  else if a = 99 then 103 else if a = 103 then 99
  else a

/-- Modelled from the spec: `RevComp::get` — reverse complement of a byte
string. -/
def revcomp (s : List Nat) : List Nat := (s.map comp).reverse

/-- The `BiInterval` struct of the source (without the index back-reference). -/
structure BiInterval where
  lower : Nat
  lower_rev : Nat
  size : Nat
  match_size : Nat
deriving Repr, DecidableEq

/-- Function `BiInterval::forward` of the source. -/
def BiInterval.forward (bi : BiInterval) : Interval :=
  ⟨bi.lower, bi.lower + bi.size⟩

/-- Function `BiInterval::reverse` of the source — note that the source sets
`lower := self.lower` (not `self.lower_rev`). -/
def BiInterval.reverse (bi : BiInterval) : Interval :=
  ⟨bi.lower, bi.lower_rev + bi.size⟩

/-- Function `BiInterval::swapped` of the source. -/
def BiInterval.swapped (bi : BiInterval) : BiInterval :=
  ⟨bi.lower_rev, bi.lower, bi.size, bi.match_size⟩

/-- The fixed symbol iteration order `b"$TGCNAtgcna"` of
`FMDIndex::backward_ext`. -/
def extList : List Nat := [36, 84, 71, 67, 78, 65, 116, 103, 99, 110, 97]

/-- Inner loop of `FMDIndex::backward_ext`: iterate `b` over `extList`,
updating the state `(s, o, l)`, breaking when `b = a`.  The value `none`
models an out-of-range `Occ` access. -/
def bextLoop (B : List Nat) (lower size : Nat) (a : Nat) :
    List Nat → Nat × Nat × Nat → Option (Nat × Nat × Nat)
  | [], st => some st
  | b :: bs, st => do
    let l := st.2.2 + st.1
    let o ← occ? B (lower - 1) b
    let hi ← occ? B (lower + size - 1) b
    let s := hi - o
    if b = a then some (s, o, l)
    else bextLoop B lower size a bs (s, o, l)

/-- Function `FMDIndex::backward_ext` of the source.  The value `none` models
a panic: the usize underflow of `interval.lower - 1` when `lower = 0` (the
source has no guard; in a debug build the subtraction itself panics, in a
release build the wrapped index makes `Occ::get` panic), or an out-of-range
`Occ` access. -/
def backward_ext (B : List Nat) (iv : BiInterval) (a : Nat) : Option BiInterval := do
  if iv.lower = 0 then none
  else
    let st ← bextLoop B iv.lower iv.size a extList (0, 0, iv.lower_rev)
    some ⟨lessC B a + st.2.1, st.2.2, st.1, iv.match_size + 1⟩

/-- Function `FMDIndex::forward_ext` of the source: swap the strands,
backward-extend with the complement, swap back. -/
def forward_ext (B : List Nat) (iv : BiInterval) (a : Nat) : Option BiInterval :=
  (backward_ext B iv.swapped (comp a)).map BiInterval.swapped

/-- Function `FMDIndex::init_interval` of the source.  The value `none`
models the index panic of `pattern[i]` for out-of-range `i`, or the `u8`
overflow of `a + 1`. -/
def init_interval (B : List Nat) (pattern : List Nat) (i : Nat) : Option BiInterval := do
  let a ← pattern[i]?
  if a = 255 then none
  else
    some ⟨lessC B a, lessC B (comp a), lessC B (a + 1) - lessC B a, 1⟩

/-- Phase 1 of `FMDIndex::smems`: forward extension over `pattern[i+1..]`,
pushing the previous interval whenever the size changes, stopping when the
size reaches zero; returns the accumulated list and the last interval (which
the source pushes after the loop). -/
def smemsPhase1 (B : List Nat) :
    List Nat → BiInterval → List BiInterval → Option (List BiInterval × BiInterval)
  | [], iv, acc => some (acc, iv)
  | a :: as, iv, acc => do
    let fi ← forward_ext B iv a
    let acc' := if iv.size ≠ fi.size then acc ++ [iv] else acc
    if fi.size = 0 then some (acc', iv)
    else smemsPhase1 B as fi acc'

/-- One inner step of phase 2 of `FMDIndex::smems`, processing one element of
`prev`.  The state is `(curr, last_size, j, matches)`. -/
def smemsStep (B : List Nat) (a : Nat) (k : Int)
    (st : List BiInterval × Int × Int × List BiInterval) (iv : BiInterval) :
    Option (List BiInterval × Int × Int × List BiInterval) := do
  let (curr, last, j, ms) := st
  let fi ← backward_ext B iv a
  let (j', ms') :=
    if (fi.size = 0 ∨ k = -1) ∧ curr = [] ∧ k < j then (k, ms ++ [iv]) else (j, ms)
  let (curr', last') :=
    if fi.size ≠ 0 ∧ (fi.size : Int) ≠ last then (curr ++ [fi], (fi.size : Int))
    else (curr, last)
  some (curr', last', j', ms')

/-- Phase 2 of `FMDIndex::smems`: the index `k` runs from `i - 1` down to
`-1`; the counter `c` encodes `k = c - 1`, so `c = 0` is the sentinel
iteration `k = -1`, after which the loop ends. -/
def smemsPhase2 (B : List Nat) (pattern : List Nat) :
    Nat → List BiInterval → Int → List BiInterval → Option (List BiInterval)
  | 0, prev, j, ms => do
    let st ← prev.foldlM (smemsStep B 36 (-1)) ([], -1, j, ms)
    some st.2.2.2
  | c + 1, prev, j, ms => do
    let a ← pattern[c]?
    let st ← prev.foldlM (smemsStep B a (c : Int)) ([], -1, j, ms)
    if st.1 = [] then some st.2.2.2
    else smemsPhase2 B pattern c st.1 st.2.2.1 st.2.2.2

/-- Function `FMDIndex::smems` of the source. -/
def smems (B : List Nat) (pattern : List Nat) (i : Nat) : Option (List BiInterval) := do
  let iv0 ← init_interval B pattern i
  let st ← smemsPhase1 B (pattern.drop (i + 1)) iv0 []
  smemsPhase2 B pattern i ((st.1 ++ [st.2]).reverse) (pattern.length : Int) []

/-- Suffix-array sample of `SampledFMIndex::new`: every `s`-th entry of the
suffix array (by row index). -/
def saSample (sa : List Nat) (s : Nat) : List Nat :=
  (List.range ((sa.length + s - 1) / s)).map (fun j => sa.getD (j * s) 0)

/-- Function `SampledFMIndex::sa_pos_to_text_pos` of the source, with
release-build (wrap-around) usize semantics: `offset` starts at `0` and the
source executes `offset -= 1` each step, which wraps modulo `2 ^ 64` (in a
debug build the very first decrement panics); the return value is
`sample[pos / s] + offset`, again modulo `2 ^ 64`.  The `fuel` argument
bounds the loop; `none` also models the out-of-range index panics. -/
def sa_pos_to_text_pos (B sample : List Nat) (s : Nat) :
    Nat → Nat → Nat → Option Nat
  | 0, _, _ => none
  | fuel + 1, pos, offt =>
    if s = 0 then none
    else if pos % s = 0 then
      (sample[pos / s]?).map (fun v => (v + offt) % 2 ^ 64)
    else do
      let c ← B[pos]?
      let o ← occ? B (pos - 1) c
      sa_pos_to_text_pos B sample s fuel (lessC B c + o) ((offt + (2 ^ 64 - 1)) % 2 ^ 64)

/-- Strictly-below test: the suffix `s` lies lexicographically before every
list that has `w` as a prefix. -/
def sltb (s w : List Nat) : Bool :=
  lexLe s w && !(isPrefb w s)

/-- Below-or-within test: the suffix `s` lies lexicographically before, or
has, the prefix `w`. -/
def sleb (s w : List Nat) : Bool :=
  lexLe s w || isPrefb w s

/-- Number of suffix-array rows strictly below the block of rows whose
suffix starts with `w`. -/
def nBelow (text w : List Nat) : Nat :=
  (suffix_array text).countP (fun p => sltb (text.drop p) w)

/-- Number of suffix-array rows below or inside the block of rows whose
suffix starts with `w`. -/
def nBelowOrIn (text w : List Nat) : Nat :=
  (suffix_array text).countP (fun p => sleb (text.drop p) w)

/-- Count of occurrences of symbol `a` in the whole of `B`. -/
def cntEq (B : List Nat) (a : Nat) : Nat :=
  (B.filter (fun b => decide (b = a))).length

/-- Bi-interval built by the extension algebra for the substring
`pattern[k..j)` of a pattern anchored at position `i`: initialise at `i`,
forward-extend over `pattern[i+1..j)` left to right, then backward-extend
over `pattern[k..i)` right to left.  Every interval that `smems` manipulates
has this shape. -/
def extendRight (B pattern : List Nat) (i j : Nat) : Option BiInterval := do
  let iv0 ← init_interval B pattern i
  ((pattern.take j).drop (i + 1)).foldlM (forward_ext B) iv0

/-- Chain extension of `extendRight` to the left end `k` (see `extendRight`). -/
def extendChain (B pattern : List Nat) (k i j : Nat) : Option BiInterval := do
  let ivr ← extendRight B pattern i j
  ((pattern.take i).drop k).reverse.foldlM (backward_ext B) ivr

/-- Number of suffix-array rows whose suffix starts with `w`: the size of
the SA block of `w`. -/
def cnt (t w : List Nat) : Nat := nBelowOrIn t w - nBelow t w

/-- Number of positions of `t` at which the string `X` occurs. -/
def occCount (t X : List Nat) : Nat :=
  (List.range t.length).countP (fun j => occursAt t X j)

/-- Boolean test that `X` is a suffix of `v`. -/
def isSufb (X : List Nat) : List Nat → Bool
  | [] => X.isEmpty
  | d :: v => (X == d :: v) || isSufb X v

/-- Text built from a list of sentinel-terminated blocks: `u₁$u₂$…uₘ$`. -/
def withSep (blocks : List (List Nat)) : List Nat :=
  (blocks.map (fun u => u ++ [36])).flatten

/-- Block list of an FMD text: each primary sequence followed by its reverse
complement. -/
def fmdBlocks (pairs : List (List Nat)) : List (List Nat) :=
  pairs.flatMap (fun u => [u, revcomp u])

/-- Modelled from the spec: the FMD text shape `T₁$R₁$T₂$R₂$…` with
`Rᵢ = revcomp(Tᵢ)` (§4.3). -/
def fmdText (pairs : List (List Nat)) : List Nat := withSep (fmdBlocks pairs)

/-- Reachability of a `BiInterval` by the FMD extension calls on the index of
text `t`, together with the match string the calls spell: `init_interval`
starts with a one-symbol string, `backward_ext` prepends a symbol, and
`forward_ext` appends one.  Only symbols of the DNA-with-N alphabet are
considered (the FMD alphabet of the claim). -/
inductive ReachBI (t : List Nat) : BiInterval → List Nat → Prop
  | init (pattern : List Nat) (i : Nat) (a : Nat) (iv : BiInterval) :
      pattern[i]? = some a → a ∈ n_alphabet →
      init_interval (bwtOf t (suffix_array t)) pattern i = some iv →
      ReachBI t iv [a]
  | bwd (iv : BiInterval) (P : List Nat) (a : Nat) (iv' : BiInterval) :
      ReachBI t iv P → a ∈ n_alphabet →
      backward_ext (bwtOf t (suffix_array t)) iv a = some iv' →
      ReachBI t iv' (a :: P)
  | fwd (iv : BiInterval) (P : List Nat) (a : Nat) (iv' : BiInterval) :
      ReachBI t iv P → a ∈ n_alphabet →
      forward_ext (bwtOf t (suffix_array t)) iv a = some iv' →
      ReachBI t iv' (P ++ [a])

/-- The substring `pattern[k..j)` (proof-layer abbreviation). -/
def seg (pattern : List Nat) (k j : Nat) : List Nat := (pattern.take j).drop k

/-- The suffix-array-semantic bi-interval of the substring `pattern[k..j)`
of a text `t`: forward interval starting at the count of rows below the
substring, reverse interval at the count of rows below its reverse
complement, size the number of occurrences, match size the length
(proof-layer abbreviation used to state the loop invariants of `smems`). -/
def mkIv (t pattern : List Nat) (k j : Nat) : BiInterval :=
  ⟨nBelow t (seg pattern k j), nBelow t (revcomp (seg pattern k j)),
    cnt t (seg pattern k j), j - k⟩

/-- Two strings with identical occurrence sets in `t` (proof-layer). -/
def OccEq (t X Y : List Nat) : Prop := ∀ p, occursAt t X p = occursAt t Y p

-- ===================================================================
-- Theorems
-- ===================================================================

theorem rankB_le_cntEq (B : List Nat) (l : Nat) (a : Nat) :
    rankB B l a ≤ cntEq B a :=
  ((B.take_sublist l).filter _).length_le

theorem lessC_add_cntEq_le (B : List Nat) (a : Nat) :
    lessC B a + cntEq B a ≤ B.length := by
  have h1 : cntEq B a ≤ (B.filter (fun b => !decide (b < a))).length := by
    have heq : B.filter (fun b => decide (b = a))
        = (B.filter (fun b => !decide (b < a))).filter (fun b => decide (b = a)) := by
      rw [List.filter_filter]
      apply List.filter_congr
      intro b _
      by_cases hb : b = a
      · subst hb; simp
      · simp [hb]
    rw [cntEq, heq]
    exact (List.filter_sublist _).length_le
  have h2 : (B.filter (fun b => decide (b < a))).length
      + (B.filter (fun b => !decide (b < a))).length = B.length :=
    (List.length_eq_length_filter_add _).symm
  unfold lessC
  omega

theorem bsStep_some (B : List Nat) (lr : Nat × Nat) (a : Nat)
    (ha : 1 ≤ lessC B a) (h1 : lr.1 ≤ B.length) (h2 : lr.2 < B.length) :
    ∃ lr', bsStep B lr a = some lr' ∧ lr'.1 ≤ B.length ∧ lr'.2 < B.length := by
  have hlen : 1 ≤ B.length := by omega
  have hro : occ? B lr.2 a = some (rankB B (lr.2 + 1) a) := by
    unfold occ?; rw [if_pos h2]
  have hboundro : lessC B a + rankB B (lr.2 + 1) a ≤ B.length :=
    le_trans (Nat.add_le_add_left (rankB_le_cntEq _ _ _) _) (lessC_add_cntEq_le B a)
  by_cases hl : lr.1 > 0
  · have hlo : occ? B (lr.1 - 1) a = some (rankB B lr.1 a) := by
      unfold occ?
      rw [if_pos (by omega)]
      congr 1
      congr 1
      omega
    refine ⟨(lessC B a + rankB B lr.1 a, lessC B a + rankB B (lr.2 + 1) a - 1), ?_, ?_, ?_⟩
    · unfold bsStep
      rw [if_pos hl]
      rw [hlo, hro]
      simp only [Option.bind_some, Option.some_bind, Option.bind_eq_bind]
      rw [if_neg (by omega)]
    · exact le_trans (Nat.add_le_add_left (rankB_le_cntEq _ _ _) _) (lessC_add_cntEq_le B a)
    · omega
  · refine ⟨(lessC B a + 0, lessC B a + rankB B (lr.2 + 1) a - 1), ?_, ?_, ?_⟩
    · unfold bsStep
      rw [if_neg hl]
      rw [hro]
      simp only [Option.bind_some, Option.some_bind, Option.bind_eq_bind]
      rw [if_neg (by omega)]
    · have := lessC_add_cntEq_le B a
      omega
    · omega

theorem bs_fold_some (B : List Nat) (u : List Nat) (lr : Nat × Nat)
    (hu : ∀ a ∈ u, 1 ≤ lessC B a) (h1 : lr.1 ≤ B.length) (h2 : lr.2 < B.length) :
    ∃ lr', u.foldlM (bsStep B) lr = some lr' ∧ lr'.1 ≤ B.length ∧ lr'.2 < B.length := by
  induction u generalizing lr with
  | nil => exact ⟨lr, rfl, h1, h2⟩
  | cons a as ih =>
    obtain ⟨lr', hstep, h1', h2'⟩ := bsStep_some B lr a (hu a (List.mem_cons_self a as)) h1 h2
    obtain ⟨lr'', hfold, h1'', h2''⟩ :=
      ih lr' (fun b hb => hu b (List.mem_cons_of_mem a hb)) h1' h2'
    exact ⟨lr'', by rw [List.foldlM_cons, hstep]; simpa using hfold, h1'', h2''⟩

/-- Claim C7 amended: the `l = 0` case of `backward_search` is guarded and
never underflows, but the update `r = less + Occ(r, a) - 1` underflows in
usize exactly when `less(a) + Occ(r, a) = 0` (see
`backward_search_dollar_dollar_panics`).  For every pattern whose symbols `a`
all satisfy `less(a) ≥ 1` — in particular every pattern over symbols
lexicographically above the sentinel of a sentinel-terminated text, such as
DNA patterns — the loop stays well-defined for all iterations: no panic, no
underflow, and no out-of-range `Occ` read, even after the interval becomes
empty. -/
theorem backward_search_safe (B : List Nat) (hB : 0 < B.length) (p : List Nat)
    (hp : ∀ a ∈ p, 1 ≤ lessC B a) : (backward_search B p).isSome := by
  unfold backward_search
  obtain ⟨lr', hfold, -, -⟩ :=
    bs_fold_some B p.reverse (0, B.length - 1)
      (fun a ha => hp a (List.mem_reverse.mp ha)) (Nat.zero_le _) (by omega)
  rw [if_neg (by omega)]
  simp only [Option.bind_eq_bind]
  rw [hfold]
  simp

/-- Witness for the amended C7: the pattern `AAA` does not occur in the text
`TA$` (BWT `[65, 84, 36]`) and empties the interval, yet the search returns
without a panic. -/
theorem backward_search_safe_witness :
    (backward_search [65, 84, 36] [65, 65, 65]).isSome :=
  backward_search_safe [65, 84, 36] (by decide) [65, 65, 65] (by decide)

/-- Claim C10: on a non-empty BWT, `backward_search` of the empty pattern
performs no loop iteration and returns the full interval `[0, n)`. -/
theorem backward_search_empty_pattern (B : List Nat) (h : 1 ≤ B.length) :
    backward_search B [] = some ⟨0, B.length⟩ := by
  unfold backward_search
  have h0 : ¬ B.length = 0 := by omega
  simp [h0, List.foldlM]
  omega

/-- Witness for C10 at the concrete BWT `[65, 84, 36]` of the text `TA$`. -/
theorem backward_search_empty_pattern_witness :
    backward_search [65, 84, 36] [] = some ⟨0, 3⟩ := by
  have h := backward_search_empty_pattern [65, 84, 36] (by decide)
  simpa using h

/-- Claim C8: converting an FM index into an FMD index succeeds if and only
if every BWT byte lies in the DNA-with-N alphabet extended with `$`; on any
other byte the construction fails and no FMD index value is created. -/
theorem as_fmdindex_iff (B : List Nat) :
    (as_fmdindex B).isSome ↔ ∀ b ∈ B, b = 36 ∨ b ∈ n_alphabet := by
  have hc : ∀ b : Nat, (36 :: n_alphabet).contains b = true ↔ (b = 36 ∨ b ∈ n_alphabet) := by
    intro b
    rw [List.elem_iff]
    simp [List.mem_cons]
  have hw : is_word (36 :: n_alphabet) B = true ↔ ∀ b ∈ B, b = 36 ∨ b ∈ n_alphabet := by
    unfold is_word
    rw [List.all_eq_true]
    constructor
    · intro h b hb; exact (hc b).mp (h b hb)
    · intro h b hb; exact (hc b).mpr (h b hb)
  unfold as_fmdindex
  by_cases h : is_word (36 :: n_alphabet) B = true
  · rw [if_pos h]
    simpa using hw.mp h
  · rw [if_neg h]
    simp only [Option.isSome_none, Bool.false_eq_true, false_iff]
    exact fun hall => h (hw.mpr hall)

/-- Claim C2 (code bug): `BiInterval::reverse` returns
`Interval { lower := bi.lower, upper := bi.lower_rev + bi.size }`, not the
reverse-strand range `[lower_rev, lower_rev + size)` that the specification
prescribes.  Evaluated on the bi-interval produced by `init_interval("T", 0)`
on the text `ACGT$TGCA$` (the source's own `test_init_interval` data), whose
reverse-strand occurrences live at rows `[2, 4)`, the source returns the
absurd interval `[8, 4)`. -/
theorem biinterval_reverse_bug :
    init_interval (bwtOf [65, 67, 71, 84, 36, 84, 71, 67, 65, 36]
        (suffix_array [65, 67, 71, 84, 36, 84, 71, 67, 65, 36]))
        [84] 0 = some ⟨8, 2, 2, 1⟩ ∧
    BiInterval.reverse ⟨8, 2, 2, 1⟩ = ⟨8, 4⟩ ∧
    (⟨8, 4⟩ : Interval) ≠ ⟨2, 4⟩ := by
  refine ⟨by decide, by decide, by decide⟩

/-- Claim C6 (code bug): `FMDIndex::backward_ext` computes
`occ(interval.lower - 1, b)` without guarding `lower = 0`; on a bi-interval
with `lower = 0` the usize subtraction underflows (debug-build panic; in a
release build the wrapped index makes `Occ::get` panic), instead of treating
`Occ(-1, b)` as `0` as the specification states.  Evaluated on the BWT
`[65, 84, 36]` of the text `TA$`. -/
theorem backward_ext_lower_zero_panics :
    backward_ext [65, 84, 36] ⟨0, 0, 1, 1⟩ 65 = none := by decide

/-- Claim C5 (code bug): the sampled suffix-array walk-back decrements
`offset` (a usize) instead of incrementing it, so after `t` walk steps it
returns `SA[i] - 2 t` modulo `2 ^ 64` instead of `SA[i]` (and in a debug
build the first `offset -= 1` already panics).  On the text `TA$` with
sampling rate `s = 2`, row `1` has `SA[1] = 1`, but the source returns
`2 ^ 64 - 1`. -/
theorem sa_pos_to_text_pos_bug :
    suffix_array [84, 65, 36] = [2, 1, 0] ∧
    bwtOf [84, 65, 36] [2, 1, 0] = [65, 84, 36] ∧
    saSample [2, 1, 0] 2 = [2, 0] ∧
    sa_pos_to_text_pos [65, 84, 36] [2, 0] 2 4 1 0 = some (2 ^ 64 - 1) ∧
    (2 ^ 64 - 1 : Nat) ≠ 1 := by
  refine ⟨by decide, by decide, by decide, by decide, by decide⟩

theorem lexLe_refl (s : List Nat) : lexLe s s = true := by
  induction s with
  | nil => rfl
  | cons a as ih => simp [lexLe, ih]

theorem isPrefb_refl (s : List Nat) : isPrefb s s = true := by
  induction s with
  | nil => rfl
  | cons a as ih => simp [isPrefb, ih]

theorem isPrefb_lexLe (w : List Nat) : ∀ s, isPrefb w s = true → lexLe w s = true := by
  induction w with
  | nil => intro s _; rfl
  | cons a as ih =>
    intro s h
    cases s with
    | nil => simp [isPrefb] at h
    | cons b bs =>
      simp only [isPrefb, Bool.and_eq_true, beq_iff_eq] at h
      simp only [lexLe, Bool.or_eq_true, Bool.and_eq_true, decide_eq_true_eq, beq_iff_eq]
      exact Or.inr ⟨h.1, ih bs h.2⟩

theorem lexLe_total (s : List Nat) : ∀ t, lexLe s t = true ∨ lexLe t s = true := by
  induction s with
  | nil => intro t; exact Or.inl rfl
  | cons a as ih =>
    intro t
    cases t with
    | nil => exact Or.inr rfl
    | cons b bs =>
      simp only [lexLe, Bool.or_eq_true, Bool.and_eq_true, decide_eq_true_eq, beq_iff_eq]
      rcases Nat.lt_trichotomy a b with h | h | h
      · exact Or.inl (Or.inl h)
      · rcases ih bs with h' | h'
        · exact Or.inl (Or.inr ⟨h, h'⟩)
        · exact Or.inr (Or.inr ⟨h.symm, h'⟩)
      · exact Or.inr (Or.inl h)

theorem lexLe_trans (s : List Nat) :
    ∀ t u, lexLe s t = true → lexLe t u = true → lexLe s u = true := by
  induction s with
  | nil => intro t u _ _; rfl
  | cons a as ih =>
    intro t u h1 h2
    cases t with
    | nil => simp [lexLe] at h1
    | cons b bs =>
      cases u with
      | nil => simp [lexLe] at h2
      | cons c cs =>
        simp only [lexLe, Bool.or_eq_true, Bool.and_eq_true, decide_eq_true_eq,
          beq_iff_eq] at h1 h2 ⊢
        rcases h1 with h1 | ⟨hab, h1⟩ <;> rcases h2 with h2 | ⟨hbc, h2⟩
        · exact Or.inl (by omega)
        · exact Or.inl (by omega)
        · exact Or.inl (by omega)
        · exact Or.inr ⟨by omega, ih bs cs h1 h2⟩

theorem lexLe_antisymm (s : List Nat) :
    ∀ t, lexLe s t = true → lexLe t s = true → s = t := by
  induction s with
  | nil =>
    intro t _ h2
    cases t with
    | nil => rfl
    | cons b bs => simp [lexLe] at h2
  | cons a as ih =>
    intro t h1 h2
    cases t with
    | nil => simp [lexLe] at h1
    | cons b bs =>
      simp only [lexLe, Bool.or_eq_true, Bool.and_eq_true, decide_eq_true_eq,
        beq_iff_eq] at h1 h2
      rcases h1 with h1 | ⟨hab, h1⟩ <;> rcases h2 with h2 | ⟨hba, h2⟩
      · omega
      · omega
      · omega
      · rw [hab, ih bs h1 h2]

theorem lexLe_between_isPrefb (w : List Nat) :
    ∀ x s, lexLe w x = true → lexLe x s = true → isPrefb w s = true →
      isPrefb w x = true := by
  induction w with
  | nil => intro x s _ _ _; rfl
  | cons a as ih =>
    intro x s h1 h2 h3
    cases x with
    | nil => simp [lexLe] at h1
    | cons b bs =>
      cases s with
      | nil => simp [isPrefb] at h3
      | cons c cs =>
        simp only [lexLe, Bool.or_eq_true, Bool.and_eq_true, decide_eq_true_eq,
          beq_iff_eq] at h1 h2
        simp only [isPrefb, Bool.and_eq_true, beq_iff_eq] at h3 ⊢
        have hac : a = c := h3.1
        have hab : a = b := by
          rcases h1 with h1 | ⟨h1, -⟩ <;> rcases h2 with h2 | ⟨h2, -⟩ <;> omega
        refine ⟨hab, ih bs cs ?_ ?_ h3.2⟩
        · rcases h1 with h1 | ⟨-, h1⟩
          · omega
          · exact h1
        · rcases h2 with h2 | ⟨-, h2⟩
          · omega
          · exact h2

theorem sltb_nil_right (s : List Nat) : sltb s [] = false := by
  cases s with
  | nil => rfl
  | cons a as => rfl

theorem sleb_nil_right (s : List Nat) : sleb s [] = true := by
  cases s with
  | nil => rfl
  | cons a as => rfl

theorem sltb_cons_iff (b a : Nat) (s w : List Nat) :
    sltb (b :: s) (a :: w) = true ↔ (b < a ∨ (b = a ∧ sltb s w = true)) := by
  by_cases hba : b = a
  · subst hba
    have hlt : ¬ b < b := by omega
    simp [sltb, lexLe, isPrefb, hlt]
  · by_cases hlt : b < a
    · simp [sltb, lexLe, isPrefb, hba, hlt, Ne.symm hba]
    · simp [sltb, lexLe, isPrefb, hba, hlt, Ne.symm hba]

theorem sleb_cons_iff (b a : Nat) (s w : List Nat) :
    sleb (b :: s) (a :: w) = true ↔ (b < a ∨ (b = a ∧ sleb s w = true)) := by
  by_cases hba : b = a
  · subst hba
    have hlt : ¬ b < b := by omega
    simp [sleb, lexLe, isPrefb, hlt]
  · by_cases hlt : b < a
    · simp [sleb, lexLe, isPrefb, hba, hlt, Ne.symm hba]
    · simp [sleb, lexLe, isPrefb, hba, hlt, Ne.symm hba]

theorem isPrefb_iff_sleb_not_sltb (w s : List Nat) :
    isPrefb w s = true ↔ (sleb s w = true ∧ sltb s w = false) := by
  unfold sleb sltb
  cases hpref : isPrefb w s
  · simp only [Bool.or_false, Bool.not_false, Bool.and_true]
    constructor
    · intro h; cases h
    · rintro ⟨h1, h2⟩; rw [h1] at h2; cases h2
  · simp

theorem sltb_down (w : List Nat) (s' s : List Nat)
    (hle : lexLe s' s = true) (h : sltb s w = true) : sltb s' w = true := by
  simp only [sltb, Bool.and_eq_true, Bool.not_eq_true'] at h ⊢
  refine ⟨lexLe_trans s' s w hle h.1, ?_⟩
  cases hp : isPrefb w s'
  · rfl
  · exfalso
    have hws' : lexLe w s' = true := isPrefb_lexLe w s' hp
    have hws : lexLe w s = true := lexLe_trans w s' s hws' hle
    have : s = w := lexLe_antisymm s w h.1 hws
    rw [this] at h
    rw [isPrefb_refl] at h
    cases h.2

theorem sleb_down (w : List Nat) (s' s : List Nat)
    (hle : lexLe s' s = true) (h : sleb s w = true) : sleb s' w = true := by
  simp only [sleb, Bool.or_eq_true] at h ⊢
  rcases h with h | h
  · exact Or.inl (lexLe_trans s' s w hle h)
  · rcases lexLe_total s' w with h' | h'
    · exact Or.inl h'
    · exact Or.inr (lexLe_between_isPrefb w s' s h' hle h)

theorem suffix_array_perm (t : List Nat) :
    List.Perm (suffix_array t) (List.range t.length) :=
  List.perm_insertionSort _ _

theorem suffix_array_length (t : List Nat) :
    (suffix_array t).length = t.length := by
  rw [(suffix_array_perm t).length_eq, List.length_range]

theorem mem_suffix_array (t : List Nat) (p : Nat) :
    p ∈ suffix_array t ↔ p < t.length := by
  rw [(suffix_array_perm t).mem_iff, List.mem_range]

theorem suffix_array_nodup (t : List Nat) : (suffix_array t).Nodup :=
  ((suffix_array_perm t).nodup_iff).mpr (List.nodup_range _)

instance suffLe_total (t : List Nat) : IsTotal Nat (suffLe t) :=
  ⟨fun _ _ => lexLe_total _ _⟩

instance suffLe_trans_inst (t : List Nat) : IsTrans Nat (suffLe t) :=
  ⟨fun _ _ _ h1 h2 => lexLe_trans _ _ _ h1 h2⟩

theorem suffix_array_sorted (t : List Nat) :
    List.Pairwise (suffLe t) (suffix_array t) :=
  List.sorted_insertionSort _ _

theorem filter_eq_take_countP (D : Nat → Bool) :
    ∀ (l : List Nat), List.Pairwise (fun i j => D j = true → D i = true) l →
      l.filter D = l.take (l.countP D) := by
  intro l
  induction l with
  | nil => intro _; rfl
  | cons x xs ih =>
    intro hp
    rw [List.pairwise_cons] at hp
    cases hD : D x
    · have hz : xs.countP D = 0 := by
        rw [List.countP_eq_zero]
        intro y hy hDy
        have hx := hp.1 y hy hDy
        rw [hD] at hx
        cases hx
      have hfil : xs.filter D = [] := by
        have hcp := List.countP_eq_length_filter D xs
        rw [hz] at hcp
        exact List.length_eq_zero.mp hcp.symm
      rw [List.filter_cons, List.countP_cons]
      simp [hD, hz, hfil]
    · rw [List.filter_cons, List.countP_cons]
      simp only [hD, if_pos, cond_true]
      rw [List.take_succ_cons, ih hp.2]
theorem take_nBelow_eq_filter (t w : List Nat) :
    (suffix_array t).take (nBelow t w)
      = (suffix_array t).filter (fun p => sltb (t.drop p) w) := by
  unfold nBelow
  refine (filter_eq_take_countP _ _ ?_).symm
  refine (suffix_array_sorted t).imp ?_
  intro i j hij hDj
  exact sltb_down w (t.drop i) (t.drop j) hij hDj

theorem take_nBelowOrIn_eq_filter (t w : List Nat) :
    (suffix_array t).take (nBelowOrIn t w)
      = (suffix_array t).filter (fun p => sleb (t.drop p) w) := by
  unfold nBelowOrIn
  refine (filter_eq_take_countP _ _ ?_).symm
  refine (suffix_array_sorted t).imp ?_
  intro i j hij hDj
  exact sleb_down w (t.drop i) (t.drop j) hij hDj

theorem countP_range_rotate (n : Nat) (P : Nat → Bool) :
    (List.range n).countP (fun p => P ((p + n - 1) % n)) = (List.range n).countP P := by
  cases n with
  | zero => rfl
  | succ m =>
    have hL : (List.range (m + 1)).countP (fun p => P ((p + (m + 1) - 1) % (m + 1)))
        = (List.range m).countP P + if P m then 1 else 0 := by
      rw [List.range_succ_eq_map, List.countP_cons]
      rw [List.countP_map]
      have h1 : (List.range m).countP
          ((fun p => P ((p + (m + 1) - 1) % (m + 1))) ∘ Nat.succ)
          = (List.range m).countP P := by
        refine List.countP_congr ?_
        intro x hx
        rw [List.mem_range] at hx
        have hmod : (Nat.succ x + (m + 1) - 1) % (m + 1) = x := by
          have h2 : Nat.succ x + (m + 1) - 1 = x + (m + 1) := by omega
          rw [h2, Nat.add_mod_right,
            Nat.mod_eq_of_lt (show x < m + 1 by omega)]
        simp only [Function.comp]
        rw [hmod]
      rw [h1]
      have h0 : (0 + (m + 1) - 1) % (m + 1) = m := by
        have h2 : 0 + (m + 1) - 1 = m := by omega
        rw [h2, Nat.mod_eq_of_lt (show m < m + 1 by omega)]
      rw [h0]
    have hR : (List.range (m + 1)).countP P
        = (List.range m).countP P + if P m then 1 else 0 := by
      rw [List.range_succ, List.countP_append]
      congr 1
      rw [List.countP_cons]
      simp [List.countP_nil]
    rw [hL, hR]
theorem countP_bwtOf (t : List Nat) (P : Nat → Bool) :
    (bwtOf t (suffix_array t)).countP P
      = (List.range t.length).countP (fun p => P (t.getD p 0)) := by
  unfold bwtOf
  rw [List.countP_map, (suffix_array_perm t).countP_eq]
  exact countP_range_rotate t.length (fun x => P (t.getD x 0))

theorem lessC_bwt_eq (t : List Nat) (a : Nat) :
    lessC (bwtOf t (suffix_array t)) a
      = (List.range t.length).countP (fun p => decide (t.getD p 0 < a)) := by
  unfold lessC
  rw [← List.countP_eq_length_filter]
  exact countP_bwtOf t (fun b => decide (b < a))

theorem rankB_nBelow_eq (t : List Nat) (a : Nat) (w : List Nat) :
    rankB (bwtOf t (suffix_array t)) (nBelow t w) a
      = (List.range t.length).countP
          (fun p => decide (t.getD ((p + t.length - 1) % t.length) 0 = a)
            && sltb (t.drop p) w) := by
  unfold rankB bwtOf
  rw [← List.map_take, ← List.countP_eq_length_filter, List.countP_map]
  rw [take_nBelow_eq_filter, List.countP_filter, (suffix_array_perm t).countP_eq]
  rfl

theorem rankB_nBelowOrIn_eq (t : List Nat) (a : Nat) (w : List Nat) :
    rankB (bwtOf t (suffix_array t)) (nBelowOrIn t w) a
      = (List.range t.length).countP
          (fun p => decide (t.getD ((p + t.length - 1) % t.length) 0 = a)
            && sleb (t.drop p) w) := by
  unfold rankB bwtOf
  rw [← List.map_take, ← List.countP_eq_length_filter, List.countP_map]
  rw [take_nBelowOrIn_eq_filter, List.countP_filter, (suffix_array_perm t).countP_eq]
  rfl

theorem rank_shift (t : List Nat) (ht : t ≠ []) (a : Nat) (V : List Nat → Bool)
    (hwrapV : (decide (t.getD (t.length - 1) 0 = a) && V t)
            = (decide (t.getD (t.length - 1) 0 = a) && V [])) :
    (List.range t.length).countP
        (fun p => decide (t.getD ((p + t.length - 1) % t.length) 0 = a) && V (t.drop p))
      = (List.range t.length).countP
          (fun p => decide (t.getD p 0 = a) && V (t.drop (p + 1))) := by
  have hn : 1 ≤ t.length := List.length_pos.mpr ht
  have hround : ∀ p, p < t.length →
      ((p + t.length - 1) % t.length + 1) % t.length = p := by
    intro p hp
    rcases Nat.eq_zero_or_pos p with h0 | h1
    · subst h0
      have h2 : 0 + t.length - 1 = t.length - 1 := by omega
      rw [h2, Nat.mod_eq_of_lt (show t.length - 1 < t.length by omega)]
      have h3 : t.length - 1 + 1 = t.length := by omega
      rw [h3, Nat.mod_self]
    · have h2 : p + t.length - 1 = (p - 1) + t.length := by omega
      rw [h2, Nat.add_mod_right, Nat.mod_eq_of_lt (show p - 1 < t.length by omega)]
      have h3 : p - 1 + 1 = p := by omega
      rw [h3, Nat.mod_eq_of_lt hp]
  have hstep1 : (List.range t.length).countP
      (fun p => decide (t.getD ((p + t.length - 1) % t.length) 0 = a) && V (t.drop p))
    = (List.range t.length).countP
      (fun p => decide (t.getD ((p + t.length - 1) % t.length) 0 = a)
        && V (t.drop (((p + t.length - 1) % t.length + 1) % t.length))) := by
    refine List.countP_congr ?_
    intro p hp
    rw [List.mem_range] at hp
    rw [hround p hp]
  have hstep2 : (List.range t.length).countP
      (fun p => decide (t.getD ((p + t.length - 1) % t.length) 0 = a)
        && V (t.drop (((p + t.length - 1) % t.length + 1) % t.length)))
    = (List.range t.length).countP
      (fun x => decide (t.getD x 0 = a) && V (t.drop ((x + 1) % t.length))) :=
    countP_range_rotate t.length
      (fun x => decide (t.getD x 0 = a) && V (t.drop ((x + 1) % t.length)))
  have hstep3 : (List.range t.length).countP
      (fun x => decide (t.getD x 0 = a) && V (t.drop ((x + 1) % t.length)))
    = (List.range t.length).countP
      (fun p => decide (t.getD p 0 = a) && V (t.drop (p + 1))) := by
    refine List.countP_congr ?_
    intro p hp
    rw [List.mem_range] at hp
    by_cases hlastp : p = t.length - 1
    · subst hlastp
      have h1 : (t.length - 1 + 1) % t.length = 0 := by
        rw [show t.length - 1 + 1 = t.length by omega, Nat.mod_self]
      rw [h1, List.drop_zero, show t.length - 1 + 1 = t.length by omega,
        List.drop_length, hwrapV]
    · rw [Nat.mod_eq_of_lt (show p + 1 < t.length by omega)]
  exact hstep1.trans (hstep2.trans hstep3)

theorem drop_eq_getD_cons (t : List Nat) (p : Nat) (hp : p < t.length) :
    t.drop p = t.getD p 0 :: t.drop (p + 1) := by
  rw [List.getD_eq_getElem t 0 hp]
  exact List.drop_eq_getElem_cons hp

theorem countP_orb_disjoint (l : List Nat) (p q : Nat → Bool)
    (h : ∀ x ∈ l, p x = true → q x = false) :
    l.countP (fun x => p x || q x) = l.countP p + l.countP q := by
  induction l with
  | nil => simp
  | cons x xs ih =>
    rw [List.countP_cons, List.countP_cons, List.countP_cons,
      ih (fun y hy => h y (List.mem_cons_of_mem x hy))]
    cases hp : p x
    · simp [hp]
      omega
    · have hq := h x (List.mem_cons_self x xs) hp
      simp [hp, hq]
      omega

theorem step_below (t : List Nat) (ht : t ≠ [])
    (hlast : t.getD (t.length - 1) 0 = 36) (a : Nat) (w : List Nat)
    (ha36 : a = 36 → w = []) :
    nBelow t (a :: w)
      = lessC (bwtOf t (suffix_array t)) a
        + rankB (bwtOf t (suffix_array t)) (nBelow t w) a := by
  have hwrap : (decide (t.getD (t.length - 1) 0 = a) && sltb t w)
      = (decide (t.getD (t.length - 1) 0 = a) && sltb ([] : List Nat) w) := by
    by_cases h36 : a = 36
    · rw [ha36 h36, sltb_nil_right, sltb_nil_right]
    · have hd : decide (t.getD (t.length - 1) 0 = a) = false := by
        rw [hlast]
        simp only [decide_eq_false_iff_not]
        exact fun h => h36 h.symm
      rw [hd]
      simp
  have hrank := (rankB_nBelow_eq t a w).trans
    (rank_shift t ht a (fun s => sltb s w) hwrap)
  have hless := lessC_bwt_eq t a
  have hL : nBelow t (a :: w)
      = (List.range t.length).countP
          (fun p => decide (t.getD p 0 < a)
            || (decide (t.getD p 0 = a) && sltb (t.drop (p + 1)) w)) := by
    unfold nBelow
    rw [(suffix_array_perm t).countP_eq]
    refine List.countP_congr ?_
    intro p hp
    rw [List.mem_range] at hp
    rw [drop_eq_getD_cons t p hp]
    rw [Bool.or_eq_true, Bool.and_eq_true, decide_eq_true_eq, decide_eq_true_eq]
    exact sltb_cons_iff _ _ _ _
  rw [hL, hrank, hless]
  refine countP_orb_disjoint _ _ _ ?_
  intro x _ hx
  rw [decide_eq_true_eq] at hx
  rw [Bool.and_eq_false_iff]
  left
  rw [decide_eq_false_iff_not]
  omega

theorem step_le (t : List Nat) (ht : t ≠ [])
    (hlast : t.getD (t.length - 1) 0 = 36) (a : Nat) (w : List Nat)
    (ha36 : a = 36 → w = []) :
    nBelowOrIn t (a :: w)
      = lessC (bwtOf t (suffix_array t)) a
        + rankB (bwtOf t (suffix_array t)) (nBelowOrIn t w) a := by
  have hwrap : (decide (t.getD (t.length - 1) 0 = a) && sleb t w)
      = (decide (t.getD (t.length - 1) 0 = a) && sleb ([] : List Nat) w) := by
    by_cases h36 : a = 36
    · rw [ha36 h36, sleb_nil_right, sleb_nil_right]
    · have hd : decide (t.getD (t.length - 1) 0 = a) = false := by
        rw [hlast]
        simp only [decide_eq_false_iff_not]
        exact fun h => h36 h.symm
      rw [hd]
      simp
  have hrank := (rankB_nBelowOrIn_eq t a w).trans
    (rank_shift t ht a (fun s => sleb s w) hwrap)
  have hless := lessC_bwt_eq t a
  have hL : nBelowOrIn t (a :: w)
      = (List.range t.length).countP
          (fun p => decide (t.getD p 0 < a)
            || (decide (t.getD p 0 = a) && sleb (t.drop (p + 1)) w)) := by
    unfold nBelowOrIn
    rw [(suffix_array_perm t).countP_eq]
    refine List.countP_congr ?_
    intro p hp
    rw [List.mem_range] at hp
    rw [drop_eq_getD_cons t p hp]
    rw [Bool.or_eq_true, Bool.and_eq_true, decide_eq_true_eq, decide_eq_true_eq]
    exact sleb_cons_iff _ _ _ _
  rw [hL, hrank, hless]
  refine countP_orb_disjoint _ _ _ ?_
  intro x _ hx
  rw [decide_eq_true_eq] at hx
  rw [Bool.and_eq_false_iff]
  left
  rw [decide_eq_false_iff_not]
  omega

theorem sltb_imp_sleb (s w : List Nat) (h : sltb s w = true) : sleb s w = true := by
  unfold sltb at h
  unfold sleb
  rw [Bool.and_eq_true] at h
  rw [Bool.or_eq_true]
  exact Or.inl h.1

theorem nBelow_nil (t : List Nat) : nBelow t [] = 0 := by
  unfold nBelow
  rw [List.countP_eq_zero]
  intro p _
  rw [sltb_nil_right]
  exact fun h => by cases h

theorem nBelowOrIn_nil (t : List Nat) : nBelowOrIn t [] = t.length := by
  unfold nBelowOrIn
  rw [List.countP_eq_length.mpr (fun p _ => sleb_nil_right _), suffix_array_length]

theorem nBelow_le_length (t w : List Nat) : nBelow t w ≤ t.length := by
  unfold nBelow
  calc (suffix_array t).countP _ ≤ (suffix_array t).length := List.countP_le_length _
  _ = t.length := suffix_array_length t

theorem nBelowOrIn_le_length (t w : List Nat) : nBelowOrIn t w ≤ t.length := by
  unfold nBelowOrIn
  calc (suffix_array t).countP _ ≤ (suffix_array t).length := List.countP_le_length _
  _ = t.length := suffix_array_length t

theorem nBelow_le_nBelowOrIn (t w : List Nat) : nBelow t w ≤ nBelowOrIn t w := by
  unfold nBelow nBelowOrIn
  exact List.countP_mono_left (fun p _ h => sltb_imp_sleb _ _ h)

theorem occursAt_lt_length (t w : List Nat) (j : Nat) (hw : w ≠ [])
    (h : occursAt t w j = true) : j < t.length := by
  by_contra hge
  push_neg at hge
  unfold occursAt at h
  rw [List.drop_eq_nil_of_le hge] at h
  cases w with
  | nil => exact hw rfl
  | cons a as => simp [isPrefb] at h

theorem nBelowOrIn_pos_of_occurs (t w : List Nat) (j : Nat) (hw : w ≠ [])
    (h : occursAt t w j = true) : 1 ≤ nBelowOrIn t w := by
  have hjn : j < t.length := occursAt_lt_length t w j hw h
  unfold nBelowOrIn
  rw [Nat.succ_le_iff, List.countP_pos_iff]
  refine ⟨j, (mem_suffix_array t j).mpr hjn, ?_⟩
  unfold occursAt at h
  exact ((isPrefb_iff_sleb_not_sltb w (t.drop j)).mp h).1

theorem isPrefb_append_drop (x : List Nat) :
    ∀ (y s : List Nat), isPrefb (x ++ y) s = true → isPrefb y (s.drop x.length) = true := by
  induction x with
  | nil => intro y s h; simpa using h
  | cons a as ih =>
    intro y s h
    cases s with
    | nil => simp [isPrefb] at h
    | cons b bs =>
      simp only [List.cons_append, isPrefb, Bool.and_eq_true] at h
      simpa using ih y bs h.2

theorem occursAt_drop (t p : List Nat) (j d : Nat) (h : occursAt t p j = true) :
    occursAt t (p.drop d) (j + d) = true := by
  unfold occursAt at h ⊢
  have hsplit : p = p.take d ++ p.drop d := (List.take_append_drop d p).symm
  rw [hsplit] at h
  have := isPrefb_append_drop (p.take d) (p.drop d) (t.drop j) h
  rcases le_or_lt d p.length with hd | hd
  · rw [List.length_take, Nat.min_eq_left hd, List.drop_drop] at this
    simpa [Nat.add_comm] using this
  · rw [List.drop_eq_nil_of_le (by omega)]
    cases t.drop (j + d) with
    | nil => rfl
    | cons c cs => rfl

theorem occursAt_cons_tail (t : List Nat) (a : Nat) (w : List Nat) (j : Nat)
    (h : occursAt t (a :: w) j = true) : occursAt t w (j + 1) = true := by
  have := occursAt_drop t (a :: w) j 1 h
  simpa using this

theorem occursAt_dollar_head (t : List Nat) (huniq : ∀ j, j < t.length - 1 → t.getD j 0 ≠ 36)
    (w : List Nat) (j : Nat) (h : occursAt t (36 :: w) j = true) : w = [] := by
  have hjn : j < t.length := occursAt_lt_length t _ j (by simp) h
  unfold occursAt at h
  rw [drop_eq_getD_cons t j hjn] at h
  simp only [isPrefb, Bool.and_eq_true, beq_iff_eq] at h
  have hj : j = t.length - 1 := by
    by_contra hne
    exact huniq j (by omega) h.1.symm
  subst hj
  have hdrop : t.drop (t.length - 1 + 1) = [] := by
    rw [show t.length - 1 + 1 = t.length by omega, List.drop_length]
  rw [hdrop] at h
  cases w with
  | nil => rfl
  | cons b bs => exact Bool.noConfusion h.2

theorem rankB_zero (B : List Nat) (a : Nat) : rankB B 0 a = 0 := rfl

theorem bs_fold_inv (t : List Nat) (ht : t ≠ [])
    (hlast : t.getD (t.length - 1) 0 = 36)
    (huniq : ∀ j, j < t.length - 1 → t.getD j 0 ≠ 36) :
    ∀ (u : List Nat) (w : List Nat),
      (∀ k, k < u.length → ∃ j, occursAt t ((u.take (k + 1)).reverse ++ w) j = true) →
      u.foldlM (bsStep (bwtOf t (suffix_array t))) (nBelow t w, nBelowOrIn t w - 1)
        = some (nBelow t (u.reverse ++ w), nBelowOrIn t (u.reverse ++ w) - 1) := by
  intro u
  induction u with
  | nil =>
    intro w _
    simp [List.foldlM]
  | cons a us ih =>
    intro w hocc
    have hawocc : ∃ j, occursAt t (a :: w) j = true := by
      have := hocc 0 (by simp)
      simpa using this
    obtain ⟨j0, hj0⟩ := hawocc
    have ha36 : a = 36 → w = [] := fun h36 => by
      subst h36
      exact occursAt_dollar_head t huniq w j0 hj0
    have hwpos : 1 ≤ nBelowOrIn t w := by
      cases w with
      | nil => rw [nBelowOrIn_nil]; exact List.length_pos.mpr ht
      | cons b bs =>
        exact nBelowOrIn_pos_of_occurs t _ (j0 + 1) (by simp)
          (occursAt_cons_tail t a _ j0 hj0)
    have hawpos : 1 ≤ nBelowOrIn t (a :: w) :=
      nBelowOrIn_pos_of_occurs t _ j0 (by simp) hj0
    have hn : 1 ≤ t.length := List.length_pos.mpr ht
    have hBlen : (bwtOf t (suffix_array t)).length = t.length := by
      unfold bwtOf
      rw [List.length_map, suffix_array_length]
    have hstep : bsStep (bwtOf t (suffix_array t)) (nBelow t w, nBelowOrIn t w - 1) a
        = some (nBelow t (a :: w), nBelowOrIn t (a :: w) - 1) := by
      have hro : occ? (bwtOf t (suffix_array t)) (nBelowOrIn t w - 1) a
          = some (rankB (bwtOf t (suffix_array t)) (nBelowOrIn t w) a) := by
        unfold occ?
        rw [if_pos (by rw [hBlen]; have := nBelowOrIn_le_length t w; omega)]
        congr 2
        omega
      by_cases hl : nBelow t w > 0
      · have hlo : occ? (bwtOf t (suffix_array t)) (nBelow t w - 1) a
            = some (rankB (bwtOf t (suffix_array t)) (nBelow t w) a) := by
          unfold occ?
          rw [if_pos (by rw [hBlen]; have := nBelow_le_length t w; omega)]
          congr 2
          omega
        unfold bsStep
        rw [if_pos hl, hlo, hro]
        simp only [Option.bind_some, Option.some_bind, Option.bind_eq_bind]
        rw [if_neg (by rw [← step_le t ht hlast a w ha36]; omega)]
        rw [← step_below t ht hlast a w ha36, ← step_le t ht hlast a w ha36]
      · have h0 : nBelow t w = 0 := by omega
        unfold bsStep
        rw [if_neg hl, hro]
        simp only [Option.bind_some, Option.some_bind, Option.bind_eq_bind]
        rw [if_neg (by rw [← step_le t ht hlast a w ha36]; omega)]
        have e1 : nBelow t (a :: w) = lessC (bwtOf t (suffix_array t)) a + 0 := by
          rw [step_below t ht hlast a w ha36, h0, rankB_zero]
        have e2 : nBelowOrIn t (a :: w) = lessC (bwtOf t (suffix_array t)) a
            + rankB (bwtOf t (suffix_array t)) (nBelowOrIn t w) a :=
          step_le t ht hlast a w ha36
        rw [e1, e2]
    rw [List.foldlM_cons, hstep]
    simp only [Option.some_bind, Option.bind_eq_bind]
    have hrec := ih (a :: w) (fun k hk => by
      have := hocc (k + 1) (by simpa using Nat.succ_lt_succ hk)
      obtain ⟨j, hj⟩ := this
      refine ⟨j, ?_⟩
      have hshape : ((a :: us).take (k + 2)).reverse ++ w
          = (us.take (k + 1)).reverse ++ (a :: w) := by
        rw [List.take_succ_cons, List.reverse_cons, List.append_assoc]
        rfl
      rw [← hshape]
      exact hj)
    rw [hrec]
    have hshape2 : (a :: us).reverse ++ w = us.reverse ++ (a :: w) := by
      rw [List.reverse_cons, List.append_assoc]
      rfl
    rw [hshape2]

/-- Claim C1: on a sentinel-terminated text (the sentinel `$` is the last
symbol and occurs nowhere else), for every non-empty substring `p` of the
text, `backward_search(p)` followed by `occ()` on the explicit-suffix-array
index succeeds, and the returned position list — viewed as a set — is exactly
the set of starting positions `j` with `text[j .. j + |p|] = p`. -/
theorem backward_search_occ_correct (t p : List Nat) (ht : t ≠ [])
    (hlast : t.getD (t.length - 1) 0 = 36)
    (huniq : ∀ j, j < t.length - 1 → t.getD j 0 ≠ 36)
    (hp : p ≠ []) (hsub : ∃ j, occursAt t p j = true) :
    ∃ occList, backward_search_occ t p = some occList ∧
      ∀ x, x ∈ occList ↔ occursAt t p x = true := by
  obtain ⟨j0, hj0⟩ := hsub
  have hn : 1 ≤ t.length := List.length_pos.mpr ht
  have hBlen : (bwtOf t (suffix_array t)).length = t.length := by
    unfold bwtOf
    rw [List.length_map, suffix_array_length]
  have hocc : ∀ k, k < p.reverse.length →
      ∃ j, occursAt t ((p.reverse.take (k + 1)).reverse ++ ([] : List Nat)) j = true := by
    intro k hk
    have hrt : (p.reverse.take (k + 1)).reverse = p.drop (p.length - (k + 1)) := by
      rw [List.take_reverse, List.reverse_reverse]
    rw [List.append_nil, hrt]
    exact ⟨j0 + (p.length - (k + 1)), occursAt_drop t p j0 _ hj0⟩
  have hfold := bs_fold_inv t ht hlast huniq p.reverse [] hocc
  rw [List.reverse_reverse, List.append_nil, nBelow_nil, nBelowOrIn_nil] at hfold
  have hppos : 1 ≤ nBelowOrIn t p := nBelowOrIn_pos_of_occurs t p j0 hp hj0
  have hbs : backward_search (bwtOf t (suffix_array t)) p
      = some ⟨nBelow t p, nBelowOrIn t p⟩ := by
    unfold backward_search
    rw [hBlen, if_neg (by omega)]
    rw [hfold]
    simp only [Option.bind_eq_bind, Option.some_bind]
    have h1 : nBelowOrIn t p - 1 + 1 = nBelowOrIn t p := by omega
    simp [h1]
  have hloc : positions_from_interval (suffix_array t) ⟨nBelow t p, nBelowOrIn t p⟩
      = some (((suffix_array t).take (nBelowOrIn t p)).drop (nBelow t p)) := by
    unfold positions_from_interval
    rw [if_pos ⟨nBelow_le_nBelowOrIn t p,
      by rw [suffix_array_length]; exact nBelowOrIn_le_length t p⟩]
  refine ⟨((suffix_array t).take (nBelowOrIn t p)).drop (nBelow t p), ?_, ?_⟩
  · unfold backward_search_occ
    rw [hbs]
    simpa using hloc
  · intro x
    have hsplit : (suffix_array t).filter (fun q => sleb (t.drop q) p)
        = (suffix_array t).filter (fun q => sltb (t.drop q) p)
          ++ (((suffix_array t).take (nBelowOrIn t p)).drop (nBelow t p)) := by
      have h1 : (suffix_array t).take (nBelowOrIn t p)
          = (suffix_array t).take (nBelow t p)
            ++ (((suffix_array t).take (nBelowOrIn t p)).drop (nBelow t p)) := by
        conv_lhs => rw [← List.take_append_drop (nBelow t p)
          ((suffix_array t).take (nBelowOrIn t p))]
        rw [List.take_take, Nat.min_eq_left (nBelow_le_nBelowOrIn t p)]
      rw [← take_nBelowOrIn_eq_filter, ← take_nBelow_eq_filter]
      exact h1
    have hnd : ((suffix_array t).filter (fun q => sleb (t.drop q) p)).Nodup :=
      (suffix_array_nodup t).filter _
    have hdisj := List.disjoint_of_nodup_append (hsplit ▸ hnd)
    constructor
    · intro hx
      have hxle : x ∈ (suffix_array t).filter (fun q => sleb (t.drop q) p) := by
        rw [hsplit]
        exact List.mem_append_right _ hx
      have hxsa : x ∈ suffix_array t := (List.mem_filter.mp hxle).1
      have hxleb : sleb (t.drop x) p = true := (List.mem_filter.mp hxle).2
      have hxnot : sltb (t.drop x) p = false := by
        cases hcase : sltb (t.drop x) p
        · rfl
        · exfalso
          exact hdisj (List.mem_filter.mpr ⟨hxsa, hcase⟩) hx
      exact (isPrefb_iff_sleb_not_sltb p (t.drop x)).mpr ⟨hxleb, hxnot⟩
    · intro hx
      have hxn : x < t.length := occursAt_lt_length t p x hp hx
      have hxsa : x ∈ suffix_array t := (mem_suffix_array t x).mpr hxn
      have hpair := (isPrefb_iff_sleb_not_sltb p (t.drop x)).mp hx
      have hxle : x ∈ (suffix_array t).filter (fun q => sleb (t.drop q) p) :=
        List.mem_filter.mpr ⟨hxsa, hpair.1⟩
      rw [hsplit] at hxle
      rcases List.mem_append.mp hxle with hmem | hmem
      · exfalso
        have hcontra := (List.mem_filter.mp hmem).2
        rw [hpair.2] at hcontra
        cases hcontra
      · exact hmem

/-- Witness for C1: the S1 scenario — text `GCCTTAACATTATTACGCCTA$`, pattern
`TTA`; the returned occurrence list is `[3, 12, 9]`, i.e. the set
`{3, 9, 12}`. -/
theorem backward_search_occ_correct_witness :
    backward_search_occ
        [71, 67, 67, 84, 84, 65, 65, 67, 65, 84, 84, 65, 84, 84, 65, 67, 71, 67, 67, 84, 65, 36]
        [84, 84, 65] = some [3, 12, 9] ∧
    ∀ x, x ∈ [3, 12, 9] ↔
      occursAt
        [71, 67, 67, 84, 84, 65, 65, 67, 65, 84, 84, 65, 84, 84, 65, 67, 71, 67, 67, 84, 65, 36]
        [84, 84, 65] x = true := by
  obtain ⟨occList, h1, h2⟩ := backward_search_occ_correct
    [71, 67, 67, 84, 84, 65, 65, 67, 65, 84, 84, 65, 84, 84, 65, 67, 71, 67, 67, 84, 65, 36]
    [84, 84, 65] (by decide) (by decide) (by decide) (by decide) ⟨3, by decide⟩
  have heq : backward_search_occ
      [71, 67, 67, 84, 84, 65, 65, 67, 65, 84, 84, 65, 84, 84, 65, 67, 71, 67, 67, 84, 65, 36]
      [84, 84, 65] = some [3, 12, 9] := by decide
  have hocc2 : occList = [3, 12, 9] :=
    Option.some.inj ((h1.symm).trans heq)
  subst hocc2
  exact ⟨heq, h2⟩

theorem backward_ext_shape (B : List Nat) (iv : BiInterval) (a : Nat)
    (iv' : BiInterval) (h : backward_ext B iv a = some iv') :
    ∃ st, bextLoop B iv.lower iv.size a extList (0, 0, iv.lower_rev) = some st ∧
      iv' = ⟨lessC B a + st.2.1, st.2.2, st.1, iv.match_size + 1⟩ := by
  unfold backward_ext at h
  by_cases h0 : iv.lower = 0
  · rw [if_pos h0] at h
    cases h
  · rw [if_neg h0] at h
    cases hlp : bextLoop B iv.lower iv.size a extList (0, 0, iv.lower_rev) with
    | none =>
      rw [hlp] at h
      cases h
    | some st =>
      rw [hlp] at h
      simp only [Option.bind_eq_bind, Option.some_bind] at h
      exact ⟨st, rfl, (Option.some.inj h).symm⟩

theorem backward_ext_match_size (B : List Nat) (iv : BiInterval) (a : Nat)
    (iv' : BiInterval) (h : backward_ext B iv a = some iv') :
    iv'.match_size = iv.match_size + 1 := by
  obtain ⟨st, -, hshape⟩ := backward_ext_shape B iv a iv' h
  rw [hshape]

theorem forward_ext_match_size (B : List Nat) (iv : BiInterval) (a : Nat)
    (iv' : BiInterval) (h : forward_ext B iv a = some iv') :
    iv'.match_size = iv.match_size + 1 := by
  unfold forward_ext at h
  cases hbe : backward_ext B iv.swapped (comp a) with
  | none =>
    rw [hbe] at h
    cases h
  | some fi =>
    rw [hbe] at h
    simp only [Option.map_some'] at h
    have := backward_ext_match_size B iv.swapped (comp a) fi hbe
    rw [← Option.some.inj h]
    unfold BiInterval.swapped at this ⊢
    simpa using this

theorem foldlM_backward_ext_match (B : List Nat) :
    ∀ (u : List Nat) (iv iv' : BiInterval),
      u.foldlM (backward_ext B) iv = some iv' →
      iv'.match_size = iv.match_size + u.length := by
  intro u
  induction u with
  | nil =>
    intro iv iv' h
    simp only [List.foldlM_nil] at h
    rw [← Option.some.inj h]
    rfl
  | cons a as ih =>
    intro iv iv' h
    rw [List.foldlM_cons] at h
    cases hbe : backward_ext B iv a with
    | none =>
      rw [hbe] at h
      cases h
    | some fi =>
      rw [hbe] at h
      simp only [Option.bind_eq_bind, Option.some_bind] at h
      have h1 := ih fi iv' h
      have h2 := backward_ext_match_size B iv a fi hbe
      rw [h1, h2, List.length_cons]
      omega

theorem foldlM_forward_ext_match (B : List Nat) :
    ∀ (u : List Nat) (iv iv' : BiInterval),
      u.foldlM (forward_ext B) iv = some iv' →
      iv'.match_size = iv.match_size + u.length := by
  intro u
  induction u with
  | nil =>
    intro iv iv' h
    simp only [List.foldlM_nil] at h
    rw [← Option.some.inj h]
    rfl
  | cons a as ih =>
    intro iv iv' h
    rw [List.foldlM_cons] at h
    cases hbe : forward_ext B iv a with
    | none =>
      rw [hbe] at h
      cases h
    | some fi =>
      rw [hbe] at h
      simp only [Option.bind_eq_bind, Option.some_bind] at h
      have h1 := ih fi iv' h
      have h2 := forward_ext_match_size B iv a fi hbe
      rw [h1, h2, List.length_cons]
      omega

theorem init_interval_some (B pattern : List Nat) (i : Nat) (iv : BiInterval)
    (h : init_interval B pattern i = some iv) :
    i < pattern.length ∧ iv.match_size = 1 := by
  unfold init_interval at h
  cases hg : pattern[i]? with
  | none =>
    rw [hg] at h
    cases h
  | some a =>
    rw [hg] at h
    simp only [Option.bind_eq_bind, Option.some_bind] at h
    by_cases h255 : a = 255
    · rw [if_pos h255] at h
      cases h
    · rw [if_neg h255] at h
      refine ⟨?_, ?_⟩
      · exact (List.getElem?_eq_some_iff.mp hg).1
      · rw [← Option.some.inj h]
  
theorem extendRight_match_size (B pattern : List Nat) (i j : Nat)
    (iv : BiInterval) (hij : i < j) (hj : j ≤ pattern.length)
    (h : extendRight B pattern i j = some iv) :
    iv.match_size = j - i := by
  unfold extendRight at h
  cases hinit : init_interval B pattern i with
  | none =>
    rw [hinit] at h
    cases h
  | some iv0 =>
    rw [hinit] at h
    simp only [Option.bind_eq_bind, Option.some_bind] at h
    have h1 := foldlM_forward_ext_match B _ iv0 iv h
    have h2 := (init_interval_some B pattern i iv0 hinit).2
    rw [h1, h2, List.length_drop, List.length_take]
    omega

theorem extendChain_match_size (B pattern : List Nat) (k i j : Nat)
    (bi : BiInterval) (hki : k ≤ i) (hij : i < j) (hj : j ≤ pattern.length)
    (h : extendChain B pattern k i j = some bi) :
    bi.match_size = j - k := by
  unfold extendChain at h
  cases hr : extendRight B pattern i j with
  | none =>
    rw [hr] at h
    cases h
  | some ivr =>
    rw [hr] at h
    simp only [Option.bind_eq_bind, Option.some_bind] at h
    have h1 := foldlM_backward_ext_match B _ ivr bi h
    have h2 := extendRight_match_size B pattern i j ivr hij hj hr
    rw [h1, h2, List.length_reverse, List.length_drop, List.length_take]
    omega

theorem drop_cons_info (pattern : List Nat) (c : Nat) (a : Nat) (u' : List Nat)
    (h : pattern.drop c = a :: u') :
    c < pattern.length ∧ pattern[c]? = some a ∧ u' = pattern.drop (c + 1) := by
  have hc : c < pattern.length := by
    by_contra hge
    push_neg at hge
    rw [List.drop_eq_nil_of_le hge] at h
    cases h
  have hdc : pattern.drop c = pattern[c] :: pattern.drop (c + 1) :=
    List.drop_eq_getElem_cons hc
  rw [h] at hdc
  have h1 : a = pattern[c] ∧ u' = pattern.drop (c + 1) := by
    have := List.cons.inj hdc
    exact ⟨this.1, this.2⟩
  refine ⟨hc, ?_, h1.2⟩
  rw [List.getElem?_eq_getElem hc, h1.1]

theorem extendRight_succ (B pattern : List Nat) (i c : Nat) (a : Nat) (u' : List Nat)
    (hic : i < c) (hdrop : pattern.drop c = a :: u') :
    extendRight B pattern i (c + 1)
      = (extendRight B pattern i c).bind (fun iv => forward_ext B iv a) := by
  obtain ⟨hc, hg, -⟩ := drop_cons_info pattern c a u' hdrop
  have hseg : (pattern.take (c + 1)).drop (i + 1)
      = ((pattern.take c).drop (i + 1)) ++ [a] := by
    rw [List.take_succ, hg]
    rw [List.drop_append_of_le_length]
    · rfl
    · rw [List.length_take]
      omega
  unfold extendRight
  cases hinit : init_interval B pattern i with
  | none => rfl
  | some iv0 =>
    simp only [Option.bind_eq_bind, Option.some_bind]
    rw [hseg, List.foldlM_append]
    cases hfold : ((pattern.take c).drop (i + 1)).foldlM (forward_ext B) iv0 with
    | none => rfl
    | some iv =>
      simp only [Option.bind_eq_bind, Option.some_bind, List.foldlM_cons, List.foldlM_nil]
      cases forward_ext B iv a <;> rfl

theorem extendChain_pred (B pattern : List Nat) (i c j : Nat) (a : Nat)
    (hci : c < i) (hil : i ≤ pattern.length) (hg : pattern[c]? = some a) :
    extendChain B pattern c i j
      = (extendChain B pattern (c + 1) i j).bind (fun iv => backward_ext B iv a) := by
  have hcl : c < pattern.length := by omega
  have hca : pattern[c] = a := by
    rw [List.getElem?_eq_getElem hcl] at hg
    exact Option.some.inj hg
  have hlen : c < (pattern.take i).length := by
    rw [List.length_take]
    omega
  have hseg : ((pattern.take i).drop c).reverse
      = ((pattern.take i).drop (c + 1)).reverse ++ [a] := by
    have hdc : (pattern.take i).drop c
        = (pattern.take i)[c] :: (pattern.take i).drop (c + 1) :=
      List.drop_eq_getElem_cons hlen
    have hgi : (pattern.take i)[c] = a := by
      rw [List.getElem_take]
      exact hca
    rw [hdc, hgi, List.reverse_cons]
  unfold extendChain
  cases hr : extendRight B pattern i j with
  | none => rfl
  | some ivr =>
    simp only [Option.bind_eq_bind, Option.some_bind]
    rw [hseg, List.foldlM_append]
    cases hfold : ((pattern.take i).drop (c + 1)).reverse.foldlM (backward_ext B) ivr with
    | none => rfl
    | some iv =>
      simp only [Option.bind_eq_bind, Option.some_bind, List.foldlM_cons, List.foldlM_nil]
      cases backward_ext B iv a <;> rfl

theorem extendChain_self (B pattern : List Nat) (i j : Nat) :
    extendChain B pattern i i j = extendRight B pattern i j := by
  unfold extendChain
  have hseg : ((pattern.take i).drop i).reverse = ([] : List Nat) := by
    rw [List.drop_eq_nil_of_le (by rw [List.length_take]; omega)]
    rfl
  rw [hseg]
  cases extendRight B pattern i j with
  | none => rfl
  | some ivr => simp [List.foldlM_nil]

theorem extendRight_init (B pattern : List Nat) (i : Nat) (hi : i < pattern.length) :
    extendRight B pattern i (i + 1) = init_interval B pattern i := by
  unfold extendRight
  have hseg : (pattern.take (i + 1)).drop (i + 1) = ([] : List Nat) := by
    rw [List.drop_eq_nil_of_le (by rw [List.length_take]; omega)]
  rw [hseg]
  cases init_interval B pattern i with
  | none => rfl
  | some iv0 => simp [List.foldlM_nil]

theorem phase1_inv (B pattern : List Nat) (i : Nat) :
    ∀ (u : List Nat) (c : Nat) (iv : BiInterval) (acc : List BiInterval)
      (out : List BiInterval × BiInterval),
      u = pattern.drop c → i < c → c ≤ pattern.length →
      extendRight B pattern i c = some iv →
      (∀ x ∈ acc, ∃ j, i < j ∧ j ≤ pattern.length ∧ extendRight B pattern i j = some x) →
      smemsPhase1 B u iv acc = some out →
      (∀ x ∈ out.1, ∃ j, i < j ∧ j ≤ pattern.length ∧ extendRight B pattern i j = some x) ∧
      (∃ j, i < j ∧ j ≤ pattern.length ∧ extendRight B pattern i j = some out.2) := by
  intro u
  induction u with
  | nil =>
    intro c iv acc out hu hic hcl hext hacc hrun
    unfold smemsPhase1 at hrun
    have hout : out = (acc, iv) := (Option.some.inj hrun).symm
    rw [hout]
    exact ⟨hacc, c, hic, hcl, hext⟩
  | cons a u' ih =>
    intro c iv acc out hu hic hcl hext hacc hrun
    obtain ⟨hc, hg, hu'⟩ := drop_cons_info pattern c a u' hu.symm
    unfold smemsPhase1 at hrun
    cases hfe : forward_ext B iv a with
    | none =>
      rw [hfe] at hrun
      cases hrun
    | some fi =>
      rw [hfe] at hrun
      simp only [Option.bind_eq_bind, Option.some_bind] at hrun
      have hext' : extendRight B pattern i (c + 1) = some fi := by
        rw [extendRight_succ B pattern i c a u' hic hu.symm, hext]
        simpa using hfe
      have hacc' : ∀ x ∈ (if iv.size ≠ fi.size then acc ++ [iv] else acc),
          ∃ j, i < j ∧ j ≤ pattern.length ∧ extendRight B pattern i j = some x := by
        intro x hx
        by_cases hsz : iv.size ≠ fi.size
        · rw [if_pos hsz] at hx
          rcases List.mem_append.mp hx with hx | hx
          · exact hacc x hx
          · rw [List.mem_singleton.mp hx]
            exact ⟨c, hic, hcl, hext⟩
        · rw [if_neg hsz] at hx
          exact hacc x hx
      by_cases hz : fi.size = 0
      · rw [if_pos hz] at hrun
        have hout : out = ((if iv.size ≠ fi.size then acc ++ [iv] else acc), iv) :=
          (Option.some.inj hrun).symm
        rw [hout]
        exact ⟨hacc', c, hic, hcl, hext⟩
      · rw [if_neg hz] at hrun
        exact ih (c + 1) fi _ out hu' (by omega) (by omega) hext' hacc' hrun

theorem phase2_fold (B : List Nat) (a : Nat) (k : Int)
    (Pprev Pcurr Pms : BiInterval → Prop)
    (hPC : ∀ iv fi, Pprev iv → backward_ext B iv a = some fi → Pcurr fi)
    (hPM : ∀ iv, Pprev iv → Pms iv) :
    ∀ (prev : List BiInterval)
      (st st' : List BiInterval × Int × Int × List BiInterval),
      (∀ x ∈ prev, Pprev x) → (∀ x ∈ st.1, Pcurr x) → (∀ x ∈ st.2.2.2, Pms x) →
      prev.foldlM (smemsStep B a k) st = some st' →
      (∀ x ∈ st'.1, Pcurr x) ∧ (∀ x ∈ st'.2.2.2, Pms x) := by
  intro prev
  induction prev with
  | nil =>
    intro st st' hprev hcurr hms hrun
    simp only [List.foldlM_nil] at hrun
    rw [← Option.some.inj hrun]
    exact ⟨hcurr, hms⟩
  | cons iv prev' ih =>
    intro st st' hprev hcurr hms hrun
    rw [List.foldlM_cons] at hrun
    obtain ⟨curr, last, j, ms⟩ := st
    unfold smemsStep at hrun
    cases hbe : backward_ext B iv a with
    | none =>
      rw [hbe] at hrun
      cases hrun
    | some fi =>
      rw [hbe] at hrun
      simp only [Option.bind_eq_bind, Option.some_bind] at hrun
      refine ih _ st' (fun x hx => hprev x (List.mem_cons_of_mem iv hx)) ?_ ?_ hrun
      · intro x hx
        by_cases hcond : fi.size ≠ 0 ∧ (fi.size : Int) ≠ last
        · rw [if_pos hcond] at hx
          simp only at hx
          rcases List.mem_append.mp hx with hx | hx
          · exact hcurr x hx
          · rw [List.mem_singleton.mp hx]
            exact hPC iv fi (hprev iv (List.mem_cons_self iv prev')) hbe
        · rw [if_neg hcond] at hx
          exact hcurr x hx
      · intro x hx
        by_cases hcond : (fi.size = 0 ∨ k = -1) ∧ curr = [] ∧ k < j
        · rw [if_pos hcond] at hx
          simp only at hx
          rcases List.mem_append.mp hx with hx | hx
          · exact hms x hx
          · rw [List.mem_singleton.mp hx]
            exact hPM iv (hprev iv (List.mem_cons_self iv prev'))
        · rw [if_neg hcond] at hx
          exact hms x hx

theorem phase2_run (B pattern : List Nat) (i : Nat) (hi : i < pattern.length) :
    ∀ (c : Nat) (prev : List BiInterval) (j : Int) (ms ms' : List BiInterval),
      c ≤ i →
      (∀ x ∈ prev, ∃ j', i < j' ∧ j' ≤ pattern.length ∧
        extendChain B pattern c i j' = some x) →
      (∀ x ∈ ms, ∃ m j', m ≤ i ∧ i < j' ∧ j' ≤ pattern.length ∧
        extendChain B pattern m i j' = some x) →
      smemsPhase2 B pattern c prev j ms = some ms' →
      ∀ x ∈ ms', ∃ m j', m ≤ i ∧ i < j' ∧ j' ≤ pattern.length ∧
        extendChain B pattern m i j' = some x := by
  intro c
  induction c with
  | zero =>
    intro prev j ms ms' hci hprev hms hrun
    unfold smemsPhase2 at hrun
    cases hfold : prev.foldlM (smemsStep B 36 (-1)) ([], -1, j, ms) with
    | none =>
      rw [hfold] at hrun
      cases hrun
    | some st =>
      rw [hfold] at hrun
      simp only [Option.bind_eq_bind, Option.some_bind] at hrun
      have hres := phase2_fold B 36 (-1)
        (fun x => ∃ j', i < j' ∧ j' ≤ pattern.length ∧
          extendChain B pattern 0 i j' = some x)
        (fun _ => True)
        (fun x => ∃ m j', m ≤ i ∧ i < j' ∧ j' ≤ pattern.length ∧
          extendChain B pattern m i j' = some x)
        (fun _ _ _ _ => trivial)
        (fun iv hiv => by
          obtain ⟨j', h1, h2, h3⟩ := hiv
          exact ⟨0, j', Nat.zero_le i, h1, h2, h3⟩)
        prev ([], -1, j, ms) st hprev (by intro x hx; cases hx) hms hfold
      intro x hx
      exact hres.2 x (by rw [Option.some.inj hrun]; exact hx)
  | succ c ih =>
    intro prev j ms ms' hci hprev hms hrun
    unfold smemsPhase2 at hrun
    cases hg : pattern[c]? with
    | none =>
      rw [hg] at hrun
      cases hrun
    | some a =>
      rw [hg] at hrun
      simp only [Option.bind_eq_bind, Option.some_bind] at hrun
      cases hfold : prev.foldlM (smemsStep B a (c : Int)) ([], -1, j, ms) with
      | none =>
        rw [hfold] at hrun
        cases hrun
      | some st =>
        rw [hfold] at hrun
        simp only [Option.bind_eq_bind, Option.some_bind] at hrun
        have hres := phase2_fold B a (c : Int)
          (fun x => ∃ j', i < j' ∧ j' ≤ pattern.length ∧
            extendChain B pattern (c + 1) i j' = some x)
          (fun x => ∃ j', i < j' ∧ j' ≤ pattern.length ∧
            extendChain B pattern c i j' = some x)
          (fun x => ∃ m j', m ≤ i ∧ i < j' ∧ j' ≤ pattern.length ∧
            extendChain B pattern m i j' = some x)
          (fun iv fi hiv hbe => by
            obtain ⟨j', h1, h2, h3⟩ := hiv
            refine ⟨j', h1, h2, ?_⟩
            rw [extendChain_pred B pattern i c j' a (by omega) (by omega) hg, h3]
            simpa using hbe)
          (fun iv hiv => by
            obtain ⟨j', h1, h2, h3⟩ := hiv
            exact ⟨c + 1, j', hci, h1, h2, h3⟩)
          prev ([], -1, j, ms) st hprev (by intro x hx; cases hx) hms hfold
        by_cases hemp : st.1 = []
        · rw [if_pos hemp] at hrun
          intro x hx
          exact hres.2 x (by rw [Option.some.inj hrun]; exact hx)
        · rw [if_neg hemp] at hrun
          exact ih st.1 st.2.2.1 st.2.2.2 ms' (by omega) hres.1 hres.2 hrun

/-- Claim C4: every bi-interval returned by `smems(pattern, i)` is built by
the extension algebra from a substring `pattern[k..j)` of the pattern that
spans the anchor position `i` (`k ≤ i < j ≤ |pattern|`), and its
`match_size` is the length `j - k` of that substring. -/
theorem smems_span (B pattern : List Nat) (i : Nat) (ms : List BiInterval)
    (h : smems B pattern i = some ms) :
    ∀ bi ∈ ms, ∃ k j, k ≤ i ∧ i < j ∧ j ≤ pattern.length ∧
      extendChain B pattern k i j = some bi ∧ bi.match_size = j - k := by
  unfold smems at h
  cases hinit : init_interval B pattern i with
  | none =>
    rw [hinit] at h
    cases h
  | some iv0 =>
    rw [hinit] at h
    simp only [Option.bind_eq_bind, Option.some_bind] at h
    cases hph1 : smemsPhase1 B (pattern.drop (i + 1)) iv0 [] with
    | none =>
      rw [hph1] at h
      cases h
    | some st =>
      rw [hph1] at h
      simp only [Option.bind_eq_bind, Option.some_bind] at h
      have hi : i < pattern.length := (init_interval_some B pattern i iv0 hinit).1
      have hext0 : extendRight B pattern i (i + 1) = some iv0 := by
        rw [extendRight_init B pattern i hi]
        exact hinit
      have hp1 := phase1_inv B pattern i (pattern.drop (i + 1)) (i + 1) iv0 [] st
        rfl (by omega) (by omega) hext0 (by intro x hx; cases hx) hph1
      have hprev : ∀ x ∈ (st.1 ++ [st.2]).reverse,
          ∃ j', i < j' ∧ j' ≤ pattern.length ∧
            extendChain B pattern i i j' = some x := by
        intro x hx
        rw [List.mem_reverse] at hx
        rcases List.mem_append.mp hx with hx | hx
        · obtain ⟨j', h1, h2, h3⟩ := hp1.1 x hx
          exact ⟨j', h1, h2, by rw [extendChain_self]; exact h3⟩
        · rw [List.mem_singleton.mp hx]
          obtain ⟨j', h1, h2, h3⟩ := hp1.2
          exact ⟨j', h1, h2, by rw [extendChain_self]; exact h3⟩
      have hfin := phase2_run B pattern i hi i ((st.1 ++ [st.2]).reverse)
        (pattern.length : Int) [] ms (le_refl i) hprev
        (by intro x hx; cases hx) h
      intro bi hbi
      obtain ⟨m, j', h1, h2, h3, h4⟩ := hfin bi hbi
      exact ⟨m, j', h1, h2, h3, h4,
        extendChain_match_size B pattern m i j' bi h1 h2 h3 h4⟩

/-- Witness for C4: on the FMD text `GCCTTAACAT$ATGTTAAGGC$` (the source's
`test_smems` data) with pattern `AA` and anchor `0`, the single returned
interval spans position `0`. -/
theorem smems_span_witness :
    ∃ k j, k ≤ 0 ∧ 0 < j ∧
      j ≤ ([65, 65] : List Nat).length ∧
      extendChain (bwtOf
        [71, 67, 67, 84, 84, 65, 65, 67, 65, 84, 36, 65, 84, 71, 84, 84, 65, 65, 71, 71, 67, 36]
        (suffix_array
          [71, 67, 67, 84, 84, 65, 65, 67, 65, 84, 36, 65, 84, 71, 84, 84, 65, 65, 71, 71, 67, 36]))
        [65, 65] k 0 j = some ⟨2, 20, 2, 2⟩ ∧
      (⟨2, 20, 2, 2⟩ : BiInterval).match_size = j - k := by
  refine smems_span (bwtOf
      [71, 67, 67, 84, 84, 65, 65, 67, 65, 84, 36, 65, 84, 71, 84, 84, 65, 65, 71, 71, 67, 36]
      (suffix_array
        [71, 67, 67, 84, 84, 65, 65, 67, 65, 84, 36, 65, 84, 71, 84, 84, 65, 65, 71, 71, 67, 36]))
    [65, 65] 0 [⟨2, 20, 2, 2⟩] (by decide) ⟨2, 20, 2, 2⟩ (by decide)

theorem comp_outer (a : Nat) : comp a = if a = 65 then 84 else if a = 84 then 65
    else if a = 67 then 71 else if a = 71 then 67
    else if a = 97 then 116 else if a = 116 then 97
    else if a = 99 then 103 else if a = 103 then 99
    else a := rfl

theorem comp_comp (a : Nat) : comp (comp a) = a := by
  rw [comp_outer a]
  split_ifs with h1 h2 h3 h4 h5 h6 h7 h8 <;> simp [comp, *]

theorem comp_ne_36 (a : Nat) (h : a ≠ 36) : comp a ≠ 36 := by
  unfold comp
  split_ifs <;> omega

theorem comp_mem_n_alphabet (a : Nat) (h : a ∈ n_alphabet) : comp a ∈ n_alphabet := by
  unfold n_alphabet at h
  fin_cases h <;> decide

theorem revcomp_append (x y : List Nat) :
    revcomp (x ++ y) = revcomp y ++ revcomp x := by
  unfold revcomp
  rw [List.map_append, List.reverse_append]

theorem revcomp_cons (a : Nat) (P : List Nat) :
    revcomp (a :: P) = revcomp P ++ [comp a] := by
  unfold revcomp
  rw [List.map_cons, List.reverse_cons]

theorem revcomp_revcomp (x : List Nat) : revcomp (revcomp x) = x := by
  unfold revcomp
  rw [List.map_reverse, List.reverse_reverse, List.map_map]
  have : comp ∘ comp = id := by
    funext a
    exact comp_comp a
  rw [this, List.map_id]

theorem revcomp_length (x : List Nat) : (revcomp x).length = x.length := by
  unfold revcomp
  rw [List.length_reverse, List.length_map]

theorem revcomp_nil : revcomp [] = [] := rfl

theorem revcomp_ne_nil (x : List Nat) (h : x ≠ []) : revcomp x ≠ [] := by
  intro hc
  have := revcomp_length x
  rw [hc] at this
  simp at this
  exact h (List.length_eq_zero.mp this.symm)

theorem mem_revcomp (d : Nat) (x : List Nat) :
    d ∈ revcomp x ↔ ∃ e ∈ x, d = comp e := by
  unfold revcomp
  rw [List.mem_reverse, List.mem_map]
  constructor
  · rintro ⟨e, he, rfl⟩
    exact ⟨e, he, rfl⟩
  · rintro ⟨e, he, rfl⟩
    exact ⟨e, he, rfl⟩

theorem not_mem_36_revcomp (x : List Nat) (h : 36 ∉ x) : 36 ∉ revcomp x := by
  rw [mem_revcomp]
  rintro ⟨e, he, heq⟩
  by_cases he36 : e = 36
  · subst he36
    exact h he
  · exact comp_ne_36 e he36 heq.symm

theorem isPrefb_iff_append (X : List Nat) :
    ∀ s, isPrefb X s = true ↔ ∃ r, s = X ++ r := by
  induction X with
  | nil =>
    intro s
    simp only [isPrefb, List.nil_append]
    exact ⟨fun _ => ⟨s, rfl⟩, fun _ => trivial⟩
  | cons a as ih =>
    intro s
    cases s with
    | nil =>
      simp only [isPrefb, Bool.false_eq_true, false_iff]
      rintro ⟨r, hr⟩
      cases hr
    | cons b bs =>
      simp only [isPrefb, Bool.and_eq_true, beq_iff_eq, List.cons_append]
      rw [ih bs]
      constructor
      · rintro ⟨rfl, r, rfl⟩
        exact ⟨r, rfl⟩
      · rintro ⟨r, hr⟩
        have h1 : b = a ∧ bs = as ++ r := by
          have := List.cons.inj hr
          exact ⟨this.1, this.2⟩
        exact ⟨h1.1.symm, r, h1.2⟩

theorem isSufb_iff_append (X : List Nat) :
    ∀ v, isSufb X v = true ↔ ∃ w, v = w ++ X := by
  intro v
  induction v with
  | nil =>
    simp only [isSufb, List.isEmpty_iff]
    constructor
    · rintro rfl
      exact ⟨[], rfl⟩
    · rintro ⟨w, hw⟩
      cases w with
      | nil => exact hw.symm
      | cons e w' => cases hw
  | cons d v' ih =>
    simp only [isSufb, Bool.or_eq_true, beq_iff_eq]
    rw [ih]
    constructor
    · rintro (rfl | ⟨w, rfl⟩)
      · exact ⟨[], rfl⟩
      · exact ⟨d :: w, rfl⟩
    · rintro ⟨w, hw⟩
      cases w with
      | nil => exact Or.inl hw.symm
      | cons e w' =>
        right
        have h1 : d = e ∧ v' = w' ++ X := by
          have := List.cons.inj hw
          exact ⟨this.1, this.2⟩
        exact ⟨w', h1.2⟩

theorem occursAt_iff_append (t X : List Nat) (hX : X ≠ []) (j : Nat) :
    occursAt t X j = true ↔ ∃ l r, t = l ++ X ++ r ∧ l.length = j := by
  unfold occursAt
  rw [isPrefb_iff_append]
  constructor
  · rintro ⟨r, hr⟩
    have hj : j < t.length := by
      by_contra hge
      push_neg at hge
      rw [List.drop_eq_nil_of_le hge] at hr
      cases X with
      | nil => exact hX rfl
      | cons x xs => cases hr
    refine ⟨t.take j, r, ?_, ?_⟩
    · conv_lhs => rw [← List.take_append_drop j t]
      rw [hr, List.append_assoc]
    · rw [List.length_take]
      omega
  · rintro ⟨l, r, rfl, rfl⟩
    refine ⟨r, ?_⟩
    rw [List.append_assoc]
    exact List.drop_left l (X ++ r)

theorem countP_range_eq_card (n : Nat) (p : Nat → Bool) :
    (List.range n).countP p = ((Finset.range n).filter (fun j => p j = true)).card := by
  induction n with
  | zero => rfl
  | succ m ih =>
    rw [List.range_succ, List.countP_append, Finset.range_succ, Finset.filter_insert]
    by_cases hp : p m = true
    · rw [if_pos hp]
      rw [Finset.card_insert_of_not_mem (by simp)]
      rw [← ih]
      simp [List.countP_cons, hp]
    · rw [if_neg hp]
      rw [← ih]
      simp [List.countP_cons, hp]

theorem occursAt_revcomp (u X : List Nat) (hX : X ≠ []) (j : Nat)
    (h : occursAt u X j = true) :
    occursAt (revcomp u) (revcomp X) (u.length - X.length - j) = true ∧
      j + X.length ≤ u.length := by
  obtain ⟨l, r, hu, hl⟩ := (occursAt_iff_append u X hX j).mp h
  have hlen : u.length = l.length + X.length + r.length := by
    rw [hu]
    simp [List.length_append]
    omega
  constructor
  · refine (occursAt_iff_append (revcomp u) (revcomp X) (revcomp_ne_nil X hX) _).mpr ?_
    refine ⟨revcomp r, revcomp l, ?_, ?_⟩
    · rw [hu, revcomp_append, revcomp_append, List.append_assoc]
    · rw [revcomp_length]
      omega
  · omega

theorem occCount_rev (u X : List Nat) (hX : X ≠ []) :
    occCount u X = occCount (revcomp u) (revcomp X) := by
  unfold occCount
  rw [countP_range_eq_card, countP_range_eq_card, revcomp_length]
  refine Finset.card_bij'
    (fun j _ => u.length - X.length - j)
    (fun j _ => u.length - X.length - j) ?_ ?_ ?_ ?_
  · intro j hj
    rw [Finset.mem_filter, Finset.mem_range] at hj ⊢
    obtain ⟨hocc, hbound⟩ := occursAt_revcomp u X hX j hj.2
    have hXpos : 1 ≤ X.length := by
      cases X with
      | nil => exact absurd rfl hX
      | cons x xs => simp
    exact ⟨by show u.length - X.length - j < u.length; omega, hocc⟩
  · intro j hj
    rw [Finset.mem_filter, Finset.mem_range] at hj ⊢
    obtain ⟨hocc, hbound⟩ :=
      occursAt_revcomp (revcomp u) (revcomp X) (revcomp_ne_nil X hX) j hj.2
    rw [revcomp_revcomp, revcomp_revcomp, revcomp_length, revcomp_length] at hocc
    rw [revcomp_length, revcomp_length] at hbound
    have hXpos : 1 ≤ X.length := by
      cases X with
      | nil => exact absurd rfl hX
      | cons x xs => simp
    exact ⟨by show u.length - X.length - j < u.length; omega, hocc⟩
  · intro j hj
    rw [Finset.mem_filter, Finset.mem_range] at hj
    obtain ⟨-, hbound⟩ := occursAt_revcomp u X hX j hj.2
    show u.length - X.length - (u.length - X.length - j) = j
    omega
  · intro j hj
    rw [Finset.mem_filter, Finset.mem_range] at hj
    obtain ⟨-, hbound⟩ :=
      occursAt_revcomp (revcomp u) (revcomp X) (revcomp_ne_nil X hX) j hj.2
    rw [revcomp_length, revcomp_length] at hbound
    show u.length - X.length - (u.length - X.length - j) = j
    omega

theorem sleb_eq_sltb_or_pref (s w : List Nat) :
    sleb s w = (sltb s w || isPrefb w s) := by
  unfold sleb sltb
  cases lexLe s w <;> cases isPrefb w s <;> rfl

theorem sltb_not_pref (s w : List Nat) (h : sltb s w = true) : isPrefb w s = false := by
  unfold sltb at h
  rw [Bool.and_eq_true, Bool.not_eq_true'] at h
  exact h.2

theorem nBelowOrIn_split (t w : List Nat) :
    nBelowOrIn t w = nBelow t w
      + (suffix_array t).countP (fun p => isPrefb w (t.drop p)) := by
  unfold nBelowOrIn nBelow
  rw [List.countP_congr (fun p _ => by rw [sleb_eq_sltb_or_pref (t.drop p) w])]
  exact countP_orb_disjoint _ _ _ (fun x _ h => sltb_not_pref _ _ h)

theorem cnt_eq_occCount (t w : List Nat) : cnt t w = occCount t w := by
  unfold cnt
  rw [nBelowOrIn_split, Nat.add_sub_cancel_left]
  unfold occCount
  rw [(suffix_array_perm t).countP_eq]
  rfl

theorem occCount_cons (c : Nat) (l X : List Nat) :
    occCount (c :: l) X = (if isPrefb X (c :: l) = true then 1 else 0) + occCount l X := by
  unfold occCount
  have hlen : (c :: l).length = l.length + 1 := rfl
  rw [hlen, List.range_succ_eq_map, List.countP_cons, List.countP_map]
  have hshift : (List.range l.length).countP ((fun j => occursAt (c :: l) X j) ∘ Nat.succ)
      = (List.range l.length).countP (fun j => occursAt l X j) := rfl
  rw [hshift]
  have hhead : occursAt (c :: l) X 0 = isPrefb X (c :: l) := rfl
  rw [hhead]
  cases hp : isPrefb X (c :: l) <;> simp <;> omega

theorem isPrefb_append36 : ∀ (u P rest : List Nat), 36 ∉ P →
    isPrefb P (u ++ 36 :: rest) = isPrefb P u := by
  intro u
  induction u with
  | nil =>
    intro P rest hP
    cases P with
    | nil => rfl
    | cons p P' =>
      have hp : p ≠ 36 := fun h => hP (h ▸ List.mem_cons_self p P')
      simp [isPrefb, hp]
  | cons d u' ih =>
    intro P rest hP
    cases P with
    | nil => rfl
    | cons p P' =>
      simp only [List.cons_append, isPrefb]
      show (p == d && isPrefb P' (u' ++ 36 :: rest)) = (p == d && isPrefb P' u')
      rw [ih P' rest (fun h => hP (List.mem_cons_of_mem p h))]

theorem isPrefb_append36_iff : ∀ (Q u W : List Nat), 36 ∉ Q → 36 ∉ u →
    (isPrefb (Q ++ [36]) (u ++ 36 :: W) = true ↔ Q = u) := by
  intro Q
  induction Q with
  | nil =>
    intro u W _ hu
    cases u with
    | nil => simp [isPrefb]
    | cons d u' =>
      have hd : d ≠ 36 := fun h => hu (h ▸ List.mem_cons_self d u')
      have hd2 : ¬36 = d := fun h => hd h.symm
      simp [isPrefb, hd2]
  | cons q Q' ih =>
    intro u W hQ hu
    have hq : q ≠ 36 := fun h => hQ (h ▸ List.mem_cons_self q Q')
    cases u with
    | nil => simp [isPrefb, hq]
    | cons d u' =>
      simp only [List.cons_append, isPrefb, Bool.and_eq_true, beq_iff_eq]
      show q = d ∧ isPrefb (Q' ++ [36]) (u' ++ 36 :: W) = true ↔ q :: Q' = d :: u'
      rw [ih u' W (fun h => hQ (List.mem_cons_of_mem q h))
        (fun h => hu (List.mem_cons_of_mem d h))]
      constructor
      · rintro ⟨rfl, rfl⟩
        rfl
      · intro h
        have := List.cons.inj h
        exact ⟨this.1, this.2⟩

theorem withSep_cons (u : List Nat) (blocks : List (List Nat)) :
    withSep (u :: blocks) = u ++ 36 :: withSep blocks := by
  unfold withSep
  rw [List.map_cons, List.flatten_cons, List.append_assoc]
  rfl

theorem occCount_block36 : ∀ (u W X : List Nat), 36 ∉ u → 36 ∉ X → X ≠ [] →
    occCount (u ++ 36 :: W) X = occCount u X + occCount W X := by
  intro u
  induction u with
  | nil =>
    intro W X hu hX hXne
    rw [List.nil_append, occCount_cons]
    have hhead : isPrefb X (36 :: W) = false := by
      cases X with
      | nil => exact absurd rfl hXne
      | cons x X' =>
        have hx : x ≠ 36 := fun h => hX (h ▸ List.mem_cons_self x X')
        simp [isPrefb, hx]
    rw [hhead]
    have h0 : occCount ([] : List Nat) X = 0 := rfl
    rw [h0]
    simp
  | cons d u' ih =>
    intro W X hu hX hXne
    rw [List.cons_append, occCount_cons, occCount_cons,
      ih W X (fun h => hu (List.mem_cons_of_mem d h)) hX hXne]
    have hsame : isPrefb X (d :: (u' ++ 36 :: W)) = isPrefb X (d :: u') := by
      have := isPrefb_append36 (d :: u') X W hX
      rw [← this]
      rfl
    rw [hsame]
    omega

theorem occCount_block_dollarP : ∀ (u W P : List Nat), 36 ∉ u → 36 ∉ P → P ≠ [] →
    occCount (u ++ 36 :: W) (36 :: P)
      = (if isPrefb P W = true then 1 else 0) + occCount W (36 :: P) := by
  intro u
  induction u with
  | nil =>
    intro W P hu hP hPne
    rw [List.nil_append, occCount_cons]
    have hhead : isPrefb (36 :: P) (36 :: W) = isPrefb P W := by
      simp [isPrefb]
    rw [hhead]
  | cons d u' ih =>
    intro W P hu hP hPne
    have hd : d ≠ 36 := fun h => hu (h ▸ List.mem_cons_self d u')
    rw [List.cons_append, occCount_cons]
    have hhead : isPrefb (36 :: P) (d :: (u' ++ 36 :: W)) = false := by
      have hd2 : ¬36 = d := fun h => hd h.symm
      simp [isPrefb, hd2]
    rw [hhead]
    rw [ih W P (fun h => hu (List.mem_cons_of_mem d h)) hP hPne]
    simp

theorem occCount_block_Qdollar : ∀ (u W Q : List Nat), 36 ∉ u → 36 ∉ Q → Q ≠ [] →
    occCount (u ++ 36 :: W) (Q ++ [36])
      = (if isSufb Q u = true then 1 else 0) + occCount W (Q ++ [36]) := by
  intro u
  induction u with
  | nil =>
    intro W Q hu hQ hQne
    rw [List.nil_append, occCount_cons]
    have hhead : isPrefb (Q ++ [36]) (36 :: W) = false := by
      cases Q with
      | nil => exact absurd rfl hQne
      | cons x Q' =>
        have hx : x ≠ 36 := fun h => hQ (h ▸ List.mem_cons_self x Q')
        simp [isPrefb, hx]
    rw [hhead]
    have hsuf : isSufb Q ([] : List Nat) = false := by
      unfold isSufb
      cases Q with
      | nil => exact absurd rfl hQne
      | cons x Q' => rfl
    rw [hsuf]
  | cons d u' ih =>
    intro W Q hu hQ hQne
    have hd : d ≠ 36 := fun h => hu (h ▸ List.mem_cons_self d u')
    rw [List.cons_append, occCount_cons,
      ih W Q (fun h => hu (List.mem_cons_of_mem d h)) hQ hQne]
    have hhead : (isPrefb (Q ++ [36]) (d :: (u' ++ 36 :: W)) = true) ↔ Q = d :: u' := by
      have := isPrefb_append36_iff Q (d :: u') W hQ hu
      exact this
    have hsufrec : isSufb Q (d :: u') = ((Q == d :: u') || isSufb Q u') := rfl
    rw [hsufrec]
    by_cases hQdu : Q = d :: u'
    · have h1 : isPrefb (Q ++ [36]) (d :: (u' ++ 36 :: W)) = true := hhead.mpr hQdu
      have h2 : (Q == d :: u') = true := by simp [hQdu]
      have h3 : isSufb Q u' = false := by
        cases hs : isSufb Q u'
        · rfl
        · exfalso
          obtain ⟨w, hw⟩ := (isSufb_iff_append Q u').mp hs
          have hlen : u'.length = w.length + Q.length := by
            rw [hw, List.length_append]
          have hlen2 : Q.length = u'.length + 1 := by
            rw [hQdu]
            rfl
          omega
      rw [h1, h2, h3]
      simp
    · have h1 : isPrefb (Q ++ [36]) (d :: (u' ++ 36 :: W)) = false := by
        cases hs : isPrefb (Q ++ [36]) (d :: (u' ++ 36 :: W))
        · rfl
        · exact absurd (hhead.mp hs) hQdu
      have h2 : (Q == d :: u') = false := by simp [hQdu]
      rw [h1, h2]
      simp

theorem occCount_withSep_dollarP (P : List Nat) (hP36 : 36 ∉ P) (hPne : P ≠ []) :
    ∀ (blocks : List (List Nat)), (∀ u ∈ blocks, 36 ∉ u) →
      occCount (withSep blocks) (36 :: P)
        = (blocks.drop 1).countP (fun u => isPrefb P u) := by
  intro blocks
  induction blocks with
  | nil => intro _; rfl
  | cons u rest ih =>
    intro hb
    rw [withSep_cons,
      occCount_block_dollarP u (withSep rest) P (hb u (List.mem_cons_self u rest)) hP36 hPne,
      ih (fun v hv => hb v (List.mem_cons_of_mem u hv))]
    have hdrop : (u :: rest).drop 1 = rest := rfl
    rw [hdrop]
    cases rest with
    | nil =>
      have h1 : isPrefb P (withSep []) = false := by
        cases P with
        | nil => exact absurd rfl hPne
        | cons p P' => rfl
      rw [h1]
      rfl
    | cons v rest' =>
      rw [withSep_cons, isPrefb_append36 v P (withSep rest') hP36]
      have hdrop2 : (v :: rest').drop 1 = rest' := rfl
      rw [hdrop2, List.countP_cons]
      cases hp : isPrefb P v <;> simp [hp] <;> omega

theorem occCount_withSep_Qdollar (Q : List Nat) (hQ36 : 36 ∉ Q) (hQne : Q ≠ []) :
    ∀ (blocks : List (List Nat)), (∀ u ∈ blocks, 36 ∉ u) →
      occCount (withSep blocks) (Q ++ [36]) = blocks.countP (fun u => isSufb Q u) := by
  intro blocks
  induction blocks with
  | nil => intro _; rfl
  | cons u rest ih =>
    intro hb
    rw [withSep_cons,
      occCount_block_Qdollar u (withSep rest) Q (hb u (List.mem_cons_self u rest)) hQ36 hQne,
      ih (fun v hv => hb v (List.mem_cons_of_mem u hv)), List.countP_cons]
    cases hp : isSufb Q u <;> simp [hp] <;> omega

theorem occCount_withSep_plain (X : List Nat) (hX36 : 36 ∉ X) (hXne : X ≠ []) :
    ∀ (blocks : List (List Nat)), (∀ u ∈ blocks, 36 ∉ u) →
      occCount (withSep blocks) X = (blocks.map (fun u => occCount u X)).sum := by
  intro blocks
  induction blocks with
  | nil => intro _; rfl
  | cons u rest ih =>
    intro hb
    rw [withSep_cons,
      occCount_block36 u (withSep rest) X (hb u (List.mem_cons_self u rest)) hX36 hXne,
      ih (fun v hv => hb v (List.mem_cons_of_mem u hv)), List.map_cons, List.sum_cons]

theorem fmdBlocks_perm (pairs : List (List Nat)) :
    (fmdBlocks pairs).Perm ((fmdBlocks pairs).map revcomp) := by
  induction pairs with
  | nil => exact List.Perm.refl _
  | cons u ps ih =>
    unfold fmdBlocks at ih ⊢
    rw [List.flatMap_cons, List.map_append]
    have hmap : ([u, revcomp u].map revcomp) = [revcomp u, u] := by
      simp [revcomp_revcomp]
    rw [hmap]
    have hswap : ([u, revcomp u] : List (List Nat)).Perm [revcomp u, u] :=
      List.Perm.swap (revcomp u) u []
  
    exact List.Perm.append hswap ih

theorem countP_sufb_eq_prefb (P : List Nat) (blocks : List (List Nat))
    (hperm : blocks.Perm (blocks.map revcomp)) :
    blocks.countP (fun u => isSufb (revcomp P) u)
      = blocks.countP (fun u => isPrefb P u) := by
  rw [hperm.countP_eq, List.countP_map]
  refine List.countP_congr ?_
  intro u _
  simp only [Function.comp]
  rw [isSufb_iff_append, isPrefb_iff_append]
  constructor
  · rintro ⟨w, hw⟩
    refine ⟨revcomp w, ?_⟩
    have hu : u = revcomp (revcomp u) := (revcomp_revcomp u).symm
    rw [hu, hw, revcomp_append, revcomp_revcomp]
  · rintro ⟨r, rfl⟩
    exact ⟨revcomp r, by rw [revcomp_append]⟩

theorem occCount_withSep_rev (X : List Nat) (hX36 : 36 ∉ X) (hXne : X ≠ [])
    (blocks : List (List Nat)) (hb : ∀ u ∈ blocks, 36 ∉ u)
    (hperm : blocks.Perm (blocks.map revcomp)) :
    occCount (withSep blocks) X = occCount (withSep blocks) (revcomp X) := by
  rw [occCount_withSep_plain X hX36 hXne blocks hb,
    occCount_withSep_plain (revcomp X) (not_mem_36_revcomp X hX36)
      (revcomp_ne_nil X hXne) blocks hb]
  calc (blocks.map (fun u => occCount u X)).sum
      = (blocks.map (fun u => occCount (revcomp u) (revcomp X))).sum := by
        congr 1
        refine List.map_congr_left ?_
        intro u _
        exact occCount_rev u X hXne
    _ = ((blocks.map revcomp).map (fun u => occCount u (revcomp X))).sum := by
        rw [List.map_map]
        rfl
    _ = (blocks.map (fun u => occCount u (revcomp X))).sum :=
        List.Perm.sum_eq ((hperm.map _).symm)

theorem withSep_eq_append36 : ∀ (blocks : List (List Nat)), blocks ≠ [] →
    ∃ A, withSep blocks = A ++ [36] := by
  intro blocks
  induction blocks with
  | nil => intro h; exact absurd rfl h
  | cons u rest ih =>
    intro _
    cases rest with
    | nil =>
      refine ⟨u, ?_⟩
      rw [withSep_cons]
      rfl
    | cons v rest' =>
      obtain ⟨A, hA⟩ := ih (by simp)
      refine ⟨u ++ 36 :: A, ?_⟩
      rw [withSep_cons, hA]
      simp

theorem last36_of_append36 (t : List Nat) (A : List Nat) (h : t = A ++ [36]) :
    t.getD (t.length - 1) 0 = 36 := by
  subst h
  rw [List.length_append]
  have hidx : A.length + [36].length - 1 = A.length := by simp
  rw [hidx, List.getD_append_right A [36] 0 A.length (le_refl _)]
  simp

theorem mem36_drop_of_append36 (t A : List Nat) (h : t = A ++ [36]) (j : Nat)
    (hj : j < t.length) : 36 ∈ t.drop j := by
  subst h
  rw [List.length_append] at hj
  simp only [List.length_cons, List.length_nil] at hj
  rw [List.drop_append_of_le_length (by omega)]
  exact List.mem_append_right _ (List.mem_cons_self 36 [])

theorem fmdBlocks_no36 (pairs : List (List Nat))
    (hp : ∀ u ∈ pairs, 36 ∉ u) :
    ∀ u ∈ fmdBlocks pairs, 36 ∉ u := by
  intro u hu
  unfold fmdBlocks at hu
  rw [List.mem_flatMap] at hu
  obtain ⟨v, hv, hu2⟩ := hu
  simp only [List.mem_cons, List.mem_singleton, List.not_mem_nil, or_false] at hu2
  rcases hu2 with rfl | rfl
  · exact hp _ hv
  · exact not_mem_36_revcomp _ (hp _ hv)

theorem withSep_symbols (blocks : List (List Nat))
    (hb : ∀ u ∈ blocks, ∀ d ∈ u, d ∈ n_alphabet) :
    ∀ d ∈ withSep blocks, d ∈ extList := by
  intro d hd
  unfold withSep at hd
  rw [List.mem_flatten] at hd
  obtain ⟨s, hs, hds⟩ := hd
  rw [List.mem_map] at hs
  obtain ⟨u, hu, rfl⟩ := hs
  rcases List.mem_append.mp hds with h | h
  · have := hb u hu d h
    unfold n_alphabet at this
    unfold extList
    fin_cases this <;> decide
  · rw [List.mem_singleton] at h
    rw [h]
    decide

theorem fmdBlocks_symbols (pairs : List (List Nat))
    (hp : ∀ u ∈ pairs, ∀ d ∈ u, d ∈ n_alphabet) :
    ∀ u ∈ fmdBlocks pairs, ∀ d ∈ u, d ∈ n_alphabet := by
  intro u hu
  unfold fmdBlocks at hu
  rw [List.mem_flatMap] at hu
  obtain ⟨v, hv, hu2⟩ := hu
  simp only [List.mem_cons, List.mem_singleton, List.not_mem_nil, or_false] at hu2
  rcases hu2 with rfl | rfl
  · exact hp _ hv
  · intro d hd
    rw [mem_revcomp] at hd
    obtain ⟨e, he, rfl⟩ := hd
    exact comp_mem_n_alphabet e (hp _ hv e he)
theorem sltb_bottom (c : Nat) :
    ∀ (Q s : List Nat), s ≠ Q → (∀ d rest, s = Q ++ d :: rest → c ≤ d) →
      (sltb s (Q ++ [c]) = true ↔ sltb s Q = true) := by
  intro Q
  induction Q with
  | nil =>
    intro s hne hsm
    cases s with
    | nil => exact absurd rfl hne
    | cons b bs =>
      have hcb : c ≤ b := hsm b bs rfl
      rw [List.nil_append, sltb_nil_right, sltb_cons_iff]
      constructor
      · rintro (h | ⟨-, h⟩)
        · exact absurd h (by omega)
        · rw [sltb_nil_right] at h
          cases h
      · intro h
        cases h
  | cons q Q' ih =>
    intro s hne hsm
    cases s with
    | nil =>
      have h1 : sltb ([] : List Nat) ((q :: Q') ++ [c]) = true := rfl
      have h2 : sltb ([] : List Nat) (q :: Q') = true := rfl
      rw [h1, h2]
    | cons b bs =>
      rw [List.cons_append, sltb_cons_iff, sltb_cons_iff]
      by_cases hbq : b = q
      · subst hbq
        have hih := ih bs (fun h => hne (by rw [h]))
          (fun d rest h => hsm d rest (by rw [h, List.cons_append]))
        constructor
        · rintro (h | ⟨-, h⟩)
          · exact Or.inl h
          · exact Or.inr ⟨rfl, hih.mp h⟩
        · rintro (h | ⟨-, h⟩)
          · exact Or.inl h
          · exact Or.inr ⟨rfl, hih.mpr h⟩
      · constructor
        · rintro (h | ⟨heq, -⟩)
          · exact Or.inl h
          · exact absurd heq hbq
        · rintro (h | ⟨heq, -⟩)
          · exact Or.inl h
          · exact absurd heq hbq

theorem sltb_gap (cl ch : Nat) (hgap : cl < ch) :
    ∀ (Q s : List Nat), s ≠ Q →
      (∀ d rest, s = Q ++ d :: rest → d ≤ cl ∨ ch ≤ d) →
      (sltb s (Q ++ [ch]) = true ↔ sleb s (Q ++ [cl]) = true) := by
  intro Q
  induction Q with
  | nil =>
    intro s hne hsm
    cases s with
    | nil => exact absurd rfl hne
    | cons b bs =>
      have hd := hsm b bs rfl
      rw [List.nil_append, List.nil_append, sltb_cons_iff, sleb_cons_iff]
      constructor
      · rintro (h | ⟨heq, h⟩)
        · have hbcl : b ≤ cl := by omega
          rcases Nat.lt_or_eq_of_le hbcl with h2 | h2
          · exact Or.inl h2
          · exact Or.inr ⟨h2, sleb_nil_right bs⟩
        · rw [sltb_nil_right] at h
          cases h
      · rintro (h | ⟨heq, -⟩)
        · exact Or.inl (by omega)
        · exact Or.inl (by omega)
  | cons q Q' ih =>
    intro s hne hsm
    cases s with
    | nil =>
      have h1 : sltb ([] : List Nat) ((q :: Q') ++ [ch]) = true := rfl
      have h2 : sleb ([] : List Nat) ((q :: Q') ++ [cl]) = true := rfl
      rw [h1, h2]
    | cons b bs =>
      rw [List.cons_append, List.cons_append, sltb_cons_iff, sleb_cons_iff]
      by_cases hbq : b = q
      · subst hbq
        have hih := ih bs (fun h => hne (by rw [h]))
          (fun d rest h => hsm d rest (by rw [h, List.cons_append]))
        constructor
        · rintro (h | ⟨-, h⟩)
          · exact Or.inl h
          · exact Or.inr ⟨rfl, hih.mp h⟩
        · rintro (h | ⟨-, h⟩)
          · exact Or.inl h
          · exact Or.inr ⟨rfl, hih.mpr h⟩
      · constructor
        · rintro (h | ⟨heq, -⟩)
          · exact Or.inl h
          · exact absurd heq hbq
        · rintro (h | ⟨heq, -⟩)
          · exact Or.inl h
          · exact absurd heq hbq

theorem rankB_mono (B : List Nat) (l l' a : Nat) (h : l ≤ l') :
    rankB B l a ≤ rankB B l' a := by
  unfold rankB
  have h1 : B.take l = (B.take l').take l := by
    rw [List.take_take, Nat.min_eq_left h]
  rw [h1]
  exact (((B.take l').take_sublist l).filter _).length_le

theorem lessC_mono (B : List Nat) (a a' : Nat) (h : a ≤ a') :
    lessC B a ≤ lessC B a' := by
  unfold lessC
  refine List.Sublist.length_le ?_
  refine List.monotone_filter_right B ?_
  intro b hb
  rw [decide_eq_true_eq] at hb ⊢
  omega

theorem nBelow_bottom (t Q A : List Nat) (hA : t = A ++ [36])
    (hQ36 : 36 ∉ Q) (hsym : ∀ d ∈ t, 36 ≤ d) :
    nBelow t (Q ++ [36]) = nBelow t Q := by
  unfold nBelow
  refine List.countP_congr ?_
  intro p hp
  have hpl : p < t.length := (mem_suffix_array t p).mp hp
  have h36 : 36 ∈ t.drop p := mem36_drop_of_append36 t A hA p hpl
  have hne : t.drop p ≠ Q := fun h => hQ36 (h ▸ h36)
  have hsm : ∀ d rest, t.drop p = Q ++ d :: rest → 36 ≤ d := by
    intro d rest h
    refine hsym d ((List.drop_subset p t) ?_)
    rw [h]
    exact List.mem_append_right _ (List.mem_cons_self d rest)
  exact sltb_bottom 36 Q (t.drop p) hne hsm

theorem nBelow_gap (t Q A : List Nat) (cl ch : Nat) (hgap : cl < ch)
    (hA : t = A ++ [36]) (hQ36 : 36 ∉ Q)
    (hsym : ∀ d ∈ t, d ≤ cl ∨ ch ≤ d) :
    nBelow t (Q ++ [ch]) = nBelowOrIn t (Q ++ [cl]) := by
  unfold nBelow nBelowOrIn
  refine List.countP_congr ?_
  intro p hp
  have hpl : p < t.length := (mem_suffix_array t p).mp hp
  have h36 : 36 ∈ t.drop p := mem36_drop_of_append36 t A hA p hpl
  have hne : t.drop p ≠ Q := fun h => hQ36 (h ▸ h36)
  have hsm : ∀ d rest, t.drop p = Q ++ d :: rest → d ≤ cl ∨ ch ≤ d := by
    intro d rest h
    refine hsym d ((List.drop_subset p t) ?_)
    rw [h]
    exact List.mem_append_right _ (List.mem_cons_self d rest)
  exact sltb_gap cl ch hgap Q (t.drop p) hne hsm

theorem gap_pair (t Q A : List Nat) (hA : t = A ++ [36]) (hQ36 : 36 ∉ Q)
    (htext : ∀ d ∈ t, d ∈ extList) (cl ch : Nat) (hgap : cl < ch)
    (hpair : ∀ d ∈ extList, d ≤ cl ∨ ch ≤ d) :
    nBelow t (Q ++ [cl]) + cnt t (Q ++ [cl]) = nBelow t (Q ++ [ch]) := by
  have h1 := nBelow_gap t Q A cl ch hgap hA hQ36 (fun d hd => hpair d (htext d hd))
  have h2 : nBelow t (Q ++ [cl]) ≤ nBelowOrIn t (Q ++ [cl]) :=
    nBelow_le_nBelowOrIn t (Q ++ [cl])
  unfold cnt
  omega
theorem rank_cnt (t : List Nat) (ht : t ≠ [])
    (hlast : t.getD (t.length - 1) 0 = 36) (b : Nat) (hb : b ≠ 36) (P : List Nat) :
    rankB (bwtOf t (suffix_array t)) (nBelowOrIn t P) b
      - rankB (bwtOf t (suffix_array t)) (nBelow t P) b = cnt t (b :: P) := by
  have hb36 : b = 36 → P = [] := fun h => absurd h hb
  have h1 := step_below t ht hlast b P hb36
  have h2 := step_le t ht hlast b P hb36
  have h3 := rankB_mono (bwtOf t (suffix_array t)) (nBelow t P) (nBelowOrIn t P) b
    (nBelow_le_nBelowOrIn t P)
  unfold cnt
  omega

theorem rank_diff_pref (t : List Nat) (ht : t ≠ []) (P : List Nat) (a : Nat) :
    rankB (bwtOf t (suffix_array t)) (nBelowOrIn t P) a
      = rankB (bwtOf t (suffix_array t)) (nBelow t P) a
        + (List.range t.length).countP
            (fun x => decide (t.getD x 0 = a)
              && isPrefb P (t.drop ((x + 1) % t.length))) := by
  have hn : 1 ≤ t.length := List.length_pos.mpr ht
  have hle := rankB_nBelowOrIn_eq t a P
  have hlt := rankB_nBelow_eq t a P
  have hsplit : (List.range t.length).countP
      (fun p => decide (t.getD ((p + t.length - 1) % t.length) 0 = a)
        && sleb (t.drop p) P)
    = (List.range t.length).countP
        (fun p => decide (t.getD ((p + t.length - 1) % t.length) 0 = a)
          && sltb (t.drop p) P)
      + (List.range t.length).countP
          (fun p => decide (t.getD ((p + t.length - 1) % t.length) 0 = a)
            && isPrefb P (t.drop p)) := by
    have hcong : (List.range t.length).countP
        (fun p => decide (t.getD ((p + t.length - 1) % t.length) 0 = a)
          && sleb (t.drop p) P)
      = (List.range t.length).countP
          (fun p => (decide (t.getD ((p + t.length - 1) % t.length) 0 = a)
              && sltb (t.drop p) P)
            || (decide (t.getD ((p + t.length - 1) % t.length) 0 = a)
              && isPrefb P (t.drop p))) := by
      refine List.countP_congr ?_
      intro p _
      show (decide (t.getD ((p + t.length - 1) % t.length) 0 = a)
          && sleb (t.drop p) P) = true ↔ _
      rw [sleb_eq_sltb_or_pref, Bool.and_or_distrib_left]
    rw [hcong]
    refine countP_orb_disjoint _ _ _ ?_
    intro x _ hx
    rw [Bool.and_eq_true] at hx
    rw [Bool.and_eq_false_iff]
    exact Or.inr (sltb_not_pref _ _ hx.2)
  have hround : ∀ p, p < t.length →
      ((p + t.length - 1) % t.length + 1) % t.length = p := by
    intro p hp
    rcases Nat.eq_zero_or_pos p with h0 | h1
    · subst h0
      have h2 : 0 + t.length - 1 = t.length - 1 := by omega
      rw [h2, Nat.mod_eq_of_lt (show t.length - 1 < t.length by omega)]
      have h3 : t.length - 1 + 1 = t.length := by omega
      rw [h3, Nat.mod_self]
    · have h2 : p + t.length - 1 = (p - 1) + t.length := by omega
      rw [h2, Nat.add_mod_right, Nat.mod_eq_of_lt (show p - 1 < t.length by omega)]
      have h3 : p - 1 + 1 = p := by omega
      rw [h3, Nat.mod_eq_of_lt hp]
  have hrot : (List.range t.length).countP
      (fun p => decide (t.getD ((p + t.length - 1) % t.length) 0 = a)
        && isPrefb P (t.drop p))
    = (List.range t.length).countP
        (fun x => decide (t.getD x 0 = a) && isPrefb P (t.drop ((x + 1) % t.length))) := by
    have hstep1 : (List.range t.length).countP
        (fun p => decide (t.getD ((p + t.length - 1) % t.length) 0 = a)
          && isPrefb P (t.drop p))
      = (List.range t.length).countP
          (fun p => decide (t.getD ((p + t.length - 1) % t.length) 0 = a)
            && isPrefb P (t.drop (((p + t.length - 1) % t.length + 1) % t.length))) := by
      refine List.countP_congr ?_
      intro p hp
      rw [List.mem_range] at hp
      rw [hround p hp]
    rw [hstep1]
    exact countP_range_rotate t.length
      (fun x => decide (t.getD x 0 = a) && isPrefb P (t.drop ((x + 1) % t.length)))
  rw [hle, hlt, hsplit, hrot]

theorem rank36 (t : List Nat) (ht : t ≠ [])
    (hlast : t.getD (t.length - 1) 0 = 36) (P : List Nat) (hP : P ≠ []) :
    rankB (bwtOf t (suffix_array t)) (nBelowOrIn t P) 36
      = rankB (bwtOf t (suffix_array t)) (nBelow t P) 36
        + ((if isPrefb P t = true then 1 else 0) + occCount t (36 :: P)) := by
  have hn : 1 ≤ t.length := List.length_pos.mpr ht
  rw [rank_diff_pref t ht P 36]
  congr 1
  have hm : t.length = (t.length - 1) + 1 := by omega
  have hsing : ∀ (f : Nat → Bool), (List.range t.length).countP f
      = (List.range (t.length - 1)).countP f + (if f (t.length - 1) then 1 else 0) := by
    intro f
    conv_lhs => rw [hm]
    rw [List.range_succ, List.countP_append, List.countP_cons, List.countP_nil]
    cases hf : f (t.length - 1) <;> simp [hf]
  have hL : (List.range t.length).countP
      (fun x => decide (t.getD x 0 = 36) && isPrefb P (t.drop ((x + 1) % t.length)))
    = (List.range (t.length - 1)).countP
        (fun x => decide (t.getD x 0 = 36) && isPrefb P (t.drop (x + 1)))
      + (if isPrefb P t = true then 1 else 0) := by
    rw [hsing]
    congr 1
    · refine List.countP_congr ?_
      intro x hx
      rw [List.mem_range] at hx
      show (decide (t.getD x 0 = 36) && isPrefb P (t.drop ((x + 1) % t.length))) = true
        ↔ (decide (t.getD x 0 = 36) && isPrefb P (t.drop (x + 1))) = true
      rw [Nat.mod_eq_of_lt (by omega)]
    · have h1 : (t.length - 1 + 1) % t.length = 0 := by
        rw [show t.length - 1 + 1 = t.length by omega, Nat.mod_self]
      show (if (decide (t.getD (t.length - 1) 0 = 36)
          && isPrefb P (t.drop ((t.length - 1 + 1) % t.length))) = true
          then 1 else 0) = _
      rw [h1, List.drop_zero, hlast]
      simp
  have hR : occCount t (36 :: P)
      = (List.range (t.length - 1)).countP
          (fun x => decide (t.getD x 0 = 36) && isPrefb P (t.drop (x + 1))) := by
    unfold occCount
    rw [hsing]
    have hlastval : occursAt t (36 :: P) (t.length - 1) = false := by
      unfold occursAt
      rw [drop_eq_getD_cons t (t.length - 1) (by omega), hlast]
      rw [show t.length - 1 + 1 = t.length by omega, List.drop_length]
      cases P with
      | nil => exact absurd rfl hP
      | cons p P' => simp [isPrefb]
    rw [hlastval]
    have hcong : (List.range (t.length - 1)).countP (fun j => occursAt t (36 :: P) j)
        = (List.range (t.length - 1)).countP
            (fun x => decide (t.getD x 0 = 36) && isPrefb P (t.drop (x + 1))) := by
      refine List.countP_congr ?_
      intro j hj
      rw [List.mem_range] at hj
      show occursAt t (36 :: P) j = true
        ↔ (decide (t.getD j 0 = 36) && isPrefb P (t.drop (j + 1))) = true
      unfold occursAt
      rw [drop_eq_getD_cons t j (by omega)]
      simp only [isPrefb, Bool.and_eq_true, beq_iff_eq, decide_eq_true_eq]
      constructor
      · rintro ⟨h1, h2⟩
        exact ⟨h1.symm, h2⟩
      · rintro ⟨h1, h2⟩
        exact ⟨h1.symm, h2⟩
    rw [hcong]
    simp
  rw [hL, hR]
  omega

theorem nBelow_singleton (t : List Nat) (a : Nat) :
    nBelow t [a] = lessC (bwtOf t (suffix_array t)) a := by
  rw [lessC_bwt_eq]
  unfold nBelow
  rw [(suffix_array_perm t).countP_eq]
  refine List.countP_congr ?_
  intro p hp
  rw [List.mem_range] at hp
  show sltb (t.drop p) [a] = true ↔ decide (t.getD p 0 < a) = true
  rw [drop_eq_getD_cons t p hp, decide_eq_true_eq, sltb_cons_iff]
  constructor
  · rintro (h | ⟨-, h⟩)
    · exact h
    · rw [sltb_nil_right] at h
      cases h
  · exact fun h => Or.inl h

theorem nBelowOrIn_singleton (t : List Nat) (a : Nat) :
    nBelowOrIn t [a] = lessC (bwtOf t (suffix_array t)) (a + 1) := by
  rw [lessC_bwt_eq]
  unfold nBelowOrIn
  rw [(suffix_array_perm t).countP_eq]
  refine List.countP_congr ?_
  intro p hp
  rw [List.mem_range] at hp
  show sleb (t.drop p) [a] = true ↔ decide (t.getD p 0 < a + 1) = true
  rw [drop_eq_getD_cons t p hp, decide_eq_true_eq, sleb_cons_iff]
  constructor
  · rintro (h | ⟨h, -⟩)
    · omega
    · omega
  · intro h
    by_cases he : t.getD p 0 = a
    · exact Or.inr ⟨he, sleb_nil_right _⟩
    · exact Or.inl (by omega)
theorem fmdBlocks_ne_nil (pairs : List (List Nat)) (h : pairs ≠ []) :
    fmdBlocks pairs ≠ [] := by
  cases pairs with
  | nil => exact absurd rfl h
  | cons u ps =>
    unfold fmdBlocks
    rw [List.flatMap_cons]
    simp

theorem fmdText_shape (pairs : List (List Nat)) (h : pairs ≠ []) :
    ∃ A, fmdText pairs = A ++ [36] :=
  withSep_eq_append36 (fmdBlocks pairs) (fmdBlocks_ne_nil pairs h)

theorem fmdText_symbols (pairs : List (List Nat))
    (hsym : ∀ u ∈ pairs, ∀ d ∈ u, d ∈ n_alphabet) :
    ∀ d ∈ fmdText pairs, d ∈ extList :=
  withSep_symbols (fmdBlocks pairs) (fmdBlocks_symbols pairs hsym)

theorem n_alphabet_no36 (u : List Nat) (hu : ∀ d ∈ u, d ∈ n_alphabet) : 36 ∉ u := by
  intro h
  have h36 : (36 : Nat) ∉ n_alphabet := by decide
  exact h36 (hu 36 h)

theorem fmd_cnt_rev (pairs : List (List Nat))
    (hsym : ∀ u ∈ pairs, ∀ d ∈ u, d ∈ n_alphabet)
    (X : List Nat) (hXne : X ≠ []) (hX : ∀ d ∈ X, d ∈ n_alphabet) :
    cnt (fmdText pairs) X = cnt (fmdText pairs) (revcomp X) := by
  have hX36 : 36 ∉ X := n_alphabet_no36 X hX
  rw [cnt_eq_occCount, cnt_eq_occCount]
  exact occCount_withSep_rev X hX36 hXne (fmdBlocks pairs)
    (fmdBlocks_no36 pairs (fun u hu => n_alphabet_no36 u (hsym u hu)))
    (fmdBlocks_perm pairs)

theorem fmd_rank36 (pairs : List (List Nat)) (hpairs : pairs ≠ [])
    (hsym : ∀ u ∈ pairs, ∀ d ∈ u, d ∈ n_alphabet)
    (P : List Nat) (hPne : P ≠ []) (hPsym : ∀ d ∈ P, d ∈ n_alphabet) :
    rankB (bwtOf (fmdText pairs) (suffix_array (fmdText pairs)))
        (nBelowOrIn (fmdText pairs) P) 36
      - rankB (bwtOf (fmdText pairs) (suffix_array (fmdText pairs)))
          (nBelow (fmdText pairs) P) 36
      = cnt (fmdText pairs) (revcomp P ++ [36]) := by
  obtain ⟨A, hA⟩ := fmdText_shape pairs hpairs
  have ht : fmdText pairs ≠ [] := by
    rw [hA]
    simp
  have hlast : (fmdText pairs).getD ((fmdText pairs).length - 1) 0 = 36 :=
    last36_of_append36 (fmdText pairs) A hA
  have hP36 : 36 ∉ P := n_alphabet_no36 P hPsym
  have hb : ∀ u ∈ fmdBlocks pairs, 36 ∉ u :=
    fmdBlocks_no36 pairs (fun u hu => n_alphabet_no36 u (hsym u hu))
  obtain ⟨u0, rest, hblocks⟩ : ∃ u r, fmdBlocks pairs = u :: r := by
    cases hfb : fmdBlocks pairs with
    | nil => exact absurd hfb (fmdBlocks_ne_nil pairs hpairs)
    | cons u r => exact ⟨u, r, rfl⟩
  have ht2 : fmdText pairs = u0 ++ 36 :: withSep rest := by
    show withSep (fmdBlocks pairs) = u0 ++ 36 :: withSep rest
    rw [hblocks, withSep_cons]
  have hdiff := rank36 (fmdText pairs) ht hlast P hPne
  have hRHS : cnt (fmdText pairs) (revcomp P ++ [36])
      = (fmdBlocks pairs).countP (fun u => isPrefb P u) := by
    rw [cnt_eq_occCount]
    have h1 : occCount (fmdText pairs) (revcomp P ++ [36])
        = (fmdBlocks pairs).countP (fun u => isSufb (revcomp P) u) :=
      occCount_withSep_Qdollar (revcomp P) (not_mem_36_revcomp P hP36)
        (revcomp_ne_nil P hPne) (fmdBlocks pairs) hb
    rw [h1]
    exact countP_sufb_eq_prefb P (fmdBlocks pairs) (fmdBlocks_perm pairs)
  have hdollarP : occCount (fmdText pairs) (36 :: P)
      = ((fmdBlocks pairs).drop 1).countP (fun u => isPrefb P u) :=
    occCount_withSep_dollarP P hP36 hPne (fmdBlocks pairs) hb
  have hhead : isPrefb P (fmdText pairs) = isPrefb P u0 := by
    rw [ht2]
    exact isPrefb_append36 u0 P (withSep rest) hP36
  have hcount : (fmdBlocks pairs).countP (fun u => isPrefb P u)
      = rest.countP (fun u => isPrefb P u) + (if isPrefb P u0 = true then 1 else 0) := by
    rw [hblocks, List.countP_cons]
  have hdrop : ((fmdBlocks pairs).drop 1) = rest := by
    rw [hblocks]
    rfl
  rw [hRHS, hcount, hdiff, hhead]
  rw [hdrop] at hdollarP
  rw [hdollarP]
  omega

theorem bextLoop_run (B t Q : List Nat) (lower size a : Nat) :
    ∀ (bs : List Nat) (st : Nat × Nat × Nat),
      a ∈ bs →
      (∀ b ∈ bs, occ? B (lower - 1) b = some (rankB B lower b)) →
      (∀ b ∈ bs, occ? B (lower + size - 1) b = some (rankB B (lower + size) b)) →
      (∀ b ∈ bs, rankB B (lower + size) b - rankB B lower b = cnt t (Q ++ [comp b])) →
      List.Chain' (fun b b' => nBelow t (Q ++ [comp b]) + cnt t (Q ++ [comp b])
        = nBelow t (Q ++ [comp b'])) bs →
      (∀ b, bs.head? = some b → st.2.2 + st.1 = nBelow t (Q ++ [comp b])) →
      bextLoop B lower size a bs st
        = some (cnt t (Q ++ [comp a]), rankB B lower a, nBelow t (Q ++ [comp a])) := by
  intro bs
  induction bs with
  | nil =>
    intro st ha _ _ _ _ _
    exact absurd ha (List.not_mem_nil a)
  | cons b bs' ih =>
    intro st ha ho hhi hs hchain hinv
    have hob := ho b (List.mem_cons_self b bs')
    have hhib := hhi b (List.mem_cons_self b bs')
    have hsb := hs b (List.mem_cons_self b bs')
    have hl : st.2.2 + st.1 = nBelow t (Q ++ [comp b]) := hinv b rfl
    unfold bextLoop
    rw [hob]
    simp only [Option.some_bind, Option.bind_eq_bind]
    rw [hhib]
    simp only [Option.some_bind, Option.bind_eq_bind]
    by_cases hba : b = a
    · subst hba
      rw [if_pos rfl, hsb, hl]
    · rw [if_neg hba]
      have ha' : a ∈ bs' := by
        rcases List.mem_cons.mp ha with h | h
        · exact absurd h.symm hba
        · exact h
      cases bs' with
      | nil => exact absurd ha' (List.not_mem_nil a)
      | cons b2 rest' =>
        have hcc := List.chain'_cons'.mp hchain
        have hpair : nBelow t (Q ++ [comp b]) + cnt t (Q ++ [comp b])
            = nBelow t (Q ++ [comp b2]) := hcc.1 b2 rfl
        refine ih (rankB B (lower + size) b - rankB B lower b, rankB B lower b,
            st.2.2 + st.1) ha'
          (fun x hx => ho x (List.mem_cons_of_mem b hx))
          (fun x hx => hhi x (List.mem_cons_of_mem b hx))
          (fun x hx => hs x (List.mem_cons_of_mem b hx))
          hcc.2 ?_
        intro y hy
        rw [List.head?_cons] at hy
        have hyb : y = b2 := (Option.some.inj hy).symm
        subst hyb
        show st.2.2 + st.1 + (rankB B (lower + size) b - rankB B lower b)
          = nBelow t (Q ++ [comp y])
        rw [hl, hsb]
        exact hpair
theorem mem_n_alphabet_extList : ∀ x ∈ n_alphabet, x ∈ extList := by decide

theorem extList_ge_36 : ∀ d ∈ extList, 36 ≤ d := by decide

theorem extList_n_alphabet (b : Nat) (hb : b ∈ extList) (hb36 : b ≠ 36) :
    b ∈ n_alphabet := by
  unfold extList at hb
  fin_cases hb
  · exact absurd rfl hb36
  · decide
  · decide
  · decide
  · decide
  · decide
  · decide
  · decide
  · decide
  · decide
  · decide

theorem n_alphabet_ne_36 (a : Nat) (ha : a ∈ n_alphabet) : a ≠ 36 := by
  intro he
  exact (by decide : (36 : Nat) ∉ n_alphabet) (he ▸ ha)

theorem backward_ext_fmd (pairs : List (List Nat)) (hpairs : pairs ≠ [])
    (hsym : ∀ u ∈ pairs, ∀ d ∈ u, d ∈ n_alphabet)
    (P : List Nat) (hPne : P ≠ []) (hPsym : ∀ d ∈ P, d ∈ n_alphabet)
    (iv : BiInterval)
    (hlow : iv.lower = nBelow (fmdText pairs) P)
    (hiv2 : iv.lower + iv.size = nBelowOrIn (fmdText pairs) P)
    (hrev : iv.lower_rev = nBelow (fmdText pairs) (revcomp P))
    (hms : iv.match_size = P.length)
    (a : Nat) (ha : a ∈ n_alphabet) (iv' : BiInterval)
    (h : backward_ext (bwtOf (fmdText pairs) (suffix_array (fmdText pairs))) iv a
      = some iv') :
    iv'.lower = nBelow (fmdText pairs) (a :: P)
      ∧ iv'.lower + iv'.size = nBelowOrIn (fmdText pairs) (a :: P)
      ∧ iv'.lower_rev = nBelow (fmdText pairs) (revcomp (a :: P))
      ∧ iv'.match_size = (a :: P).length := by
  have hlow0 : iv.lower ≠ 0 := by
    intro h0
    unfold backward_ext at h
    rw [if_pos h0] at h
    cases h
  obtain ⟨A, hA⟩ := fmdText_shape pairs hpairs
  have ht : fmdText pairs ≠ [] := by
    rw [hA]
    simp
  have hlast := last36_of_append36 (fmdText pairs) A hA
  have htext := fmdText_symbols pairs hsym
  have hn : 1 ≤ (fmdText pairs).length := List.length_pos.mpr ht
  have hBlen : (bwtOf (fmdText pairs) (suffix_array (fmdText pairs))).length
      = (fmdText pairs).length := by
    unfold bwtOf
    rw [List.length_map, suffix_array_length]
  have hub : nBelowOrIn (fmdText pairs) P ≤ (fmdText pairs).length :=
    nBelowOrIn_le_length _ _
  have hlb : nBelow (fmdText pairs) P ≤ nBelowOrIn (fmdText pairs) P :=
    nBelow_le_nBelowOrIn _ _
  have h1low : 1 ≤ iv.lower := Nat.one_le_iff_ne_zero.mpr hlow0
  have hivle : iv.lower + iv.size ≤ (fmdText pairs).length := by
    rw [hiv2]
    exact hub
  have ho : ∀ b ∈ extList,
      occ? (bwtOf (fmdText pairs) (suffix_array (fmdText pairs))) (iv.lower - 1) b
        = some (rankB (bwtOf (fmdText pairs) (suffix_array (fmdText pairs))) iv.lower b) := by
    intro b _
    unfold occ?
    rw [if_pos (by rw [hBlen]; omega)]
    congr 2
    omega
  have hhi : ∀ b ∈ extList,
      occ? (bwtOf (fmdText pairs) (suffix_array (fmdText pairs)))
          (iv.lower + iv.size - 1) b
        = some (rankB (bwtOf (fmdText pairs) (suffix_array (fmdText pairs)))
            (iv.lower + iv.size) b) := by
    intro b _
    unfold occ?
    rw [if_pos (by rw [hBlen]; omega)]
    congr 2
    omega
  have hQ36 : 36 ∉ revcomp P := not_mem_36_revcomp P (n_alphabet_no36 P hPsym)
  have hs : ∀ b ∈ extList,
      rankB (bwtOf (fmdText pairs) (suffix_array (fmdText pairs)))
          (iv.lower + iv.size) b
        - rankB (bwtOf (fmdText pairs) (suffix_array (fmdText pairs))) iv.lower b
        = cnt (fmdText pairs) (revcomp P ++ [comp b]) := by
    intro b hbext
    rw [hiv2, hlow]
    by_cases hb36 : b = 36
    · subst hb36
      exact fmd_rank36 pairs hpairs hsym P hPne hPsym
    · have hbna : b ∈ n_alphabet := extList_n_alphabet b hbext hb36
      rw [rank_cnt (fmdText pairs) ht hlast b hb36 P]
      have h2 := fmd_cnt_rev pairs hsym (b :: P) (by simp) (by
        intro d hd
        rcases List.mem_cons.mp hd with rfl | hd2
        · exact hbna
        · exact hPsym d hd2)
      rw [h2, revcomp_cons]
  have hchain : List.Chain' (fun b b' =>
      nBelow (fmdText pairs) (revcomp P ++ [comp b])
          + cnt (fmdText pairs) (revcomp P ++ [comp b])
        = nBelow (fmdText pairs) (revcomp P ++ [comp b'])) extList := by
    show List.Chain' _ ([36, 84, 71, 67, 78, 65, 116, 103, 99, 110, 97] : List Nat)
    simp only [List.chain'_cons, List.chain'_singleton, and_true]
    refine ⟨?_, ?_, ?_, ?_, ?_, ?_, ?_, ?_, ?_, ?_⟩
    · exact gap_pair _ _ A hA hQ36 htext 36 65 (by decide) (by decide)
    · exact gap_pair _ _ A hA hQ36 htext 65 67 (by decide) (by decide)
    · exact gap_pair _ _ A hA hQ36 htext 67 71 (by decide) (by decide)
    · exact gap_pair _ _ A hA hQ36 htext 71 78 (by decide) (by decide)
    · exact gap_pair _ _ A hA hQ36 htext 78 84 (by decide) (by decide)
    · exact gap_pair _ _ A hA hQ36 htext 84 97 (by decide) (by decide)
    · exact gap_pair _ _ A hA hQ36 htext 97 99 (by decide) (by decide)
    · exact gap_pair _ _ A hA hQ36 htext 99 103 (by decide) (by decide)
    · exact gap_pair _ _ A hA hQ36 htext 103 110 (by decide) (by decide)
    · exact gap_pair _ _ A hA hQ36 htext 110 116 (by decide) (by decide)
  have hsym36 : ∀ d ∈ fmdText pairs, 36 ≤ d := fun d hd => extList_ge_36 d (htext d hd)
  have hbot := nBelow_bottom (fmdText pairs) (revcomp P) A hA hQ36 hsym36
  have hinv : ∀ b, extList.head? = some b →
      ((0, 0, iv.lower_rev) : Nat × Nat × Nat).2.2 + ((0, 0, iv.lower_rev) : Nat × Nat × Nat).1
        = nBelow (fmdText pairs) (revcomp P ++ [comp b]) := by
    intro b hb
    have hb36 : b = 36 := by
      have h36 : extList.head? = some 36 := rfl
      rw [h36] at hb
      exact (Option.some.inj hb).symm
    subst hb36
    show iv.lower_rev + 0 = nBelow (fmdText pairs) (revcomp P ++ [comp 36])
    rw [Nat.add_zero, hrev]
    exact hbot.symm
  have haext : a ∈ extList := mem_n_alphabet_extList a ha
  have hloop := bextLoop_run (bwtOf (fmdText pairs) (suffix_array (fmdText pairs)))
    (fmdText pairs) (revcomp P) iv.lower iv.size a extList (0, 0, iv.lower_rev)
    haext ho hhi hs hchain hinv
  obtain ⟨st, hloopeq, hshape⟩ := backward_ext_shape
    (bwtOf (fmdText pairs) (suffix_array (fmdText pairs))) iv a iv' h
  have hst : st = (cnt (fmdText pairs) (revcomp P ++ [comp a]),
      rankB (bwtOf (fmdText pairs) (suffix_array (fmdText pairs))) iv.lower a,
      nBelow (fmdText pairs) (revcomp P ++ [comp a])) :=
    Option.some.inj (hloopeq.symm.trans hloop)
  have ha36 : a = 36 → P = [] := fun he => absurd he (n_alphabet_ne_36 a ha)
  have hstep := step_below (fmdText pairs) ht hlast a P ha36
  have hcnt_a : cnt (fmdText pairs) (revcomp P ++ [comp a]) = cnt (fmdText pairs) (a :: P) := by
    rw [← revcomp_cons]
    refine (fmd_cnt_rev pairs hsym (a :: P) (by simp) ?_).symm
    intro d hd
    rcases List.mem_cons.mp hd with rfl | hd2
    · exact ha
    · exact hPsym d hd2
  have hlbA : nBelow (fmdText pairs) (a :: P) ≤ nBelowOrIn (fmdText pairs) (a :: P) :=
    nBelow_le_nBelowOrIn _ _
  rw [hshape, hst]
  refine ⟨?_, ?_, ?_, ?_⟩
  · show lessC (bwtOf (fmdText pairs) (suffix_array (fmdText pairs))) a
        + rankB (bwtOf (fmdText pairs) (suffix_array (fmdText pairs))) iv.lower a
      = nBelow (fmdText pairs) (a :: P)
    rw [hlow]
    exact hstep.symm
  · show lessC (bwtOf (fmdText pairs) (suffix_array (fmdText pairs))) a
        + rankB (bwtOf (fmdText pairs) (suffix_array (fmdText pairs))) iv.lower a
        + cnt (fmdText pairs) (revcomp P ++ [comp a])
      = nBelowOrIn (fmdText pairs) (a :: P)
    rw [hlow, ← hstep, hcnt_a]
    unfold cnt
    omega
  · show nBelow (fmdText pairs) (revcomp P ++ [comp a])
      = nBelow (fmdText pairs) (revcomp (a :: P))
    rw [revcomp_cons]
  · show iv.match_size + 1 = (a :: P).length
    rw [hms, List.length_cons]

theorem forward_ext_fmd (pairs : List (List Nat)) (hpairs : pairs ≠ [])
    (hsym : ∀ u ∈ pairs, ∀ d ∈ u, d ∈ n_alphabet)
    (P : List Nat) (hPne : P ≠ []) (hPsym : ∀ d ∈ P, d ∈ n_alphabet)
    (iv : BiInterval)
    (hlow : iv.lower = nBelow (fmdText pairs) P)
    (hiv2 : iv.lower + iv.size = nBelowOrIn (fmdText pairs) P)
    (hrev : iv.lower_rev = nBelow (fmdText pairs) (revcomp P))
    (hms : iv.match_size = P.length)
    (a : Nat) (ha : a ∈ n_alphabet) (iv' : BiInterval)
    (h : forward_ext (bwtOf (fmdText pairs) (suffix_array (fmdText pairs))) iv a
      = some iv') :
    iv'.lower = nBelow (fmdText pairs) (P ++ [a])
      ∧ iv'.lower + iv'.size = nBelowOrIn (fmdText pairs) (P ++ [a])
      ∧ iv'.lower_rev = nBelow (fmdText pairs) (revcomp (P ++ [a]))
      ∧ iv'.match_size = (P ++ [a]).length := by
  unfold forward_ext at h
  cases hbe : backward_ext (bwtOf (fmdText pairs) (suffix_array (fmdText pairs)))
      iv.swapped (comp a) with
  | none =>
    rw [hbe] at h
    cases h
  | some fi =>
    rw [hbe] at h
    simp only [Option.map_some'] at h
    have hQP : revcomp (revcomp P) = P := revcomp_revcomp P
    have hQsym : ∀ d ∈ revcomp P, d ∈ n_alphabet := by
      intro d hd
      rw [mem_revcomp] at hd
      obtain ⟨e, he, rfl⟩ := hd
      exact comp_mem_n_alphabet e (hPsym e he)
    have hlbP : nBelow (fmdText pairs) P ≤ nBelowOrIn (fmdText pairs) P :=
      nBelow_le_nBelowOrIn _ _
    have hlbQ : nBelow (fmdText pairs) (revcomp P)
        ≤ nBelowOrIn (fmdText pairs) (revcomp P) := nBelow_le_nBelowOrIn _ _
    have hcntP : cnt (fmdText pairs) P = cnt (fmdText pairs) (revcomp P) :=
      fmd_cnt_rev pairs hsym P hPne hPsym
    have hfi := backward_ext_fmd pairs hpairs hsym (revcomp P) (revcomp_ne_nil P hPne)
      hQsym iv.swapped
      (by show iv.lower_rev = nBelow (fmdText pairs) (revcomp P); exact hrev)
      (by
        show iv.lower_rev + iv.size = nBelowOrIn (fmdText pairs) (revcomp P)
        have hsize : iv.size = cnt (fmdText pairs) P := by
          unfold cnt
          omega
        rw [hrev, hsize, hcntP]
        unfold cnt
        omega)
      (by
        show iv.lower = nBelow (fmdText pairs) (revcomp (revcomp P))
        rw [hQP]
        exact hlow)
      (by
        show iv.match_size = (revcomp P).length
        rw [revcomp_length]
        exact hms)
      (comp a) (comp_mem_n_alphabet a ha) fi hbe
    have hiv' : fi.swapped = iv' := Option.some.inj h
    have hsimp1 : revcomp (comp a :: revcomp P) = P ++ [a] := by
      rw [revcomp_cons, hQP, comp_comp]
    have hsimp2 : revcomp (P ++ [a]) = comp a :: revcomp P := by
      rw [revcomp_append]
      rfl
    have hcntA : cnt (fmdText pairs) (comp a :: revcomp P)
        = cnt (fmdText pairs) (P ++ [a]) := by
      have h1 := fmd_cnt_rev pairs hsym (comp a :: revcomp P) (by simp) (by
        intro d hd
        rcases List.mem_cons.mp hd with rfl | hd2
        · exact comp_mem_n_alphabet a ha
        · exact hQsym d hd2)
      rw [h1, hsimp1]
    have hlbPA : nBelow (fmdText pairs) (P ++ [a])
        ≤ nBelowOrIn (fmdText pairs) (P ++ [a]) := nBelow_le_nBelowOrIn _ _
    obtain ⟨hf1, hf2, hf3, hf4⟩ := hfi
    rw [← hiv']
    refine ⟨?_, ?_, ?_, ?_⟩
    · show fi.lower_rev = nBelow (fmdText pairs) (P ++ [a])
      rw [hf3, hsimp1]
    · show fi.lower_rev + fi.size = nBelowOrIn (fmdText pairs) (P ++ [a])
      have hsz : fi.size = cnt (fmdText pairs) (comp a :: revcomp P) := by
        have hlbCA : nBelow (fmdText pairs) (comp a :: revcomp P)
            ≤ nBelowOrIn (fmdText pairs) (comp a :: revcomp P) :=
          nBelow_le_nBelowOrIn _ _
        unfold cnt
        omega
      rw [hf3, hsimp1, hsz, hcntA]
      unfold cnt
      omega
    · show fi.lower = nBelow (fmdText pairs) (revcomp (P ++ [a]))
      rw [hf1, hsimp2]
    · show fi.match_size = (P ++ [a]).length
      rw [hf4, List.length_cons, revcomp_length, List.length_append]
      rfl

theorem init_interval_fmd (pairs : List (List Nat))
    (pattern : List Nat) (i a : Nat)
    (hga : pattern[i]? = some a) (ha : a ∈ n_alphabet) (iv : BiInterval)
    (h : init_interval (bwtOf (fmdText pairs) (suffix_array (fmdText pairs))) pattern i
      = some iv) :
    iv.lower = nBelow (fmdText pairs) [a]
      ∧ iv.lower + iv.size = nBelowOrIn (fmdText pairs) [a]
      ∧ iv.lower_rev = nBelow (fmdText pairs) (revcomp [a])
      ∧ iv.match_size = 1 := by
  unfold init_interval at h
  rw [hga] at h
  simp only [Option.some_bind, Option.bind_eq_bind] at h
  have ha255 : ¬(a = 255) := by
    intro he
    exact (by decide : (255 : Nat) ∉ n_alphabet) (he ▸ ha)
  rw [if_neg ha255] at h
  have hiv : (⟨lessC (bwtOf (fmdText pairs) (suffix_array (fmdText pairs))) a,
      lessC (bwtOf (fmdText pairs) (suffix_array (fmdText pairs))) (comp a),
      lessC (bwtOf (fmdText pairs) (suffix_array (fmdText pairs))) (a + 1)
        - lessC (bwtOf (fmdText pairs) (suffix_array (fmdText pairs))) a, 1⟩ : BiInterval)
      = iv := Option.some.inj h
  have hmono := lessC_mono (bwtOf (fmdText pairs) (suffix_array (fmdText pairs)))
    a (a + 1) (by omega)
  rw [← hiv]
  refine ⟨?_, ?_, ?_, ?_⟩
  · exact (nBelow_singleton (fmdText pairs) a).symm
  · show lessC (bwtOf (fmdText pairs) (suffix_array (fmdText pairs))) a
        + (lessC (bwtOf (fmdText pairs) (suffix_array (fmdText pairs))) (a + 1)
          - lessC (bwtOf (fmdText pairs) (suffix_array (fmdText pairs))) a)
      = nBelowOrIn (fmdText pairs) [a]
    rw [nBelowOrIn_singleton]
    omega
  · exact (nBelow_singleton (fmdText pairs) (comp a)).symm
  · rfl
theorem segment_mem_iff (t P : List Nat) (hP : P ≠ []) (x : Nat) :
    x ∈ ((suffix_array t).take (nBelowOrIn t P)).drop (nBelow t P)
      ↔ occursAt t P x = true := by
  have hsplit : (suffix_array t).filter (fun q => sleb (t.drop q) P)
      = (suffix_array t).filter (fun q => sltb (t.drop q) P)
        ++ (((suffix_array t).take (nBelowOrIn t P)).drop (nBelow t P)) := by
    have h1 : (suffix_array t).take (nBelowOrIn t P)
        = (suffix_array t).take (nBelow t P)
          ++ (((suffix_array t).take (nBelowOrIn t P)).drop (nBelow t P)) := by
      conv_lhs => rw [← List.take_append_drop (nBelow t P)
        ((suffix_array t).take (nBelowOrIn t P))]
      rw [List.take_take, Nat.min_eq_left (nBelow_le_nBelowOrIn t P)]
    rw [← take_nBelowOrIn_eq_filter, ← take_nBelow_eq_filter]
    exact h1
  have hnd : ((suffix_array t).filter (fun q => sleb (t.drop q) P)).Nodup :=
    (suffix_array_nodup t).filter _
  have hdisj := List.disjoint_of_nodup_append (hsplit ▸ hnd)
  constructor
  · intro hx
    have hxle : x ∈ (suffix_array t).filter (fun q => sleb (t.drop q) P) := by
      rw [hsplit]
      exact List.mem_append_right _ hx
    have hxsa : x ∈ suffix_array t := (List.mem_filter.mp hxle).1
    have hxleb : sleb (t.drop x) P = true := (List.mem_filter.mp hxle).2
    have hxnot : sltb (t.drop x) P = false := by
      cases hcase : sltb (t.drop x) P
      · rfl
      · exact absurd hx (hdisj (List.mem_filter.mpr ⟨hxsa, hcase⟩))
    exact (isPrefb_iff_sleb_not_sltb P (t.drop x)).mpr ⟨hxleb, hxnot⟩
  · intro hx
    have hxn : x < t.length := occursAt_lt_length t P x hP hx
    have hxsa : x ∈ suffix_array t := (mem_suffix_array t x).mpr hxn
    have hpair := (isPrefb_iff_sleb_not_sltb P (t.drop x)).mp hx
    have hxle : x ∈ (suffix_array t).filter (fun q => sleb (t.drop q) P) :=
      List.mem_filter.mpr ⟨hxsa, hpair.1⟩
    rw [hsplit] at hxle
    rcases List.mem_append.mp hxle with hmem | hmem
    · exfalso
      have hcontra := (List.mem_filter.mp hmem).2
      rw [hpair.2] at hcontra
      cases hcontra
    · exact hmem

theorem rev_upper (t P : List Nat) (iv : BiInterval)
    (hlow : iv.lower = nBelow t P)
    (hiv2 : iv.lower + iv.size = nBelowOrIn t P)
    (hrev : iv.lower_rev = nBelow t (revcomp P))
    (hcnt : cnt t P = cnt t (revcomp P)) :
    iv.lower_rev + iv.size = nBelowOrIn t (revcomp P) := by
  have h1 := nBelow_le_nBelowOrIn t P
  have h2 := nBelow_le_nBelowOrIn t (revcomp P)
  unfold cnt at hcnt
  omega

theorem reachBI_inv (pairs : List (List Nat)) (hpairs : pairs ≠ [])
    (hsym : ∀ u ∈ pairs, ∀ d ∈ u, d ∈ n_alphabet)
    (iv : BiInterval) (P : List Nat)
    (hreach : ReachBI (fmdText pairs) iv P) :
    P ≠ [] ∧ (∀ d ∈ P, d ∈ n_alphabet)
      ∧ iv.lower = nBelow (fmdText pairs) P
      ∧ iv.lower + iv.size = nBelowOrIn (fmdText pairs) P
      ∧ iv.lower_rev = nBelow (fmdText pairs) (revcomp P)
      ∧ iv.lower_rev + iv.size = nBelowOrIn (fmdText pairs) (revcomp P)
      ∧ iv.match_size = P.length := by
  induction hreach with
  | init pattern i a iv0 hga ha hinit =>
    obtain ⟨h1, h2, h3, h4⟩ := init_interval_fmd pairs pattern i a hga ha iv0 hinit
    have hasym : ∀ d ∈ ([a] : List Nat), d ∈ n_alphabet := by
      intro d hd
      rw [List.mem_singleton] at hd
      rw [hd]
      exact ha
    refine ⟨by simp, hasym, h1, h2, h3, ?_, by rw [h4]; rfl⟩
    exact rev_upper (fmdText pairs) [a] iv0 h1 h2 h3
      (fmd_cnt_rev pairs hsym [a] (by simp) hasym)
  | bwd iv0 P0 a iv1 hre ha hext ih =>
    obtain ⟨hPne, hPsym, h1, h2, h3, h4, h5⟩ := ih
    obtain ⟨g1, g2, g3, g4⟩ := backward_ext_fmd pairs hpairs hsym P0 hPne hPsym
      iv0 h1 h2 h3 h5 a ha iv1 hext
    have hsym' : ∀ d ∈ (a :: P0), d ∈ n_alphabet := by
      intro d hd
      rcases List.mem_cons.mp hd with rfl | hd2
      · exact ha
      · exact hPsym d hd2
    refine ⟨by simp, hsym', g1, g2, g3, ?_, g4⟩
    exact rev_upper (fmdText pairs) (a :: P0) iv1 g1 g2 g3
      (fmd_cnt_rev pairs hsym (a :: P0) (by simp) hsym')
  | fwd iv0 P0 a iv1 hre ha hext ih =>
    obtain ⟨hPne, hPsym, h1, h2, h3, h4, h5⟩ := ih
    obtain ⟨g1, g2, g3, g4⟩ := forward_ext_fmd pairs hpairs hsym P0 hPne hPsym
      iv0 h1 h2 h3 h5 a ha iv1 hext
    have hsym' : ∀ d ∈ (P0 ++ [a]), d ∈ n_alphabet := by
      intro d hd
      rcases List.mem_append.mp hd with hd2 | hd2
      · exact hPsym d hd2
      · rw [List.mem_singleton] at hd2
        rw [hd2]
        exact ha
    refine ⟨by simp, hsym', g1, g2, g3, ?_, g4⟩
    exact rev_upper (fmdText pairs) (P0 ++ [a]) iv1 g1 g2 g3
      (fmd_cnt_rev pairs hsym (P0 ++ [a]) (by simp) hsym')
/-- Claim C9: on a valid FMD-index text — the concatenation
`T₁$R₁$…Tₙ$Rₙ$` of `$`-terminated blocks closed under reverse complement
(`Rᵢ = revcomp Tᵢ`), symbols from the DNA-with-N alphabet — every chain of
`init_interval` / `backward_ext` / `forward_ext` calls that yields a
bi-interval `iv` with `size > 0` preserves the `BiInterval` invariant for
the match string `P` the calls spell: `[lower, lower+size)` is the
suffix-array interval of `P` (its member rows are exactly the occurrence
positions of `P` in the text), `[lower_rev, lower_rev+size)` is the
suffix-array interval of `revcomp P`, both intervals have the same `size`,
and `match_size = |P|`. -/
theorem biinterval_invariant (pairs : List (List Nat)) (hpairs : pairs ≠ [])
    (hsym : ∀ u ∈ pairs, ∀ d ∈ u, d ∈ n_alphabet)
    (iv : BiInterval) (P : List Nat)
    (hreach : ReachBI (fmdText pairs) iv P) (hpos : 0 < iv.size) :
    iv.lower = nBelow (fmdText pairs) P
      ∧ iv.lower + iv.size = nBelowOrIn (fmdText pairs) P
      ∧ iv.lower_rev = nBelow (fmdText pairs) (revcomp P)
      ∧ iv.lower_rev + iv.size = nBelowOrIn (fmdText pairs) (revcomp P)
      ∧ iv.match_size = P.length
      ∧ (∀ x, x ∈ ((suffix_array (fmdText pairs)).take (iv.lower + iv.size)).drop iv.lower
          ↔ occursAt (fmdText pairs) P x = true)
      ∧ (∀ x, x ∈ ((suffix_array (fmdText pairs)).take
              (iv.lower_rev + iv.size)).drop iv.lower_rev
          ↔ occursAt (fmdText pairs) (revcomp P) x = true) := by
  obtain ⟨hPne, hPsym, h1, h2, h3, h4, h5⟩ := reachBI_inv pairs hpairs hsym iv P hreach
  refine ⟨h1, h2, h3, h4, h5, ?_, ?_⟩
  · intro x
    rw [h2, h1]
    exact segment_mem_iff (fmdText pairs) P hPne x
  · intro x
    rw [h4, h3]
    exact segment_mem_iff (fmdText pairs) (revcomp P) (revcomp_ne_nil P hPne) x

/-- Witness for C9: the FMD text `A$T$` of the single pair `A`; the
bi-interval `⟨2, 3, 1, 1⟩` produced by `init_interval` on the pattern `A`
(match string `P = A`) has positive size, its forward interval `[2, 3)`
is the suffix-array block of `A`, its reverse interval starts at row 3
(the block of `T = revcomp A`), and row 0 — the occurrence position of `A`
in `A$T$` — is the sole member of the forward segment. -/
theorem biinterval_invariant_witness :
    (0 < (1 : Nat))
    ∧ (⟨2, 3, 1, 1⟩ : BiInterval).lower = nBelow (fmdText [[65]]) [65]
    ∧ ((⟨2, 3, 1, 1⟩ : BiInterval).lower + (⟨2, 3, 1, 1⟩ : BiInterval).size
        = nBelowOrIn (fmdText [[65]]) [65])
    ∧ (⟨2, 3, 1, 1⟩ : BiInterval).lower_rev = nBelow (fmdText [[65]]) (revcomp [65])
    ∧ ((0 : Nat) ∈ ((suffix_array (fmdText [[65]])).take 3).drop 2
        ↔ occursAt (fmdText [[65]]) [65] 0 = true) := by
  have h := biinterval_invariant [[65]] (by decide) (by decide) ⟨2, 3, 1, 1⟩ [65]
    (ReachBI.init [65] 0 65 ⟨2, 3, 1, 1⟩ (by decide) (by decide) (by decide))
    (by decide)
  exact ⟨by decide, h.1, h.2.1, h.2.2.1, h.2.2.2.2.2.1 0⟩
theorem seg_length (pattern : List Nat) (k j : Nat) (hj : j ≤ pattern.length) :
    (seg pattern k j).length = j - k := by
  unfold seg
  rw [List.length_drop, List.length_take]
  omega

theorem seg_ne_nil (pattern : List Nat) (k j : Nat) (hk : k < j)
    (hj : j ≤ pattern.length) : seg pattern k j ≠ [] := by
  intro h
  have := seg_length pattern k j hj
  rw [h] at this
  simp at this
  omega

theorem seg_cons (pattern : List Nat) (k j a : Nat) (hk : k < j)
    (hj : j ≤ pattern.length) (hg : pattern[k]? = some a) :
    seg pattern k j = a :: seg pattern (k + 1) j := by
  unfold seg
  have hlen : (pattern.take j).length = j := by
    rw [List.length_take]
    omega
  rw [drop_eq_getD_cons (pattern.take j) k (by omega)]
  congr 1
  have h1 : (pattern.take j)[k]? = pattern[k]? := List.getElem?_take_of_lt (by omega)
  rw [List.getD_eq_getElem?_getD, h1, hg]
  rfl

theorem seg_append (pattern : List Nat) (k j j' : Nat) (hk : k ≤ j) (hj : j ≤ j')
    (hj' : j' ≤ pattern.length) :
    seg pattern k j' = seg pattern k j ++ seg pattern j j' := by
  unfold seg
  have h1 : pattern.take j' = pattern.take j ++ (pattern.take j').drop j := by
    conv_lhs => rw [← List.take_append_drop j (pattern.take j')]
    rw [List.take_take, Nat.min_eq_left hj]
  conv_lhs => rw [h1]
  rw [List.drop_append_of_le_length (by rw [List.length_take]; omega)]

theorem isPrefb_of_append : ∀ (X Z s : List Nat),
    isPrefb (X ++ Z) s = true → isPrefb X s = true := by
  intro X
  induction X with
  | nil => intro Z s _; rfl
  | cons a X' ih =>
    intro Z s h
    cases s with
    | nil =>
      rw [List.cons_append] at h
      cases h
    | cons b bs =>
      rw [List.cons_append] at h
      simp only [isPrefb, Bool.and_eq_true] at h ⊢
      exact ⟨h.1, ih Z bs h.2⟩

theorem occursAt_of_append (t X Z : List Nat) (p : Nat)
    (h : occursAt t (X ++ Z) p = true) : occursAt t X p = true := by
  unfold occursAt at h ⊢
  exact isPrefb_of_append X Z (t.drop p) h

theorem occursAt_ge_false (t X : List Nat) (hX : X ≠ []) (p : Nat)
    (hp : t.length ≤ p) : occursAt t X p = false := by
  cases hocc : occursAt t X p
  · rfl
  · have := occursAt_lt_length t X p hX hocc
    omega

theorem countP_eq_imp_pointwise : ∀ (l : List Nat) (p q : Nat → Bool),
    (∀ x ∈ l, q x = true → p x = true) →
    l.countP p = l.countP q → ∀ x ∈ l, p x = q x := by
  intro l
  induction l with
  | nil => intro p q _ _ x hx; cases hx
  | cons y ys ih =>
    intro p q himp heq x hx
    have hmono : ys.countP q ≤ ys.countP p :=
      List.countP_mono_left (fun z hz => himp z (List.mem_cons_of_mem y hz))
    rw [List.countP_cons, List.countP_cons] at heq
    have hy : p y = q y := by
      cases hq : q y
      · cases hp : p y
        · rfl
        · exfalso
          rw [hp, hq] at heq
          simp at heq
          omega
      · exact himp y (List.mem_cons_self y ys) hq
    rcases List.mem_cons.mp hx with rfl | hx2
    · exact hy
    · refine ih p q (fun z hz => himp z (List.mem_cons_of_mem y hz)) ?_ x hx2
      rw [hy] at heq
      omega

theorem occCount_eq_countP (t X : List Nat) :
    occCount t X = (List.range t.length).countP (fun p => occursAt t X p) := rfl

theorem occEq_of_cnt_eq (t X Z : List Nat) (hX : X ≠ [])
    (h : cnt t (X ++ Z) = cnt t X) : OccEq t (X ++ Z) X := by
  have hXZ : X ++ Z ≠ [] := by
    cases X with
    | nil => exact absurd rfl hX
    | cons a as => simp
  rw [cnt_eq_occCount, cnt_eq_occCount, occCount_eq_countP, occCount_eq_countP] at h
  have hpt := countP_eq_imp_pointwise (List.range t.length)
    (fun p => occursAt t X p) (fun p => occursAt t (X ++ Z) p)
    (fun p _ hq => occursAt_of_append t X Z p hq) h.symm
  intro p
  by_cases hp : p < t.length
  · have := hpt p (List.mem_range.mpr hp)
    exact this.symm
  · rw [occursAt_ge_false t X hX p (by omega),
      occursAt_ge_false t (X ++ Z) hXZ p (by omega)]

theorem occEq_cnt (t X Y : List Nat) (h : OccEq t X Y) : cnt t X = cnt t Y := by
  rw [cnt_eq_occCount, cnt_eq_occCount, occCount_eq_countP, occCount_eq_countP]
  refine List.countP_congr ?_
  intro p _
  rw [h p]

theorem occursAt_cons_eq (t : List Nat) (a : Nat) (X : List Nat) (p : Nat)
    (hp : p < t.length) :
    occursAt t (a :: X) p = ((a == t.getD p 0) && occursAt t X (p + 1)) := by
  unfold occursAt
  rw [drop_eq_getD_cons t p hp]
  rfl

theorem occEq_cons (t : List Nat) (a : Nat) (X Y : List Nat)
    (hX : X ≠ []) (hY : Y ≠ []) (h : OccEq t X Y) : OccEq t (a :: X) (a :: Y) := by
  intro p
  by_cases hp : p < t.length
  · rw [occursAt_cons_eq t a X p hp, occursAt_cons_eq t a Y p hp, h (p + 1)]
  · rw [occursAt_ge_false t (a :: X) (by simp) p (by omega),
      occursAt_ge_false t (a :: Y) (by simp) p (by omega)]

theorem cnt_append_le (t X Z : List Nat) : cnt t (X ++ Z) ≤ cnt t X := by
  rw [cnt_eq_occCount, cnt_eq_occCount, occCount_eq_countP, occCount_eq_countP]
  exact List.countP_mono_left (fun p _ h => occursAt_of_append t X Z p h)

theorem cnt_zero_of_occ_zero (t X : List Nat) (hX : X ≠ [])
    (h : ∀ p, occursAt t X p = false) : cnt t X = 0 := by
  rw [cnt_eq_occCount, occCount_eq_countP]
  rw [List.countP_eq_zero]
  intro p _
  rw [h p]
  exact fun hc => by cases hc

theorem occ_zero_of_cnt_zero (t X : List Nat) (hX : X ≠ [])
    (h : cnt t X = 0) : ∀ p, occursAt t X p = false := by
  rw [cnt_eq_occCount, occCount_eq_countP, List.countP_eq_zero] at h
  intro p
  by_cases hp : p < t.length
  · have := h p (List.mem_range.mpr hp)
    cases hocc : occursAt t X p
    · rfl
    · exact absurd hocc this
  · exact occursAt_ge_false t X hX p (by omega)

theorem cnt_zero_contain (t pattern : List Nat) (i k' j' : Nat)
    (hk : k' ≤ i) (hij : i < j') (hj : j' ≤ pattern.length)
    (h0 : cnt t (seg pattern i (i + 1)) = 0) :
    cnt t (seg pattern k' j') = 0 := by
  have hi1 : i + 1 ≤ pattern.length := by omega
  have hmid : seg pattern i (i + 1) ≠ [] := seg_ne_nil pattern i (i + 1) (by omega) hi1
  have hzero := occ_zero_of_cnt_zero t (seg pattern i (i + 1)) hmid h0
  refine cnt_zero_of_occ_zero t (seg pattern k' j')
    (seg_ne_nil pattern k' j' (by omega) hj) ?_
  intro p
  cases hocc : occursAt t (seg pattern k' j') p
  · rfl
  · exfalso
    have hdrop := occursAt_drop t (seg pattern k' j') p (i - k') hocc
    have hsegd : (seg pattern k' j').drop (i - k') = seg pattern i j' := by
      unfold seg
      rw [List.drop_drop]
      congr 1
      omega
    rw [hsegd] at hdrop
    have hsplit : seg pattern i j' = seg pattern i (i + 1) ++ seg pattern (i + 1) j' :=
      seg_append pattern i (i + 1) j' (by omega) (by omega) hj
    rw [hsplit] at hdrop
    have := occursAt_of_append t (seg pattern i (i + 1)) (seg pattern (i + 1) j')
      (p + (i - k')) hdrop
    rw [hzero (p + (i - k'))] at this
    cases this
theorem seg_subset (pattern : List Nat) (k j : Nat) :
    ∀ d ∈ seg pattern k j, d ∈ pattern := by
  intro d hd
  unfold seg at hd
  exact (pattern.take_subset j) ((List.drop_subset k (pattern.take j)) hd)

theorem seg_self_nil (pattern : List Nat) (j : Nat) : seg pattern j j = [] := by
  unfold seg
  refine List.drop_eq_nil_of_le ?_
  rw [List.length_take]
  omega

theorem biInterval_eq_of_fields (x y : BiInterval)
    (h1 : x.lower = y.lower) (h2 : x.lower_rev = y.lower_rev)
    (h3 : x.size = y.size) (h4 : x.match_size = y.match_size) : x = y := by
  cases x
  cases y
  simp_all

theorem getElem?_lt_length (pattern : List Nat) (k : Nat) (a : Nat)
    (hg : pattern[k]? = some a) : k < pattern.length := by
  by_contra hge
  push_neg at hge
  rw [List.getElem?_eq_none hge] at hg
  cases hg

theorem init_mkIv (pairs : List (List Nat)) (pattern : List Nat) (i a : Nat)
    (hga : pattern[i]? = some a) (ha : a ∈ n_alphabet) (iv : BiInterval)
    (h : init_interval (bwtOf (fmdText pairs) (suffix_array (fmdText pairs))) pattern i
      = some iv) :
    iv = mkIv (fmdText pairs) pattern i (i + 1) := by
  have hi : i < pattern.length := getElem?_lt_length pattern i a hga
  obtain ⟨g1, g2, g3, g4⟩ := init_interval_fmd pairs pattern i a hga ha iv h
  have hseg : seg pattern i (i + 1) = [a] := by
    rw [seg_cons pattern i (i + 1) a (by omega) (by omega) hga,
      seg_self_nil pattern (i + 1)]
  have hle : nBelow (fmdText pairs) [a] ≤ nBelowOrIn (fmdText pairs) [a] :=
    nBelow_le_nBelowOrIn _ _
  refine biInterval_eq_of_fields iv (mkIv (fmdText pairs) pattern i (i + 1)) ?_ ?_ ?_ ?_
  · show iv.lower = nBelow (fmdText pairs) (seg pattern i (i + 1))
    rw [hseg]
    exact g1
  · show iv.lower_rev = nBelow (fmdText pairs) (revcomp (seg pattern i (i + 1)))
    rw [hseg]
    exact g3
  · show iv.size = cnt (fmdText pairs) (seg pattern i (i + 1))
    rw [hseg]
    unfold cnt
    omega
  · show iv.match_size = i + 1 - i
    rw [g4]
    omega

theorem bwd_mkIv (pairs : List (List Nat)) (hpairs : pairs ≠ [])
    (hsym : ∀ u ∈ pairs, ∀ d ∈ u, d ∈ n_alphabet)
    (pattern : List Nat) (hpat : ∀ d ∈ pattern, d ∈ n_alphabet)
    (c j a : Nat) (hcj : c + 1 < j) (hj : j ≤ pattern.length)
    (hga : pattern[c]? = some a) (fi : BiInterval)
    (hbe : backward_ext (bwtOf (fmdText pairs) (suffix_array (fmdText pairs)))
      (mkIv (fmdText pairs) pattern (c + 1) j) a = some fi) :
    fi = mkIv (fmdText pairs) pattern c j := by
  have ha : a ∈ n_alphabet := by
    refine hpat a ?_
    have hc : c < pattern.length := getElem?_lt_length pattern c a hga
    have := List.getElem?_eq_some_iff.mp hga
    obtain ⟨hlt, hval⟩ := this
    rw [← hval]
    exact List.getElem_mem hlt
  have hPne : seg pattern (c + 1) j ≠ [] := seg_ne_nil pattern (c + 1) j hcj hj
  have hPsym : ∀ d ∈ seg pattern (c + 1) j, d ∈ n_alphabet :=
    fun d hd => hpat d (seg_subset pattern (c + 1) j d hd)
  have hle : nBelow (fmdText pairs) (seg pattern (c + 1) j)
      ≤ nBelowOrIn (fmdText pairs) (seg pattern (c + 1) j) := nBelow_le_nBelowOrIn _ _
  obtain ⟨g1, g2, g3, g4⟩ := backward_ext_fmd pairs hpairs hsym
    (seg pattern (c + 1) j) hPne hPsym
    (mkIv (fmdText pairs) pattern (c + 1) j)
    rfl
    (by show nBelow _ _ + cnt _ _ = _; unfold cnt; omega)
    rfl
    (by show j - (c + 1) = _; exact (seg_length pattern (c + 1) j hj).symm)
    a ha fi hbe
  have hseg : seg pattern c j = a :: seg pattern (c + 1) j :=
    seg_cons pattern c j a (by omega) hj hga
  have hleA : nBelow (fmdText pairs) (a :: seg pattern (c + 1) j)
      ≤ nBelowOrIn (fmdText pairs) (a :: seg pattern (c + 1) j) :=
    nBelow_le_nBelowOrIn _ _
  refine biInterval_eq_of_fields fi (mkIv (fmdText pairs) pattern c j) ?_ ?_ ?_ ?_
  · show fi.lower = nBelow (fmdText pairs) (seg pattern c j)
    rw [hseg]
    exact g1
  · show fi.lower_rev = nBelow (fmdText pairs) (revcomp (seg pattern c j))
    rw [hseg]
    exact g3
  · show fi.size = cnt (fmdText pairs) (seg pattern c j)
    rw [hseg]
    unfold cnt
    omega
  · show fi.match_size = j - c
    rw [g4, List.length_cons, seg_length pattern (c + 1) j hj]
    omega

theorem fwd_mkIv (pairs : List (List Nat)) (hpairs : pairs ≠ [])
    (hsym : ∀ u ∈ pairs, ∀ d ∈ u, d ∈ n_alphabet)
    (pattern : List Nat) (hpat : ∀ d ∈ pattern, d ∈ n_alphabet)
    (c j a : Nat) (hcj : c < j) (hj : j < pattern.length)
    (hga : pattern[j]? = some a) (fi : BiInterval)
    (hfe : forward_ext (bwtOf (fmdText pairs) (suffix_array (fmdText pairs)))
      (mkIv (fmdText pairs) pattern c j) a = some fi) :
    fi = mkIv (fmdText pairs) pattern c (j + 1) := by
  have ha : a ∈ n_alphabet := by
    refine hpat a ?_
    have := List.getElem?_eq_some_iff.mp hga
    obtain ⟨hlt, hval⟩ := this
    rw [← hval]
    exact List.getElem_mem hlt
  have hPne : seg pattern c j ≠ [] := seg_ne_nil pattern c j hcj (by omega)
  have hPsym : ∀ d ∈ seg pattern c j, d ∈ n_alphabet :=
    fun d hd => hpat d (seg_subset pattern c j d hd)
  have hle : nBelow (fmdText pairs) (seg pattern c j)
      ≤ nBelowOrIn (fmdText pairs) (seg pattern c j) := nBelow_le_nBelowOrIn _ _
  obtain ⟨g1, g2, g3, g4⟩ := forward_ext_fmd pairs hpairs hsym
    (seg pattern c j) hPne hPsym
    (mkIv (fmdText pairs) pattern c j)
    rfl
    (by show nBelow _ _ + cnt _ _ = _; unfold cnt; omega)
    rfl
    (by show j - c = _; exact (seg_length pattern c j (by omega)).symm)
    a ha fi hfe
  have hseg : seg pattern c (j + 1) = seg pattern c j ++ [a] := by
    rw [seg_append pattern c j (j + 1) (by omega) (by omega) (by omega)]
    congr 1
    rw [seg_cons pattern j (j + 1) a (by omega) (by omega) hga,
      seg_self_nil pattern (j + 1)]
  have hleA : nBelow (fmdText pairs) (seg pattern c j ++ [a])
      ≤ nBelowOrIn (fmdText pairs) (seg pattern c j ++ [a]) :=
    nBelow_le_nBelowOrIn _ _
  refine biInterval_eq_of_fields fi (mkIv (fmdText pairs) pattern c (j + 1)) ?_ ?_ ?_ ?_
  · show fi.lower = nBelow (fmdText pairs) (seg pattern c (j + 1))
    rw [hseg]
    exact g1
  · show fi.lower_rev = nBelow (fmdText pairs) (revcomp (seg pattern c (j + 1)))
    rw [hseg]
    exact g3
  · show fi.size = cnt (fmdText pairs) (seg pattern c (j + 1))
    rw [hseg]
    unfold cnt
    omega
  · show fi.match_size = j + 1 - c
    rw [g4, List.length_append, seg_length pattern c j (by omega)]
    simp
    omega

theorem extendRight_sem (pairs : List (List Nat)) (hpairs : pairs ≠ [])
    (hsym : ∀ u ∈ pairs, ∀ d ∈ u, d ∈ n_alphabet)
    (pattern : List Nat) (hpat : ∀ d ∈ pattern, d ∈ n_alphabet) (i : Nat) :
    ∀ (d j : Nat), j = i + 1 + d → j ≤ pattern.length →
      ∀ iv, extendRight (bwtOf (fmdText pairs) (suffix_array (fmdText pairs)))
          pattern i j = some iv →
        iv = mkIv (fmdText pairs) pattern i j := by
  intro d
  induction d with
  | zero =>
    intro j hj hjl iv hext
    subst hj
    have hi : i < pattern.length := by omega
    rw [extendRight_init (bwtOf (fmdText pairs) (suffix_array (fmdText pairs)))
      pattern i hi] at hext
    have hga : pattern[i]? = some pattern[i] := List.getElem?_eq_getElem hi
    exact init_mkIv pairs pattern i pattern[i] hga
      (hpat pattern[i] (List.getElem_mem hi)) iv hext
  | succ d ih =>
    intro j hj hjl iv hext
    have hj' : j = (i + 1 + d) + 1 := by omega
    have hjd : i + 1 + d < pattern.length := by omega
    have hga : pattern[i + 1 + d]? = some pattern[i + 1 + d] :=
      List.getElem?_eq_getElem hjd
    have hdrop : pattern.drop (i + 1 + d)
        = pattern[i + 1 + d] :: pattern.drop (i + 1 + d + 1) :=
      List.drop_eq_getElem_cons hjd
    rw [hj', extendRight_succ (bwtOf (fmdText pairs) (suffix_array (fmdText pairs)))
      pattern i (i + 1 + d) pattern[i + 1 + d] (pattern.drop (i + 1 + d + 1))
      (by omega) hdrop] at hext
    cases hprev : extendRight (bwtOf (fmdText pairs) (suffix_array (fmdText pairs)))
        pattern i (i + 1 + d) with
    | none =>
      rw [hprev] at hext
      cases hext
    | some iv1 =>
      rw [hprev] at hext
      simp only [Option.bind_eq_bind, Option.some_bind] at hext
      have hiv1 := ih (i + 1 + d) rfl (by omega) iv1 hprev
      rw [hiv1] at hext
      rw [hj']
      exact fwd_mkIv pairs hpairs hsym pattern hpat i (i + 1 + d) pattern[i + 1 + d]
        (by omega) hjd hga iv hext

theorem extendChain_sem (pairs : List (List Nat)) (hpairs : pairs ≠ [])
    (hsym : ∀ u ∈ pairs, ∀ d ∈ u, d ∈ n_alphabet)
    (pattern : List Nat) (hpat : ∀ d ∈ pattern, d ∈ n_alphabet) (i j : Nat)
    (hij : i < j) (hjl : j ≤ pattern.length) :
    ∀ (d k : Nat), k + d = i → ∀ iv,
      extendChain (bwtOf (fmdText pairs) (suffix_array (fmdText pairs)))
          pattern k i j = some iv →
        iv = mkIv (fmdText pairs) pattern k j := by
  intro d
  induction d with
  | zero =>
    intro k hk iv hext
    have hki : k = i := by omega
    subst hki
    rw [extendChain_self] at hext
    exact extendRight_sem pairs hpairs hsym pattern hpat k (j - k - 1) j (by omega)
      hjl iv hext
  | succ d ih =>
    intro k hk iv hext
    have hki : k < i := by omega
    have hkl : k < pattern.length := by omega
    have hga : pattern[k]? = some pattern[k] := List.getElem?_eq_getElem hkl
    rw [extendChain_pred (bwtOf (fmdText pairs) (suffix_array (fmdText pairs)))
      pattern i k j pattern[k] hki (by omega) hga] at hext
    cases hprev : extendChain (bwtOf (fmdText pairs) (suffix_array (fmdText pairs)))
        pattern (k + 1) i j with
    | none =>
      rw [hprev] at hext
      cases hext
    | some iv1 =>
      rw [hprev] at hext
      simp only [Option.bind_eq_bind, Option.some_bind] at hext
      have hiv1 := ih (k + 1) (by omega) iv1 hprev
      rw [hiv1] at hext
      exact bwd_mkIv pairs hpairs hsym pattern hpat k j pattern[k]
        (by omega) hjl hga iv hext
theorem occEq_refl (t X : List Nat) : OccEq t X X := fun _ => rfl

theorem occEq_symm (t X Y : List Nat) (h : OccEq t X Y) : OccEq t Y X :=
  fun p => (h p).symm

theorem occEq_trans (t X Y Z : List Nat) (h1 : OccEq t X Y) (h2 : OccEq t Y Z) :
    OccEq t X Z := fun p => (h1 p).trans (h2 p)

theorem cnt_cons_le (t : List Nat) (a : Nat) (X : List Nat) (hX : X ≠ []) :
    cnt t (a :: X) ≤ cnt t X := by
  rw [cnt_eq_occCount, cnt_eq_occCount, occCount_eq_countP, occCount_eq_countP,
    countP_range_eq_card, countP_range_eq_card]
  refine Finset.card_le_card_of_injOn (fun j => j + 1) ?_ ?_
  · intro j hj
    rw [Finset.mem_filter, Finset.mem_range] at hj ⊢
    have hX1 : occursAt t X (j + 1) = true := occursAt_cons_tail t a X j hj.2
    exact ⟨occursAt_lt_length t X (j + 1) hX hX1, hX1⟩
  · intro x _ y _ hxy
    have hxy2 : x + 1 = y + 1 := hxy
    omega

theorem desc_mem_le_head : ∀ (l : List Nat),
    List.Chain' (fun x y => y ≤ x) l →
    ∀ x ∈ l, ∀ hd, l.head? = some hd → x ≤ hd := by
  intro l
  induction l with
  | nil => intro _ x hx; cases hx
  | cons h0 rest ih =>
    intro hchain x hx hd hhd
    rw [List.head?_cons] at hhd
    have hhd0 : hd = h0 := (Option.some.inj hhd).symm
    subst hhd0
    rcases List.mem_cons.mp hx with rfl | hx2
    · exact le_refl x
    · have hcc := List.chain'_cons'.mp hchain
      cases rest with
      | nil => cases hx2
      | cons r1 rest' =>
        have hstep : r1 ≤ hd := hcc.1 r1 rfl
        have := ih hcc.2 x hx2 r1 rfl
        omega

theorem cnt_seg_cons_le (t pattern : List Nat) (c x a : Nat)
    (hcx : c + 1 < x) (hx : x ≤ pattern.length) (hga : pattern[c]? = some a) :
    cnt t (seg pattern c x) ≤ cnt t (seg pattern (c + 1) x) := by
  rw [seg_cons pattern c x a (by omega) hx hga]
  exact cnt_cons_le t a (seg pattern (c + 1) x)
    (seg_ne_nil pattern (c + 1) x hcx hx)

theorem occEq_seg_ext (t pattern : List Nat) (c x y a : Nat)
    (hcx : c + 1 < x) (hx : x ≤ pattern.length)
    (hcy : c + 1 < y) (hy : y ≤ pattern.length)
    (hga : pattern[c]? = some a)
    (h : OccEq t (seg pattern (c + 1) x) (seg pattern (c + 1) y)) :
    OccEq t (seg pattern c x) (seg pattern c y) := by
  rw [seg_cons pattern c x a (by omega) hx hga,
    seg_cons pattern c y a (by omega) hy hga]
  exact occEq_cons t a (seg pattern (c + 1) x) (seg pattern (c + 1) y)
    (seg_ne_nil pattern (c + 1) x hcx hx)
    (seg_ne_nil pattern (c + 1) y hcy hy) h

theorem occEq_seg_of_cnt_eq (t pattern : List Nat) (c x y : Nat)
    (hcx : c < x) (hxy : x ≤ y) (hy : y ≤ pattern.length)
    (hcnt : cnt t (seg pattern c y) = cnt t (seg pattern c x)) :
    OccEq t (seg pattern c y) (seg pattern c x) := by
  have hsplit : seg pattern c y = seg pattern c x ++ seg pattern x y :=
    seg_append pattern c x y (by omega) hxy hy
  rw [hsplit] at hcnt ⊢
  exact occEq_of_cnt_eq t (seg pattern c x) (seg pattern x y)
    (seg_ne_nil pattern c x hcx (by omega)) hcnt
theorem mkIv_size (t pattern : List Nat) (k j : Nat) :
    (mkIv t pattern k j).size = cnt t (seg pattern k j) := rfl

theorem getLast?_mem_list : ∀ (l : List Nat) (e : Nat), l.getLast? = some e → e ∈ l := by
  intro l
  induction l with
  | nil => intro e h; cases h
  | cons y rest ih =>
    intro e h
    cases rest with
    | nil =>
      have : e = y := by
        have h2 : (some y : Option Nat) = some e := h
        exact (Option.some.inj h2).symm
      rw [this]
      exact List.mem_cons_self y []
    | cons z rest' =>
      rw [List.getLast?_cons_cons] at h
      exact List.mem_cons_of_mem y (ih e h)

theorem phase2_fold_tail (pairs : List (List Nat)) (hpairs : pairs ≠ [])
    (hsym : ∀ u ∈ pairs, ∀ d ∈ u, d ∈ n_alphabet)
    (pattern : List Nat) (hpat : ∀ d ∈ pattern, d ∈ n_alphabet)
    (i c : Nat) (a : Nat) (hga : pattern[c]? = some a) (hci : c < i) :
    ∀ (Jr Jc : List Nat) (last jst : Int) (msst : List BiInterval)
      (st' : List BiInterval × Int × Int × List BiInterval),
      (∀ x ∈ Jr, i < x ∧ x ≤ pattern.length) →
      List.Chain' (fun x y => y ≤ x) Jr →
      (∀ x ∈ Jr, ∀ y ∈ Jc, x ≤ y) →
      List.Chain' (fun x y => y ≤ x) Jc →
      (∀ y ∈ Jc, i < y ∧ y ≤ pattern.length
        ∧ 0 < cnt (fmdText pairs) (seg pattern c y)) →
      ((Jc = [] ∧ last = -1 ∧ jst = (c : Int))
        ∨ (∃ e ∈ Jc, Jc.getLast? = some e
            ∧ last = (cnt (fmdText pairs) (seg pattern c e) : Int))) →
      (Jr.map (mkIv (fmdText pairs) pattern (c + 1))).foldlM
          (smemsStep (bwtOf (fmdText pairs) (suffix_array (fmdText pairs))) a (c : Int))
          (Jc.map (mkIv (fmdText pairs) pattern c), last, jst, msst) = some st' →
      ∃ Jadd last',
        st' = ((Jc ++ Jadd).map (mkIv (fmdText pairs) pattern c), last', jst, msst)
        ∧ List.Chain' (fun x y => y ≤ x) (Jc ++ Jadd)
        ∧ (∀ y ∈ Jadd, y ∈ Jr ∧ 0 < cnt (fmdText pairs) (seg pattern c y))
        ∧ ((Jc ++ Jadd = [] ∧ last' = -1 ∧ jst = (c : Int))
            ∨ (∃ e ∈ Jc ++ Jadd, (Jc ++ Jadd).getLast? = some e
                ∧ last' = (cnt (fmdText pairs) (seg pattern c e) : Int)))
        ∧ (∀ x ∈ Jr, 0 < cnt (fmdText pairs) (seg pattern c x) →
            ∃ r ∈ Jc ++ Jadd, x ≤ r
              ∧ OccEq (fmdText pairs) (seg pattern c r) (seg pattern c x)) := by
  intro Jr
  induction Jr with
  | nil =>
    intro Jc last jst msst st' hJr hJrdesc hJrJc hJcdesc hJcfacts hmeta hrun
    simp only [List.map_nil, List.foldlM_nil] at hrun
    refine ⟨[], last, ?_, ?_, ?_, ?_, ?_⟩
    · rw [List.append_nil]
      exact (Option.some.inj hrun).symm
    · rw [List.append_nil]
      exact hJcdesc
    · intro y hy
      cases hy
    · rw [List.append_nil]
      exact hmeta
    · intro x hx
      cases hx
  | cons x Jr' ih =>
    intro Jc last jst msst st' hJr hJrdesc hJrJc hJcdesc hJcfacts hmeta hrun
    obtain ⟨hxi, hxlen⟩ := hJr x (List.mem_cons_self x Jr')
    rw [List.map_cons, List.foldlM_cons] at hrun
    unfold smemsStep at hrun
    cases hbe0 : backward_ext (bwtOf (fmdText pairs) (suffix_array (fmdText pairs)))
        (mkIv (fmdText pairs) pattern (c + 1) x) a with
    | none =>
      rw [hbe0] at hrun
      cases hrun
    | some fi =>
      have hfi : fi = mkIv (fmdText pairs) pattern c x :=
        bwd_mkIv pairs hpairs hsym pattern hpat c x a (by omega) hxlen hga fi hbe0
      subst hfi
      rw [hbe0] at hrun
      simp only [Option.bind_eq_bind, Option.some_bind] at hrun
      have hrec : ¬(((mkIv (fmdText pairs) pattern c x).size = 0 ∨ (c : Int) = -1)
          ∧ Jc.map (mkIv (fmdText pairs) pattern c) = [] ∧ (c : Int) < jst) := by
        rintro ⟨-, h2, h3⟩
        cases hJc0 : Jc with
        | nil =>
          rcases hmeta with ⟨-, -, hj⟩ | ⟨e, he, -, -⟩
          · rw [hj] at h3
            omega
          · rw [hJc0] at he
            cases he
        | cons y ys =>
          rw [hJc0] at h2
          simp at h2
      rw [if_neg hrec] at hrun
      have hJr'facts : ∀ z ∈ Jr', i < z ∧ z ≤ pattern.length :=
        fun z hz => hJr z (List.mem_cons_of_mem x hz)
      have hJr'desc : List.Chain' (fun u v => v ≤ u) Jr' :=
        (List.chain'_cons'.mp hJrdesc).2
      have hJr'x : ∀ z ∈ Jr', z ≤ x := by
        intro z hz
        cases Jr' with
        | nil => cases hz
        | cons w Jr'' =>
          have hw : w ≤ x := (List.chain'_cons'.mp hJrdesc).1 w rfl
          have := desc_mem_le_head (w :: Jr'') hJr'desc z hz w rfl
          omega
      by_cases hpush : (mkIv (fmdText pairs) pattern c x).size ≠ 0
          ∧ ((mkIv (fmdText pairs) pattern c x).size : Int) ≠ last
      · rw [if_pos hpush] at hrun
        have hxpos : 0 < cnt (fmdText pairs) (seg pattern c x) := by
          have := hpush.1
          rw [mkIv_size] at this
          omega
        have hmap : Jc.map (mkIv (fmdText pairs) pattern c)
            ++ [mkIv (fmdText pairs) pattern c x]
            = (Jc ++ [x]).map (mkIv (fmdText pairs) pattern c) := by
          rw [List.map_append, List.map_cons, List.map_nil]
        rw [hmap] at hrun
        have hJrJc' : ∀ z ∈ Jr', ∀ y ∈ Jc ++ [x], z ≤ y := by
          intro z hz y hy
          rcases List.mem_append.mp hy with hy2 | hy2
          · exact hJrJc z (List.mem_cons_of_mem x hz) y hy2
          · rw [List.mem_singleton.mp hy2]
            exact hJr'x z hz
        have hJcdesc' : List.Chain' (fun u v => v ≤ u) (Jc ++ [x]) := by
          rw [List.chain'_append]
          refine ⟨hJcdesc, List.chain'_singleton x, ?_⟩
          intro p hp q hq
          rw [List.head?_cons] at hq
          have hqx : q = x := by
            have h2 : (some x : Option Nat) = some q := hq
            exact (Option.some.inj h2).symm
          subst hqx
          exact hJrJc q (List.mem_cons_self q Jr') p (getLast?_mem_list Jc p hp)
        have hJcfacts' : ∀ y ∈ Jc ++ [x], i < y ∧ y ≤ pattern.length
            ∧ 0 < cnt (fmdText pairs) (seg pattern c y) := by
          intro y hy
          rcases List.mem_append.mp hy with hy2 | hy2
          · exact hJcfacts y hy2
          · rw [List.mem_singleton.mp hy2]
            exact ⟨hxi, hxlen, hxpos⟩
        have hmeta' : ((Jc ++ [x] = [] ∧ ((cnt (fmdText pairs) (seg pattern c x) : Int))
              = -1 ∧ jst = (c : Int))
            ∨ (∃ e ∈ Jc ++ [x], (Jc ++ [x]).getLast? = some e
                ∧ ((cnt (fmdText pairs) (seg pattern c x) : Int))
                  = (cnt (fmdText pairs) (seg pattern c e) : Int))) := by
          right
          exact ⟨x, List.mem_append_right Jc (List.mem_cons_self x []),
            List.getLast?_concat Jc, rfl⟩
        obtain ⟨Jadd, last', hst, hdesc2, hadd2, hmeta2, hrepr2⟩ :=
          ih (Jc ++ [x]) (cnt (fmdText pairs) (seg pattern c x)) jst msst st'
            hJr'facts hJr'desc hJrJc' hJcdesc' hJcfacts' hmeta' hrun
        refine ⟨x :: Jadd, last', ?_, ?_, ?_, ?_, ?_⟩
        · rw [List.append_cons]
          exact hst
        · rw [List.append_cons]
          exact hdesc2
        · intro y hy
          rcases List.mem_cons.mp hy with rfl | hy2
          · exact ⟨List.mem_cons_self y Jr', hxpos⟩
          · obtain ⟨hmem, hpos⟩ := hadd2 y hy2
            exact ⟨List.mem_cons_of_mem x hmem, hpos⟩
        · rw [List.append_cons]
          exact hmeta2
        · intro z hz hzpos
          rcases List.mem_cons.mp hz with rfl | hz2
          · refine ⟨z, ?_, le_refl z, occEq_refl _ _⟩
            rw [List.append_cons]
            exact List.mem_append_left Jadd
              (List.mem_append_right Jc (List.mem_cons_self z []))
          · obtain ⟨r, hr, hzr, hocc⟩ := hrepr2 z hz2 hzpos
            refine ⟨r, ?_, hzr, hocc⟩
            rw [List.append_cons]
            exact hr
      · rw [if_neg hpush] at hrun
        obtain ⟨Jadd, last', hst, hdesc2, hadd2, hmeta2, hrepr2⟩ :=
          ih Jc last jst msst st'
            hJr'facts hJr'desc
            (fun z hz y hy => hJrJc z (List.mem_cons_of_mem x hz) y hy)
            hJcdesc hJcfacts hmeta hrun
        refine ⟨Jadd, last', hst, hdesc2, ?_, hmeta2, ?_⟩
        · intro y hy
          obtain ⟨hmem, hpos⟩ := hadd2 y hy
          exact ⟨List.mem_cons_of_mem x hmem, hpos⟩
        · intro z hz hzpos
          rcases List.mem_cons.mp hz with rfl | hz2
          · push_neg at hpush
            have hsz : ((mkIv (fmdText pairs) pattern c z).size : Int) = last := by
              apply hpush
              rw [mkIv_size]
              omega
            rw [mkIv_size] at hsz
            rcases hmeta with ⟨-, hl, -⟩ | ⟨e, he, -, hle⟩
            · exfalso
              rw [hl] at hsz
              omega
            · have hcz : cnt (fmdText pairs) (seg pattern c e)
                  = cnt (fmdText pairs) (seg pattern c z) := by
                rw [hle] at hsz
                omega
              have hze : z ≤ e := hJrJc z (List.mem_cons_self z Jr') e he
              obtain ⟨hei, helen, -⟩ := hJcfacts e he
              refine ⟨e, List.mem_append_left Jadd he, hze, ?_⟩
              exact occEq_seg_of_cnt_eq (fmdText pairs) pattern c z e (by omega)
                hze helen (by omega)
          · obtain ⟨r, hr, hzr, hocc⟩ := hrepr2 z hz2 hzpos
            exact ⟨r, hr, hzr, hocc⟩
theorem phase2_fold_run (pairs : List (List Nat)) (hpairs : pairs ≠ [])
    (hsym : ∀ u ∈ pairs, ∀ d ∈ u, d ∈ n_alphabet)
    (pattern : List Nat) (hpat : ∀ d ∈ pattern, d ∈ n_alphabet)
    (i c : Nat) (a : Nat) (hga : pattern[c]? = some a) (hci : c < i)
    (hd : Nat) (Jtl : List Nat) (j0 : Int) (ms0 : List BiInterval)
    (st' : List BiInterval × Int × Int × List BiInterval)
    (hJ : ∀ x ∈ hd :: Jtl, i < x ∧ x ≤ pattern.length)
    (hJdesc : List.Chain' (fun x y => y ≤ x) (hd :: Jtl))
    (hj0 : (c : Int) < j0)
    (hrun : ((hd :: Jtl).map (mkIv (fmdText pairs) pattern (c + 1))).foldlM
        (smemsStep (bwtOf (fmdText pairs) (suffix_array (fmdText pairs))) a (c : Int))
        ([], -1, j0, ms0) = some st') :
    ∃ Jc' last' j' ms',
      st' = (Jc'.map (mkIv (fmdText pairs) pattern c), last', j', ms')
      ∧ List.Chain' (fun x y => y ≤ x) Jc'
      ∧ (∀ y ∈ Jc', y ∈ hd :: Jtl ∧ 0 < cnt (fmdText pairs) (seg pattern c y))
      ∧ (∀ x ∈ hd :: Jtl, 0 < cnt (fmdText pairs) (seg pattern c x) →
          ∃ r ∈ Jc', x ≤ r
            ∧ OccEq (fmdText pairs) (seg pattern c r) (seg pattern c x))
      ∧ ((cnt (fmdText pairs) (seg pattern c hd) = 0
            ∧ ms' = ms0 ++ [mkIv (fmdText pairs) pattern (c + 1) hd] ∧ j' = (c : Int))
          ∨ (0 < cnt (fmdText pairs) (seg pattern c hd) ∧ ms' = ms0 ∧ j' = j0)) := by
  obtain ⟨hdi, hdlen⟩ := hJ hd (List.mem_cons_self hd Jtl)
  rw [List.map_cons, List.foldlM_cons] at hrun
  unfold smemsStep at hrun
  cases hbe0 : backward_ext (bwtOf (fmdText pairs) (suffix_array (fmdText pairs)))
      (mkIv (fmdText pairs) pattern (c + 1) hd) a with
  | none =>
    rw [hbe0] at hrun
    cases hrun
  | some fi =>
    have hfi : fi = mkIv (fmdText pairs) pattern c hd :=
      bwd_mkIv pairs hpairs hsym pattern hpat c hd a (by omega) hdlen hga fi hbe0
    subst hfi
    rw [hbe0] at hrun
    simp only [Option.bind_eq_bind, Option.some_bind] at hrun
    have hJtl : ∀ z ∈ Jtl, i < z ∧ z ≤ pattern.length :=
      fun z hz => hJ z (List.mem_cons_of_mem hd hz)
    have hJtldesc : List.Chain' (fun u v => v ≤ u) Jtl :=
      (List.chain'_cons'.mp hJdesc).2
    have hJtlhd : ∀ z ∈ Jtl, z ≤ hd := by
      intro z hz
      cases Jtl with
      | nil => cases hz
      | cons w Jtl' =>
        have hw : w ≤ hd := (List.chain'_cons'.mp hJdesc).1 w rfl
        have := desc_mem_le_head (w :: Jtl') hJtldesc z hz w rfl
        omega
    by_cases hdie : cnt (fmdText pairs) (seg pattern c hd) = 0
    · have hcond : ((mkIv (fmdText pairs) pattern c hd).size = 0 ∨ (c : Int) = -1)
          ∧ True ∧ (c : Int) < j0 := by
        refine ⟨Or.inl ?_, trivial, hj0⟩
        rw [mkIv_size]
        exact hdie
      rw [if_pos hcond] at hrun
      have hnopush : ¬((mkIv (fmdText pairs) pattern c hd).size ≠ 0
          ∧ ((mkIv (fmdText pairs) pattern c hd).size : Int) ≠ -1) := by
        rintro ⟨h1, -⟩
        rw [mkIv_size] at h1
        exact h1 hdie
      rw [if_neg hnopush] at hrun
      have hstart : (([] : List BiInterval), (-1 : Int), (c : Int),
            ms0 ++ [mkIv (fmdText pairs) pattern (c + 1) hd])
          = (([] : List Nat).map (mkIv (fmdText pairs) pattern c), (-1 : Int), (c : Int),
            ms0 ++ [mkIv (fmdText pairs) pattern (c + 1) hd]) := rfl
      rw [hstart] at hrun
      obtain ⟨Jadd, last', hst, hdesc2, hadd2, hmeta2, hrepr2⟩ :=
        phase2_fold_tail pairs hpairs hsym pattern hpat i c a hga hci
          Jtl [] (-1) (c : Int) (ms0 ++ [mkIv (fmdText pairs) pattern (c + 1) hd]) st'
          hJtl hJtldesc (by intro z hz y hy; cases hy)
          (List.chain'_nil) (by intro y hy; cases hy)
          (Or.inl ⟨rfl, rfl, rfl⟩) hrun
      refine ⟨Jadd, last', (c : Int),
        ms0 ++ [mkIv (fmdText pairs) pattern (c + 1) hd], ?_, ?_, ?_, ?_, ?_⟩
      · rw [List.nil_append] at hst
        exact hst
      · rw [List.nil_append] at hdesc2
        exact hdesc2
      · intro y hy
        obtain ⟨hmem, hpos⟩ := hadd2 y hy
        exact ⟨List.mem_cons_of_mem hd hmem, hpos⟩
      · intro x hx hxpos
        rcases List.mem_cons.mp hx with rfl | hx2
        · exact absurd hdie (by omega)
        · obtain ⟨r, hr, hxr, hocc⟩ := hrepr2 x hx2 hxpos
          rw [List.nil_append] at hr
          exact ⟨r, hr, hxr, hocc⟩
      · exact Or.inl ⟨hdie, rfl, rfl⟩
    · have hcond : ¬(((mkIv (fmdText pairs) pattern c hd).size = 0 ∨ (c : Int) = -1)
          ∧ True ∧ (c : Int) < j0) := by
        rintro ⟨h1 | h1, -, -⟩
        · rw [mkIv_size] at h1
          exact hdie h1
        · omega
      rw [if_neg hcond] at hrun
      have hpush : (mkIv (fmdText pairs) pattern c hd).size ≠ 0
          ∧ ((mkIv (fmdText pairs) pattern c hd).size : Int) ≠ -1 := by
        constructor
        · rw [mkIv_size]
          exact hdie
        · rw [mkIv_size]
          omega
      rw [if_pos hpush] at hrun
      have hstart : (([] : List BiInterval) ++ [mkIv (fmdText pairs) pattern c hd],
            ((mkIv (fmdText pairs) pattern c hd).size : Int), j0, ms0)
          = (([hd] : List Nat).map (mkIv (fmdText pairs) pattern c),
            (cnt (fmdText pairs) (seg pattern c hd) : Int), j0, ms0) := by
        rw [List.nil_append, List.map_cons, List.map_nil, mkIv_size]
      rw [hstart] at hrun
      obtain ⟨Jadd, last', hst, hdesc2, hadd2, hmeta2, hrepr2⟩ :=
        phase2_fold_tail pairs hpairs hsym pattern hpat i c a hga hci
          Jtl [hd] (cnt (fmdText pairs) (seg pattern c hd)) j0 ms0 st'
          hJtl hJtldesc
          (by
            intro z hz y hy
            rw [List.mem_singleton.mp hy]
            exact hJtlhd z hz)
          (List.chain'_singleton hd)
          (by
            intro y hy
            rw [List.mem_singleton.mp hy]
            exact ⟨hdi, hdlen, by omega⟩)
          (Or.inr ⟨hd, List.mem_cons_self hd [], rfl, rfl⟩) hrun
      refine ⟨hd :: Jadd, last', j0, ms0, ?_, ?_, ?_, ?_, ?_⟩
      · rw [List.singleton_append] at hst
        exact hst
      · rw [List.singleton_append] at hdesc2
        exact hdesc2
      · intro y hy
        rcases List.mem_cons.mp hy with rfl | hy2
        · exact ⟨List.mem_cons_self y Jtl, by omega⟩
        · obtain ⟨hmem, hpos⟩ := hadd2 y hy2
          exact ⟨List.mem_cons_of_mem hd hmem, hpos⟩
      · intro x hx hxpos
        rcases List.mem_cons.mp hx with rfl | hx2
        · exact ⟨x, List.mem_cons_self x Jadd, le_refl x, occEq_refl _ _⟩
        · obtain ⟨r, hr, hxr, hocc⟩ := hrepr2 x hx2 hxpos
          rw [List.singleton_append] at hr
          exact ⟨r, hr, hxr, hocc⟩
      · exact Or.inr ⟨by omega, rfl, rfl⟩
theorem phase2_fold_neg1_tail (B : List Nat) (a : Nat) :
    ∀ (prev : List BiInterval) (curr : List BiInterval) (last : Int)
      (ms : List BiInterval)
      (st' : List BiInterval × Int × Int × List BiInterval),
      prev.foldlM (smemsStep B a (-1)) (curr, last, (-1 : Int), ms) = some st' →
      st'.2.2.2 = ms ∧ st'.2.2.1 = (-1 : Int) := by
  intro prev
  induction prev with
  | nil =>
    intro curr last ms st' hrun
    simp only [List.foldlM_nil] at hrun
    rw [← Option.some.inj hrun]
    exact ⟨rfl, rfl⟩
  | cons iv rest ih =>
    intro curr last ms st' hrun
    rw [List.foldlM_cons] at hrun
    cases hbe : backward_ext B iv a with
    | none =>
      have hstep : smemsStep B a (-1) (curr, last, (-1 : Int), ms) iv = none := by
        unfold smemsStep
        rw [hbe]
        rfl
      rw [hstep] at hrun
      cases hrun
    | some fi =>
      have hrec : ¬((fi.size = 0 ∨ True) ∧ curr = [] ∧ (-1 : Int) < (-1 : Int)) := by
        rintro ⟨-, -, h3⟩
        omega
      by_cases hpush : fi.size ≠ 0 ∧ (fi.size : Int) ≠ last
      · have hstep : smemsStep B a (-1) (curr, last, (-1 : Int), ms) iv
            = some (curr ++ [fi], (fi.size : Int), (-1 : Int), ms) := by
          unfold smemsStep
          rw [hbe]
          simp only [Option.bind_eq_bind, Option.some_bind]
          rw [if_neg hrec, if_pos hpush]
        rw [hstep] at hrun
        simp only [Option.some_bind, Option.bind_eq_bind] at hrun
        exact ih (curr ++ [fi]) (fi.size : Int) ms st' hrun
      · have hstep : smemsStep B a (-1) (curr, last, (-1 : Int), ms) iv
            = some (curr, last, (-1 : Int), ms) := by
          unfold smemsStep
          rw [hbe]
          simp only [Option.bind_eq_bind, Option.some_bind]
          rw [if_neg hrec, if_neg hpush]
        rw [hstep] at hrun
        simp only [Option.some_bind, Option.bind_eq_bind] at hrun
        exact ih curr last ms st' hrun

theorem phase2_fold_neg1_run (B : List Nat) (a : Nat)
    (iv0 : BiInterval) (rest : List BiInterval) (j0 : Int) (ms0 : List BiInterval)
    (st' : List BiInterval × Int × Int × List BiInterval)
    (hj0 : (-1 : Int) < j0)
    (hrun : (iv0 :: rest).foldlM (smemsStep B a (-1)) ([], -1, j0, ms0) = some st') :
    st'.2.2.2 = ms0 ++ [iv0] := by
  rw [List.foldlM_cons] at hrun
  cases hbe : backward_ext B iv0 a with
  | none =>
    have hstep : smemsStep B a (-1) ([], -1, j0, ms0) iv0 = none := by
      unfold smemsStep
      rw [hbe]
      rfl
    rw [hstep] at hrun
    cases hrun
  | some fi =>
    have hrec : (fi.size = 0 ∨ True) ∧ True ∧ (-1 : Int) < j0 :=
      ⟨Or.inr trivial, trivial, hj0⟩
    by_cases hpush : fi.size ≠ 0 ∧ (fi.size : Int) ≠ (-1 : Int)
    · have hstep : smemsStep B a (-1) ([], -1, j0, ms0) iv0
          = some ([] ++ [fi], (fi.size : Int), (-1 : Int), ms0 ++ [iv0]) := by
        unfold smemsStep
        rw [hbe]
        simp only [Option.bind_eq_bind, Option.some_bind]
        rw [if_pos hrec, if_pos hpush]
      rw [hstep] at hrun
      simp only [Option.some_bind, Option.bind_eq_bind] at hrun
      exact (phase2_fold_neg1_tail B a rest ([] ++ [fi]) (fi.size : Int)
        (ms0 ++ [iv0]) st' hrun).1
    · have hstep : smemsStep B a (-1) ([], -1, j0, ms0) iv0
          = some ([], -1, (-1 : Int), ms0 ++ [iv0]) := by
        unfold smemsStep
        rw [hbe]
        simp only [Option.bind_eq_bind, Option.some_bind]
        rw [if_pos hrec, if_neg hpush]
      rw [hstep] at hrun
      simp only [Option.some_bind, Option.bind_eq_bind] at hrun
      exact (phase2_fold_neg1_tail B a rest [] (-1)
        (ms0 ++ [iv0]) st' hrun).1
theorem phase2_sem (pairs : List (List Nat)) (hpairs : pairs ≠ [])
    (hsym : ∀ u ∈ pairs, ∀ d ∈ u, d ∈ n_alphabet)
    (pattern : List Nat) (hpat : ∀ d ∈ pattern, d ∈ n_alphabet)
    (i : Nat) (hil : i < pattern.length) :
    ∀ (c : Nat), c ≤ i →
    ∀ (hd : Nat) (Jtl : List Nat) (j0 : Int) (ms0 ms' : List BiInterval),
      List.Chain' (fun x y => y ≤ x) (hd :: Jtl) →
      (∀ x ∈ hd :: Jtl, i < x ∧ x ≤ pattern.length
        ∧ 0 < cnt (fmdText pairs) (seg pattern c x)) →
      (∀ x, x ≤ pattern.length → 0 < cnt (fmdText pairs) (seg pattern c x) → x ≤ hd) →
      (∀ x, i < x → x ≤ pattern.length → 0 < cnt (fmdText pairs) (seg pattern c x) →
        ∃ r ∈ hd :: Jtl, x ≤ r
          ∧ OccEq (fmdText pairs) (seg pattern c r) (seg pattern c x)) →
      ((c : Int) - 1 < j0) →
      (∀ bi ∈ ms0, ∃ k j, k ≤ i ∧ i < j ∧ j ≤ pattern.length
        ∧ bi = mkIv (fmdText pairs) pattern k j
        ∧ (k = 0 ∨ cnt (fmdText pairs) (seg pattern (k - 1) j) = 0)
        ∧ (j = pattern.length ∨ cnt (fmdText pairs) (seg pattern k (j + 1)) = 0)) →
      smemsPhase2 (bwtOf (fmdText pairs) (suffix_array (fmdText pairs))) pattern c
        ((hd :: Jtl).map (mkIv (fmdText pairs) pattern c)) j0 ms0 = some ms' →
      ∀ bi ∈ ms', ∃ k j, k ≤ i ∧ i < j ∧ j ≤ pattern.length
        ∧ bi = mkIv (fmdText pairs) pattern k j
        ∧ (k = 0 ∨ cnt (fmdText pairs) (seg pattern (k - 1) j) = 0)
        ∧ (j = pattern.length ∨ cnt (fmdText pairs) (seg pattern k (j + 1)) = 0) := by
  intro c
  induction c with
  | zero =>
    intro hci hd Jtl j0 ms0 ms' hJdesc hJfacts hJmax hJrepr hj0 hms0 hrun
    unfold smemsPhase2 at hrun
    rw [List.map_cons, List.foldlM_cons] at hrun
    cases hfold : (smemsStep (bwtOf (fmdText pairs) (suffix_array (fmdText pairs)))
        36 (-1)) ([], -1, j0, ms0) (mkIv (fmdText pairs) pattern 0 hd) with
    | none =>
      rw [hfold] at hrun
      cases hrun
    | some st1 =>
      rw [hfold] at hrun
      simp only [Option.some_bind, Option.bind_eq_bind] at hrun
      cases hfold2 : (Jtl.map (mkIv (fmdText pairs) pattern 0)).foldlM
          (smemsStep (bwtOf (fmdText pairs) (suffix_array (fmdText pairs))) 36 (-1))
          st1 with
      | none =>
        rw [hfold2] at hrun
        cases hrun
      | some st =>
        rw [hfold2] at hrun
        simp only [Option.some_bind, Option.bind_eq_bind] at hrun
        have hchain : ((mkIv (fmdText pairs) pattern 0 hd) :: Jtl.map
            (mkIv (fmdText pairs) pattern 0)).foldlM
            (smemsStep (bwtOf (fmdText pairs) (suffix_array (fmdText pairs))) 36 (-1))
            ([], -1, j0, ms0) = some st := by
          rw [List.foldlM_cons, hfold]
          simpa using hfold2
        have hms := phase2_fold_neg1_run
          (bwtOf (fmdText pairs) (suffix_array (fmdText pairs))) 36
          (mkIv (fmdText pairs) pattern 0 hd) (Jtl.map (mkIv (fmdText pairs) pattern 0))
          j0 ms0 st (by omega) hchain
        have hms' : ms' = ms0 ++ [mkIv (fmdText pairs) pattern 0 hd] := by
          rw [← Option.some.inj hrun]
          exact hms
        rw [hms']
        intro bi hbi
        rcases List.mem_append.mp hbi with hbi2 | hbi2
        · exact hms0 bi hbi2
        · rw [List.mem_singleton.mp hbi2]
          obtain ⟨hdi, hdlen, hdpos⟩ := hJfacts hd (List.mem_cons_self hd Jtl)
          refine ⟨0, hd, Nat.zero_le i, hdi, hdlen, rfl, Or.inl rfl, ?_⟩
          by_cases hdl : hd = pattern.length
          · exact Or.inl hdl
          · right
            by_cases hpos : 0 < cnt (fmdText pairs) (seg pattern 0 (hd + 1))
            · have := hJmax (hd + 1) (by omega) hpos
              omega
            · omega
  | succ c' ih =>
    intro hci hd Jtl j0 ms0 ms' hJdesc hJfacts hJmax hJrepr hj0 hms0 hrun
    unfold smemsPhase2 at hrun
    cases hg : pattern[c']? with
    | none =>
      rw [hg] at hrun
      cases hrun
    | some a =>
      rw [hg] at hrun
      simp only [Option.some_bind, Option.bind_eq_bind] at hrun
      cases hfold : ((hd :: Jtl).map (mkIv (fmdText pairs) pattern (c' + 1))).foldlM
          (smemsStep (bwtOf (fmdText pairs) (suffix_array (fmdText pairs))) a (c' : Int))
          ([], -1, j0, ms0) with
      | none =>
        rw [hfold] at hrun
        cases hrun
      | some st =>
        rw [hfold] at hrun
        simp only [Option.some_bind, Option.bind_eq_bind] at hrun
        obtain ⟨Jc', last', j', msA, hst, hJc'desc, hJc'facts, hfrepr, hcase⟩ :=
          phase2_fold_run pairs hpairs hsym pattern hpat i c' a hg (by omega)
            hd Jtl j0 ms0 st
            (fun x hx => ⟨(hJfacts x hx).1, (hJfacts x hx).2.1⟩)
            hJdesc (by omega) hfold
        have hmsA : ∀ bi ∈ msA, ∃ k j, k ≤ i ∧ i < j ∧ j ≤ pattern.length
            ∧ bi = mkIv (fmdText pairs) pattern k j
            ∧ (k = 0 ∨ cnt (fmdText pairs) (seg pattern (k - 1) j) = 0)
            ∧ (j = pattern.length
                ∨ cnt (fmdText pairs) (seg pattern k (j + 1)) = 0) := by
          rcases hcase with ⟨hdie, hmsEq, -⟩ | ⟨-, hmsEq, -⟩
          · rw [hmsEq]
            intro bi hbi
            rcases List.mem_append.mp hbi with hbi2 | hbi2
            · exact hms0 bi hbi2
            · rw [List.mem_singleton.mp hbi2]
              obtain ⟨hdi, hdlen, hdpos⟩ := hJfacts hd (List.mem_cons_self hd Jtl)
              refine ⟨c' + 1, hd, by omega, hdi, hdlen, rfl, ?_, ?_⟩
              · right
                have hc1 : c' + 1 - 1 = c' := by omega
                rw [hc1]
                exact hdie
              · by_cases hdl : hd = pattern.length
                · exact Or.inl hdl
                · right
                  by_cases hpos : 0 < cnt (fmdText pairs) (seg pattern (c' + 1) (hd + 1))
                  · have := hJmax (hd + 1) (by omega) hpos
                    omega
                  · omega
          · rw [hmsEq]
            exact hms0
        by_cases hemp : st.1 = []
        · rw [if_pos hemp] at hrun
          intro bi hbi
          refine hmsA bi ?_
          have : ms' = msA := by
            rw [← Option.some.inj hrun, hst]
          rw [← this]
          exact hbi
        · rw [if_neg hemp] at hrun
          have hJc'ne : Jc' ≠ [] := by
            intro hJc'nil
            rw [hst, hJc'nil] at hemp
            exact hemp rfl
          obtain ⟨hd', Jtl', hJc'0⟩ : ∃ h t, Jc' = h :: t := by
            cases Jc' with
            | nil => exact absurd rfl hJc'ne
            | cons h t => exact ⟨h, t, rfl⟩
          subst hJc'0
          · have hnewrepr : ∀ x, i < x → x ≤ pattern.length →
                0 < cnt (fmdText pairs) (seg pattern c' x) →
                ∃ r ∈ hd' :: Jtl', x ≤ r
                  ∧ OccEq (fmdText pairs) (seg pattern c' r) (seg pattern c' x) := by
              intro x hxi hxlen hxpos
              have hxup : 0 < cnt (fmdText pairs) (seg pattern (c' + 1) x) := by
                have := cnt_seg_cons_le (fmdText pairs) pattern c' x a (by omega)
                  hxlen hg
                omega
              obtain ⟨r, hr, hxr, hocc⟩ := hJrepr x hxi hxlen hxup
              obtain ⟨hri, hrlen, -⟩ := hJfacts r hr
              have hocc' : OccEq (fmdText pairs) (seg pattern c' r) (seg pattern c' x) :=
                occEq_seg_ext (fmdText pairs) pattern c' r x a (by omega) hrlen
                  (by omega) hxlen hg hocc
              have hrpos : 0 < cnt (fmdText pairs) (seg pattern c' r) := by
                rw [occEq_cnt (fmdText pairs) _ _ hocc']
                exact hxpos
              obtain ⟨r', hr', hrr', hocc2⟩ := hfrepr r hr hrpos
              refine ⟨r', hr', by omega, ?_⟩
              exact occEq_trans (fmdText pairs) _ _ _ hocc2 hocc'
            have hnewmax : ∀ x, x ≤ pattern.length →
                0 < cnt (fmdText pairs) (seg pattern c' x) → x ≤ hd' := by
              intro x hxlen hxpos
              obtain ⟨hd'mem, -⟩ := hJc'facts hd' (List.mem_cons_self hd' Jtl')
              have hd'i : i < hd' := (hJfacts hd' hd'mem).1
              by_cases hxi : i < x
              · obtain ⟨r', hr', hxr', -⟩ := hnewrepr x hxi hxlen hxpos
                have := desc_mem_le_head (hd' :: Jtl') hJc'desc r' hr' hd' rfl
                omega
              · omega
            have hguard : (c' : Int) - 1 < j' := by
              rcases hcase with ⟨-, -, hjEq⟩ | ⟨-, -, hjEq⟩
              · rw [hjEq]
                omega
              · rw [hjEq]
                omega
            have hrun' : smemsPhase2
                (bwtOf (fmdText pairs) (suffix_array (fmdText pairs))) pattern c'
                ((hd' :: Jtl').map (mkIv (fmdText pairs) pattern c')) j' msA
                = some ms' := by
              have h1 : st.1 = (hd' :: Jtl').map (mkIv (fmdText pairs) pattern c') := by
                rw [hst]
              have h2 : st.2.2.1 = j' := by
                rw [hst]
              have h3 : st.2.2.2 = msA := by
                rw [hst]
              rw [h1, h2, h3] at hrun
              exact hrun
            exact ih (by omega) hd' Jtl' j' msA ms' hJc'desc
              (fun y hy => ⟨(hJfacts y (hJc'facts y hy).1).1,
                (hJfacts y (hJc'facts y hy).1).2.1, (hJc'facts y hy).2⟩)
              hnewmax hnewrepr hguard hmsA hrun'
theorem cnt_seg_mono_right (t pattern : List Nat) (i x y : Nat)
    (hix : i ≤ x) (hxy : x ≤ y) (hy : y ≤ pattern.length) :
    cnt t (seg pattern i y) ≤ cnt t (seg pattern i x) := by
  rw [seg_append pattern i x y hix hxy hy]
  exact cnt_append_le t _ _

theorem chain_asc_concat (K : List Nat) (c d : Nat) (hcd : c ≤ d)
    (h : List.Chain' (fun x y => x ≤ y) (K ++ [c])) :
    List.Chain' (fun x y => x ≤ y) ((K ++ [c]) ++ [d]) := by
  rw [List.chain'_append]
  refine ⟨h, List.chain'_singleton d, ?_⟩
  intro x hx y hy
  have hx2 : (K ++ [c]).getLast? = some x := hx
  rw [List.getLast?_concat] at hx2
  have hy2 : ([d] : List Nat).head? = some y := hy
  rw [List.head?_cons] at hy2
  have hcx : c = x := Option.some.inj hx2
  have hdy : d = y := Option.some.inj hy2
  omega

theorem chain_asc_relast (K : List Nat) (c d : Nat) (hcd : c ≤ d)
    (h : List.Chain' (fun x y => x ≤ y) (K ++ [c])) :
    List.Chain' (fun x y => x ≤ y) (K ++ [d]) := by
  rw [List.chain'_append] at h ⊢
  obtain ⟨h1, -, h3⟩ := h
  refine ⟨h1, List.chain'_singleton d, ?_⟩
  intro x hx y hy
  have hy2 : ([d] : List Nat).head? = some y := hy
  rw [List.head?_cons] at hy2
  have hdy : d = y := Option.some.inj hy2
  have hxc := h3 x hx c rfl
  omega

theorem phase1_sem (pairs : List (List Nat)) (hpairs : pairs ≠ [])
    (hsym : ∀ u ∈ pairs, ∀ d ∈ u, d ∈ n_alphabet)
    (pattern : List Nat) (hpat : ∀ d ∈ pattern, d ∈ n_alphabet) (i : Nat) :
    ∀ (u : List Nat) (c : Nat) (K : List Nat) (acc : List BiInterval)
      (st : List BiInterval × BiInterval),
      u = pattern.drop c → i < c → c ≤ pattern.length →
      0 < cnt (fmdText pairs) (seg pattern i c) →
      acc = K.map (mkIv (fmdText pairs) pattern i) →
      List.Chain' (fun x y => x ≤ y) (K ++ [c]) →
      (∀ x ∈ K, i < x ∧ x ≤ c) →
      (∀ x, i < x → x ≤ c →
        ∃ r ∈ K ++ [c], x ≤ r ∧ cnt (fmdText pairs) (seg pattern i r)
          = cnt (fmdText pairs) (seg pattern i x)) →
      smemsPhase1 (bwtOf (fmdText pairs) (suffix_array (fmdText pairs))) u
        (mkIv (fmdText pairs) pattern i c) acc = some st →
      ∃ hdL tlL,
        (st.1 ++ [st.2]).reverse
          = (hdL :: tlL).map (mkIv (fmdText pairs) pattern i)
        ∧ List.Chain' (fun x y => y ≤ x) (hdL :: tlL)
        ∧ (∀ x ∈ hdL :: tlL, i < x ∧ x ≤ pattern.length
            ∧ 0 < cnt (fmdText pairs) (seg pattern i x))
        ∧ (∀ x, x ≤ pattern.length → 0 < cnt (fmdText pairs) (seg pattern i x) →
            x ≤ hdL)
        ∧ (∀ x, i < x → x ≤ pattern.length →
            0 < cnt (fmdText pairs) (seg pattern i x) →
            ∃ r ∈ hdL :: tlL, x ≤ r
              ∧ OccEq (fmdText pairs) (seg pattern i r) (seg pattern i x)) := by
  intro u
  induction u with
  | nil =>
    intro c K acc st hu hic hcl hposc hacc hKasc hKbnd hKrepr hrun
    unfold smemsPhase1 at hrun
    have hst : st = (acc, mkIv (fmdText pairs) pattern i c) :=
      (Option.some.inj hrun).symm
    have hclen : c = pattern.length := by
      have hle : pattern.length ≤ c := by
        rw [← List.drop_eq_nil_iff]
        exact hu.symm
      omega
    refine ⟨c, K.reverse, ?_, ?_, ?_, ?_, ?_⟩
    · rw [hst, hacc]
      simp [List.map_reverse]
    · have hrev : (K ++ [c]).reverse = c :: K.reverse := by
        simp
      rw [← hrev]
      exact List.chain'_reverse.mpr hKasc
    · intro x hx
      rcases List.mem_cons.mp hx with rfl | hx2
      · exact ⟨hic, by omega, hposc⟩
      · rw [List.mem_reverse] at hx2
        obtain ⟨h1, h2⟩ := hKbnd x hx2
        refine ⟨h1, by omega, ?_⟩
        have := cnt_seg_mono_right (fmdText pairs) pattern i x c (by omega) h2
          (by omega)
        omega
    · intro x hxlen hxpos
      omega
    · intro x hxi hxlen hxpos
      obtain ⟨r, hr, hxr, hcnt⟩ := hKrepr x hxi (by omega)
      have hrc : r ≤ c := by
        rcases List.mem_append.mp hr with hr2 | hr2
        · exact (hKbnd r hr2).2
        · rw [List.mem_singleton.mp hr2]
      have hrmem : r ∈ c :: K.reverse := by
        rcases List.mem_append.mp hr with hr2 | hr2
        · exact List.mem_cons_of_mem c (List.mem_reverse.mpr hr2)
        · rw [List.mem_singleton.mp hr2]
          exact List.mem_cons_self c K.reverse
      exact ⟨r, hrmem, hxr,
        occEq_seg_of_cnt_eq (fmdText pairs) pattern i x r hxi hxr (by omega) hcnt⟩
  | cons a u' ih =>
    intro c K acc st hu hic hcl hposc hacc hKasc hKbnd hKrepr hrun
    obtain ⟨hc, hg, hu'⟩ := drop_cons_info pattern c a u' hu.symm
    unfold smemsPhase1 at hrun
    cases hfe : forward_ext (bwtOf (fmdText pairs) (suffix_array (fmdText pairs)))
        (mkIv (fmdText pairs) pattern i c) a with
    | none =>
      rw [hfe] at hrun
      cases hrun
    | some fi =>
      have hfi : fi = mkIv (fmdText pairs) pattern i (c + 1) :=
        fwd_mkIv pairs hpairs hsym pattern hpat i c a hic hc hg fi hfe
      subst hfi
      rw [hfe] at hrun
      simp only [Option.bind_eq_bind, Option.some_bind] at hrun
      by_cases hz : (mkIv (fmdText pairs) pattern i (c + 1)).size = 0
      · rw [if_pos hz] at hrun
        have hdead : cnt (fmdText pairs) (seg pattern i (c + 1)) = 0 := by
          rw [mkIv_size] at hz
          exact hz
        have hsz : (mkIv (fmdText pairs) pattern i c).size
            ≠ (mkIv (fmdText pairs) pattern i (c + 1)).size := by
          rw [mkIv_size, mkIv_size, hdead]
          omega
        rw [if_pos hsz] at hrun
        have hst : st = (acc ++ [mkIv (fmdText pairs) pattern i c],
            mkIv (fmdText pairs) pattern i c) := (Option.some.inj hrun).symm
        have hmax : ∀ x, x ≤ pattern.length →
            0 < cnt (fmdText pairs) (seg pattern i x) → x ≤ c := by
          intro x hxlen hxpos
          by_contra hgt
          push_neg at hgt
          have := cnt_seg_mono_right (fmdText pairs) pattern i (c + 1) x (by omega)
            (by omega) hxlen
          omega
        refine ⟨c, (K ++ [c]).reverse, ?_, ?_, ?_, hmax, ?_⟩
        · rw [hst, hacc]
          simp [List.map_reverse]
        · have hrev : ((K ++ [c]) ++ [c]).reverse = c :: (K ++ [c]).reverse := by
            simp
          rw [← hrev]
          exact List.chain'_reverse.mpr (chain_asc_concat K c c (le_refl c) hKasc)
        · intro x hx
          rcases List.mem_cons.mp hx with rfl | hx2
          · exact ⟨hic, by omega, hposc⟩
          · rw [List.mem_reverse] at hx2
            have hxc : i < x ∧ x ≤ c := by
              rcases List.mem_append.mp hx2 with hx3 | hx3
              · exact hKbnd x hx3
              · rw [List.mem_singleton.mp hx3]
                exact ⟨hic, le_refl c⟩
            refine ⟨hxc.1, by omega, ?_⟩
            have := cnt_seg_mono_right (fmdText pairs) pattern i x c hxc.1.le hxc.2
              (by omega)
            omega
        · intro x hxi hxlen hxpos
          have hxc : x ≤ c := hmax x hxlen hxpos
          obtain ⟨r, hr, hxr, hcnt⟩ := hKrepr x hxi hxc
          have hrc : r ≤ c := by
            rcases List.mem_append.mp hr with hr2 | hr2
            · exact (hKbnd r hr2).2
            · rw [List.mem_singleton.mp hr2]
          have hrmem : r ∈ c :: (K ++ [c]).reverse :=
            List.mem_cons_of_mem c (List.mem_reverse.mpr hr)
          exact ⟨r, hrmem, hxr,
            occEq_seg_of_cnt_eq (fmdText pairs) pattern i x r hxi hxr (by omega) hcnt⟩
      · rw [if_neg hz] at hrun
        have hpos' : 0 < cnt (fmdText pairs) (seg pattern i (c + 1)) := by
          rw [mkIv_size] at hz
          omega
        by_cases hsz : (mkIv (fmdText pairs) pattern i c).size
            ≠ (mkIv (fmdText pairs) pattern i (c + 1)).size
        · rw [if_pos hsz] at hrun
          have hacc' : acc ++ [mkIv (fmdText pairs) pattern i c]
              = (K ++ [c]).map (mkIv (fmdText pairs) pattern i) := by
            rw [hacc, List.map_append, List.map_cons, List.map_nil]
          have hrepr' : ∀ x, i < x → x ≤ c + 1 →
              ∃ r ∈ (K ++ [c]) ++ [c + 1], x ≤ r
                ∧ cnt (fmdText pairs) (seg pattern i r)
                  = cnt (fmdText pairs) (seg pattern i x) := by
            intro x hxi hxc1
            by_cases hxc : x ≤ c
            · obtain ⟨r, hr, hxr, hcnt⟩ := hKrepr x hxi hxc
              exact ⟨r, List.mem_append_left [c + 1] hr, hxr, hcnt⟩
            · have hxeq : x = c + 1 := by omega
              refine ⟨c + 1,
                List.mem_append_right (K ++ [c]) (List.mem_singleton.mpr rfl),
                by omega, by rw [hxeq]⟩
          exact ih (c + 1) (K ++ [c]) (acc ++ [mkIv (fmdText pairs) pattern i c]) st
            hu' (by omega) (by omega) hpos' hacc'
            (chain_asc_concat K c (c + 1) (by omega) hKasc)
            (by
              intro x hx
              rcases List.mem_append.mp hx with hx2 | hx2
              · obtain ⟨h1, h2⟩ := hKbnd x hx2
                exact ⟨h1, by omega⟩
              · rw [List.mem_singleton.mp hx2]
                exact ⟨hic, by omega⟩)
            hrepr' hrun
        · rw [if_neg hsz] at hrun
          push_neg at hsz
          have heq : cnt (fmdText pairs) (seg pattern i c)
              = cnt (fmdText pairs) (seg pattern i (c + 1)) := by
            rw [mkIv_size, mkIv_size] at hsz
            exact hsz
          have hrepr' : ∀ x, i < x → x ≤ c + 1 →
              ∃ r ∈ K ++ [c + 1], x ≤ r
                ∧ cnt (fmdText pairs) (seg pattern i r)
                  = cnt (fmdText pairs) (seg pattern i x) := by
            intro x hxi hxc1
            by_cases hxc : x ≤ c
            · obtain ⟨r, hr, hxr, hcnt⟩ := hKrepr x hxi hxc
              rcases List.mem_append.mp hr with hr2 | hr2
              · exact ⟨r, List.mem_append_left [c + 1] hr2, hxr, hcnt⟩
              · have hrc : r = c := List.mem_singleton.mp hr2
                refine ⟨c + 1,
                  List.mem_append_right K (List.mem_singleton.mpr rfl),
                  by omega, ?_⟩
                rw [← heq, ← hrc]
                exact hcnt
            · have hxeq : x = c + 1 := by omega
              refine ⟨c + 1,
                List.mem_append_right K (List.mem_singleton.mpr rfl),
                by omega, by rw [hxeq]⟩
          exact ih (c + 1) K acc st
            hu' (by omega) (by omega) hpos' hacc
            (chain_asc_relast K c (c + 1) (by omega) hKasc)
            (by
              intro x hx
              obtain ⟨h1, h2⟩ := hKbnd x hx
              exact ⟨h1, by omega⟩)
            hrepr' hrun
/-- Claim C3: on a valid FMD text (blocks `T$revcomp(T)$` over the DNA
alphabet) and a DNA pattern, every bi-interval returned by `smems(pattern, i)`
is the interval of a substring `pattern[k..j)` spanning the anchor `i`, with
`match_size = j - k`, and neither one-symbol extension inside the pattern —
`pattern[k-1..j)` on the left nor `pattern[k..j+1)` on the right — still
occurs in the text. -/
theorem smems_supermaximal (pairs : List (List Nat)) (hpairs : pairs ≠ [])
    (hsym : ∀ u ∈ pairs, ∀ d ∈ u, d ∈ n_alphabet)
    (pattern : List Nat) (hpat : ∀ d ∈ pattern, d ∈ n_alphabet)
    (i : Nat) (ms : List BiInterval)
    (hrun : smems (bwtOf (fmdText pairs) (suffix_array (fmdText pairs)))
      pattern i = some ms) :
    ∀ bi ∈ ms, ∃ k j, k ≤ i ∧ i < j ∧ j ≤ pattern.length
      ∧ bi = mkIv (fmdText pairs) pattern k j
      ∧ bi.match_size = j - k
      ∧ (k = 0 ∨ cnt (fmdText pairs) (seg pattern (k - 1) j) = 0)
      ∧ (j = pattern.length ∨ cnt (fmdText pairs) (seg pattern k (j + 1)) = 0) := by
  unfold smems at hrun
  cases hinit : init_interval (bwtOf (fmdText pairs) (suffix_array (fmdText pairs)))
      pattern i with
  | none =>
    rw [hinit] at hrun
    cases hrun
  | some iv0 =>
    rw [hinit] at hrun
    simp only [Option.bind_eq_bind, Option.some_bind] at hrun
    cases hph1 : smemsPhase1 (bwtOf (fmdText pairs) (suffix_array (fmdText pairs)))
        (pattern.drop (i + 1)) iv0 [] with
    | none =>
      rw [hph1] at hrun
      cases hrun
    | some st =>
      rw [hph1] at hrun
      simp only [Option.bind_eq_bind, Option.some_bind] at hrun
      have hi : i < pattern.length :=
        (init_interval_some (bwtOf (fmdText pairs) (suffix_array (fmdText pairs)))
          pattern i iv0 hinit).1
      by_cases hdeg : cnt (fmdText pairs) (seg pattern i (i + 1)) = 0
      · have hext0 : extendRight (bwtOf (fmdText pairs) (suffix_array (fmdText pairs)))
            pattern i (i + 1) = some iv0 := by
          rw [extendRight_init (bwtOf (fmdText pairs) (suffix_array (fmdText pairs)))
            pattern i hi]
          exact hinit
        have hp1 := phase1_inv
          (bwtOf (fmdText pairs) (suffix_array (fmdText pairs))) pattern i
          (pattern.drop (i + 1)) (i + 1) iv0 [] st
          rfl (by omega) (by omega) hext0 (by intro x hx; cases hx) hph1
        have hprev : ∀ x ∈ (st.1 ++ [st.2]).reverse,
            ∃ j', i < j' ∧ j' ≤ pattern.length ∧
              extendChain (bwtOf (fmdText pairs) (suffix_array (fmdText pairs)))
                pattern i i j' = some x := by
          intro x hx
          rw [List.mem_reverse] at hx
          rcases List.mem_append.mp hx with hx | hx
          · obtain ⟨j', h1, h2, h3⟩ := hp1.1 x hx
            exact ⟨j', h1, h2, by rw [extendChain_self]; exact h3⟩
          · rw [List.mem_singleton.mp hx]
            obtain ⟨j', h1, h2, h3⟩ := hp1.2
            exact ⟨j', h1, h2, by rw [extendChain_self]; exact h3⟩
        have hfin := phase2_run
          (bwtOf (fmdText pairs) (suffix_array (fmdText pairs))) pattern i hi i
          ((st.1 ++ [st.2]).reverse) (pattern.length : Int) [] ms (le_refl i) hprev
          (by intro x hx; cases hx) hrun
        intro bi hbi
        obtain ⟨m, j', h1, h2, h3, h4⟩ := hfin bi hbi
        have hbi2 : bi = mkIv (fmdText pairs) pattern m j' :=
          extendChain_sem pairs hpairs hsym pattern hpat i j' h2 h3 (i - m) m
            (by omega) bi h4
        refine ⟨m, j', h1, h2, h3, hbi2, by rw [hbi2]; rfl, Or.inr ?_, ?_⟩
        · exact cnt_zero_contain (fmdText pairs) pattern i (m - 1) j'
            (by omega) h2 h3 hdeg
        · by_cases hjl : j' = pattern.length
          · exact Or.inl hjl
          · exact Or.inr (cnt_zero_contain (fmdText pairs) pattern i m (j' + 1)
              h1 (by omega) (by omega) hdeg)
      · have hpos0 : 0 < cnt (fmdText pairs) (seg pattern i (i + 1)) :=
          Nat.pos_of_ne_zero hdeg
        cases hga : pattern[i]? with
        | none =>
          exfalso
          have := List.getElem?_eq_none_iff.mp hga
          omega
        | some a =>
          have ha : a ∈ n_alphabet := by
            refine hpat a ?_
            have := List.getElem?_eq_some_iff.mp hga
            obtain ⟨hlt, hval⟩ := this
            rw [← hval]
            exact List.getElem_mem hlt
          have hiv0 : iv0 = mkIv (fmdText pairs) pattern i (i + 1) :=
            init_mkIv pairs pattern i a hga ha iv0 hinit
          rw [hiv0] at hph1
          obtain ⟨hdL, tlL, hmapeq, hdesc, hfacts, hmax, hrepr⟩ :=
            phase1_sem pairs hpairs hsym pattern hpat i
              (pattern.drop (i + 1)) (i + 1) [] [] st
              rfl (by omega) (by omega) hpos0 rfl
              (List.chain'_singleton (i + 1))
              (by intro x hx; cases hx)
              (by
                intro x hx1 hx2
                have hxe : x = i + 1 := by omega
                exact ⟨i + 1, List.mem_singleton.mpr rfl, by omega, by rw [hxe]⟩)
              hph1
          rw [hmapeq] at hrun
          have hfin := phase2_sem pairs hpairs hsym pattern hpat i hi i (le_refl i)
            hdL tlL (pattern.length : Int) [] ms hdesc hfacts hmax hrepr
            (by omega) (by intro bi hbi; cases hbi) hrun
          intro bi hbi
          obtain ⟨k, j, h1, h2, h3, h4, h5, h6⟩ := hfin bi hbi
          exact ⟨k, j, h1, h2, h3, h4, by rw [h4]; rfl, h5, h6⟩

/-- Witness for C3: on the FMD text built from the block `GCCTTAACAT` (the
source's `test_smems` data) with pattern `AA` and anchor `0`, the returned
interval `⟨2, 20, 2, 2⟩` is the interval of `AA` itself, and neither
extension of `AA` inside the pattern exists (the whole pattern is matched). -/
theorem smems_supermaximal_witness :
    ∃ k j, k ≤ 0 ∧ 0 < j ∧ j ≤ ([65, 65] : List Nat).length
      ∧ (⟨2, 20, 2, 2⟩ : BiInterval)
          = mkIv (fmdText [[71, 67, 67, 84, 84, 65, 65, 67, 65, 84]]) [65, 65] k j
      ∧ (⟨2, 20, 2, 2⟩ : BiInterval).match_size = j - k
      ∧ (k = 0 ∨ cnt (fmdText [[71, 67, 67, 84, 84, 65, 65, 67, 65, 84]])
          (seg [65, 65] (k - 1) j) = 0)
      ∧ (j = ([65, 65] : List Nat).length
          ∨ cnt (fmdText [[71, 67, 67, 84, 84, 65, 65, 67, 65, 84]])
              (seg [65, 65] k (j + 1)) = 0) :=
  smems_supermaximal [[71, 67, 67, 84, 84, 65, 65, 67, 65, 84]] (by decide)
    (by decide) [65, 65] (by decide) 0 [⟨2, 20, 2, 2⟩] (by decide)
    ⟨2, 20, 2, 2⟩ (by decide)
/-- Claim C7, counterexample: on the BWT `[65, 84, 36]` of the text `TA$`,
the pattern `$$` reaches `less + Occ(r, a) = 0` on its second symbol, and the
update `r = less + Occ(r, a) - 1` underflows the usize: the loop is not
well-defined for every pattern. -/
theorem backward_search_dollar_dollar_panics :
    backward_search [65, 84, 36] [36, 36] = none := by decide

end RB
